import Mathlib

/-!
The semantic checker and the code generator of emoji-lang (`src/nodes.h`).

A shallow embedding of the AST classes of `nodes.h`, of `CheckVars` and of the
`codegen` methods, followed by theorems about them.

Conventions of the embedding.

* A C++ `Node*` tree is a value of `Node`: the address of the object, the
  dynamic class with its data members (`Kind`), and the `children` vector.
* Global and member variables become fields of an explicit state that is
  passed through (`CheckState` for `CheckVars::vars`, `errorcount` and `cerr`;
  `State` for `symbols`, `backend`, `current_func` and `cerr`).
* Undefined behaviour of the C++ code (indexing `children` out of range,
  dereferencing a null `Value*`) is the result `none`.
-/

namespace EmojiLang

/-! ## AST model -/

/-- The C++ type `int` of `Int::value`. -/
abbrev CInt := Int

/-- The C++ type `double` of `Float::value`, as its IEEE-754 bit pattern. The code never
computes with a `double`; it only passes it on. -/
structure Double where
  bits : Nat
deriving DecidableEq, Repr

/-- The enumeration `Decl::IdType { NUM = 1, STR }`. -/
inductive IdType where
  | NUM
  | STR
deriving DecidableEq, Repr

/-- The integer value of an `IdType` enumerator. -/
def IdType.val : IdType → Nat
  | .NUM => 1
  | .STR => 2

/-- The enumeration `Relational::Oper`. -/
inductive RelOper where
  | EQUAL
  | DIFF
  | GREATER
  | LESS
  | GREATER_EQUAL
  | LESS_EQUAL
deriving DecidableEq, Repr

/-- The enumeration `Logical::Oper`. -/
inductive LogOper where
  | AND
  | OR
  | NOT
deriving DecidableEq, Repr

/-- The dynamic class of a node together with the data members of that class. -/
inductive Kind where
  | Node
  | Program
  | Stmts
  | Ident (name : String)
  | Float (value : Double)
  | Int (value : CInt)
  | Str (value : String)
  | Attr (ident : String)
  | Decl (ident : String) (type : IdType)
  | Print
  | Arit (oper : Char)
  | Inc (ident : String)
  | Dec (ident : String)
  | While
  | If
  | IfElse
  | Relational (oper : RelOper)
  | Logical (oper : LogOper)
deriving DecidableEq, Repr

/-- A node object: its address (the value of the `Node*`), its class and the vector
`children`. -/
inductive Node where
  | mk (addr : Nat) (kind : Kind) (children : List Node)
deriving Repr

/-- Address of the node object. -/
def Node.addr : Node → Nat
  | .mk a _ _ => a

/-- Dynamic class of the node. -/
def Node.kind : Node → Kind
  | .mk _ k _ => k

/-- The method `Node::getChildren`. -/
def Node.getChildren : Node → List Node
  | .mk _ _ cs => cs

/-- The method `Node::addChild`: `children.push_back(n)`. -/
def Node.addChild : Node → Node → Node
  | .mk a k cs, n => .mk a k (cs ++ [n])

/-! ### Constructors of the node classes

Every constructor takes the address `a` that `new` returned for the object. -/

/-- `new Program()`. -/
def Node.Program (a : Nat) : Node := .mk a .Program []

/-- `new Stmts()`. -/
def Node.Stmts (a : Nat) : Node := .mk a .Stmts []

/-- `new Ident(name)`. -/
def Node.Ident (a : Nat) (name : String) : Node := .mk a (.Ident name) []

/-- `new Float(v)`. -/
def Node.Float (a : Nat) (v : Double) : Node := .mk a (.Float v) []

/-- `new Int(v)`. -/
def Node.Int (a : Nat) (v : CInt) : Node := .mk a (.Int v) []

/-- `new Str(v)`. -/
def Node.Str (a : Nat) (v : String) : Node := .mk a (.Str v) []

/-- `new Attr(ident, d)`. -/
def Node.Attr (a : Nat) (ident : String) (d : Node) : Node := .mk a (.Attr ident) [d]

/-- `new Decl(ident, type)`. -/
def Node.Decl (a : Nat) (ident : String) (type : IdType) : Node := .mk a (.Decl ident type) []

/-- `new Print(expr)`. -/
def Node.Print (a : Nat) (expr : Node) : Node := .mk a .Print [expr]

/-- `new Arit(left, right, oper)`. -/
def Node.Arit (a : Nat) (left right : Node) (oper : Char) : Node := .mk a (.Arit oper) [left, right]

/-- `new Inc(id)`; `a1` is the address of the `Ident` object the constructor allocates. -/
def Node.Inc (a a1 : Nat) (id : String) : Node := .mk a (.Inc id) [Node.Ident a1 id]

/-- `new Dec(id)`; `a1` is the address of the `Ident` object the constructor allocates. -/
def Node.Dec (a a1 : Nat) (id : String) : Node := .mk a (.Dec id) [Node.Ident a1 id]

/-- `new While(logical, stmts)`. -/
def Node.While (a : Nat) (logical stmts : Node) : Node := .mk a .While [logical, stmts]

/-- `new If(logical, stmts)`. -/
def Node.If (a : Nat) (logical stmts : Node) : Node := .mk a .If [logical, stmts]

/-- `new IfElse(logical, ifStmts, elseStmts)`. -/
def Node.IfElse (a : Nat) (logical ifStmts elseStmts : Node) : Node :=
  .mk a .IfElse [logical, ifStmts, elseStmts]

/-- `new Relational(le, oper, re)`. -/
def Node.Relational (a : Nat) (le : Node) (oper : RelOper) (re : Node) : Node :=
  .mk a (.Relational oper) [le, re]

/-- `new Logical(lr, oper, rr)`, the three-argument constructor. -/
def Node.Logical (a : Nat) (lr : Node) (oper : LogOper) (rr : Node) : Node :=
  .mk a (.Logical oper) [lr, rr]

/-- `new Logical(r, oper)`, the two-argument constructor. -/
def Node.Logical1 (a : Nat) (r : Node) (oper : LogOper) : Node :=
  .mk a (.Logical oper) [r]

/-! ## `CheckVars` -/

/-- The state the checker works on: the member `CheckVars::vars`
(a `map<string, Decl::IdType>`, kept as an association list, newest entry first, with the
enumerators as their integer values), the global `errorcount`, and the lines written to
`cerr`. -/
structure CheckState where
  vars : List (String × Nat)
  errorcount : Nat
  cerr : List String
deriving DecidableEq, Repr

/-- `vars.count(name)`: 1 if the key is present and 0 otherwise. -/
def CheckState.count (st : CheckState) (name : String) : Nat :=
  if (st.vars.lookup name).isSome then 1 else 0

/-- `cerr << msg << name << endl; errorcount++;`. -/
def CheckState.error (st : CheckState) (msg name : String) : CheckState :=
  { st with cerr := st.cerr ++ [msg ++ name], errorcount := st.errorcount + 1 }

/-- The expression `vars[name]` used as a value: `std::map::operator[]` returns the mapped value
and, when the key is absent, first inserts it with the value-initialised `IdType`, which is 0. -/
def CheckState.index (st : CheckState) (name : String) : Nat × CheckState :=
  match st.vars.lookup name with
  | some v => (v, st)
  | none => (0, { st with vars := (name, 0) :: st.vars })

/-- The "visit root" part of `CheckVars::checkRecursive` (the three `dynamic_cast` tests after
the loop over the children). -/
def visit (n : Node) (st : CheckState) : Option CheckState :=
  match n with
  | .mk _ (.Decl ident type) _ =>
    if st.count ident = 0 then
      some { st with vars := (ident, type.val) :: st.vars }
    else
      some (st.error "Redeclared var " ident)
  | .mk _ (.Attr ident) cs =>
    if st.count ident = 0 then
      some (st.error "Undeclared var " ident)
    else
      match cs with
      | [] => none
      | c :: _ =>
        let r : Nat × CheckState :=
          match c.kind with
          | .Ident name => st.index name
          | .Str _ => (IdType.STR.val, st)
          | _ => (IdType.NUM.val, st)
        let q := r.2.index ident
        if q.1 ≠ r.1 then
          some (q.2.error "Incorrect type assigned to " ident)
        else
          some q.2
  | .mk _ (.Ident name) _ =>
    if st.count name = 0 then
      some (st.error "Undeclared var " name)
    else
      some st
  | _ => some st

mutual
/-- The method `CheckVars::checkRecursive`. -/
def checkRecursive : Node → CheckState → Option CheckState
  | .mk a k cs, st => (checkChildren cs st).bind (visit (.mk a k cs))
/-- The loop `for (Node *c : n->getChildren()) checkRecursive(c);`. -/
def checkChildren : List Node → CheckState → Option CheckState
  | [], st => some st
  | c :: cs, st => (checkRecursive c st).bind (checkChildren cs)
end

/-- The method `CheckVars::check`. -/
def check (n : Node) (st : CheckState) : Option CheckState :=
  checkRecursive n st

/-- A freshly constructed `CheckVars` (empty `vars`), with the given value of the global
`errorcount` and the given lines already on `cerr`. -/
def CheckState.fresh (errorcount : Nat) (cerr : List String) : CheckState :=
  { vars := [], errorcount := errorcount, cerr := cerr }

/-! ### The order of the visits -/

mutual
/-- The nodes of a tree in the order in which `checkRecursive` reaches its "visit root" part:
the children first, from left to right, then the node itself. -/
def postorder : Node → List Node
  | .mk a k cs => postorderList cs ++ [.mk a k cs]
/-- The visit order of a vector of children. -/
def postorderList : List Node → List Node
  | [] => []
  | c :: cs => postorder c ++ postorderList cs
end

/-- Visiting a sequence of nodes one after the other. -/
def visitAll : List Node → CheckState → Option CheckState
  | [], st => some st
  | u :: us, st => (visit u st).bind (visitAll us)

/-- The number of children the constructor of each class pushes. -/
def Kind.arity : Kind → Nat
  | .Attr _ => 1
  | .Print => 1
  | .Arit _ => 2
  | .Inc _ => 1
  | .Dec _ => 1
  | .While => 2
  | .If => 2
  | .IfElse => 3
  | .Relational _ => 2
  | .Logical _ => 1
  | _ => 0

/-- What the constructors and `addChild` guarantee about a single node: it has at least the
children its constructor pushed (`addChild` only appends), and the first child of an `Inc` or
`Dec` is the `Ident` the constructor made. -/
def Node.shapeOk : Node → Bool
  | .mk _ (.Inc id) (c :: _) => c.kind = .Ident id
  | .mk _ (.Dec id) (c :: _) => c.kind = .Ident id
  | .mk _ k cs => k.arity ≤ cs.length

/-- A tree all of whose nodes can have been built by the constructors and `addChild`. -/
def Node.WF (t : Node) : Prop := ∀ u ∈ postorder t, u.shapeOk = true

/-- The name a `Decl` node declares. -/
def Node.declares (u : Node) : Option String :=
  match u.kind with
  | .Decl ident _ => some ident
  | _ => none

/-- The name an `Ident` or `Attr` node refers to. -/
def Node.uses (u : Node) : Option String :=
  match u.kind with
  | .Ident name => some name
  | .Attr ident => some ident
  | _ => none

/-- No two `Decl` nodes of the sequence carry the same name. -/
def NoDupDecl (order : List Node) : Prop := (order.filterMap Node.declares).Nodup

/-- The node at position `i`, if it is an `Ident` or `Attr`, comes after a `Decl` of its
name. -/
def usedAfterDeclAt (order : List Node) (i : Nat) : Bool :=
  match order[i]?.bind Node.uses with
  | none => true
  | some name => (order.take i).any (fun d => d.declares == some name)

/-- Every `Ident` and `Attr` node of the sequence comes after a `Decl` node of its name. -/
def UsedAfterDecl (order : List Node) : Prop :=
  ∀ i, i < order.length → usedAfterDeclAt order i = true

/-- The kind with which the first `Decl` of `x` in the sequence declares it. -/
def declKind (order : List Node) (x : String) : Option IdType :=
  order.findSome? (fun d =>
    match d.kind with
    | .Decl y ty => if y = x then some ty else none
    | _ => none)

/-- The kind of a right-hand side as the program text gives it: `STR` for a string literal, the
declared kind of the identifier for an identifier, `NUM` for every other expression. -/
def rhsKind (order : List Node) (rhs : Node) : Option IdType :=
  match rhs.kind with
  | .Str _ => some .STR
  | .Ident y => declKind order y
  | _ => some .NUM

/-- Every assignment of the sequence assigns a right-hand side of the declared kind of its
target. -/
def TypesAgree (order : List Node) : Prop :=
  ∀ u ∈ order,
    (match u with
     | .mk _ (.Attr x) (rhs :: _) => decide (rhsKind order rhs = declKind order x)
     | _ => true) = true

/-- Every node of the sequence comes after its children. -/
def ChildrenFirst (l : List Node) : Prop :=
  ∀ p q u, l = p ++ u :: q → ∀ c ∈ u.getChildren, c ∈ p

/-- The state `st'` comes from `st` by writing the lines `new` to `cerr`, counting one error
for each of them, and keeping every entry of the table. -/
structure Grows (st st' : CheckState) (new : List String) : Prop where
  cerr : st'.cerr = st.cerr ++ new
  count : st'.errorcount = st.errorcount + new.length
  vars : ∀ y v, st.vars.lookup y = some v → st'.vars.lookup y = some v

/-- What holds of the table `vars` and of the lines `new` written so far when the nodes `p`
have been visited, starting from an empty table: every key of the table, and every name an
`Ident` or `Attr` node of `p` refers to, is declared by a `Decl` node of `p` or has been
reported as undeclared. -/
def UndeclInv (p : List Node) (vars : List (String × Nat)) (new : List String) : Prop :=
  (∀ name v, vars.lookup name = some v →
    (∃ d ∈ p, d.declares = some name) ∨ "Undeclared var " ++ name ∈ new) ∧
  (∀ u ∈ p, ∀ name, u.uses = some name →
    (∃ d ∈ p, d.declares = some name) ∨ "Undeclared var " ++ name ∈ new)

/-- A numeric expression on the right-hand side of an assignment: an `Int` or `Float`
literal, an `Arit` or a `Relational` node. -/
def Node.isNumeric (e : Node) : Bool :=
  match e.kind with
  | .Int _ => true
  | .Float _ => true
  | .Arit _ => true
  | .Relational _ => true
  | _ => false

/-- What holds of the checker state when the nodes `p` of a valid program have been visited,
starting from an empty table: no error has been counted or reported, and the table holds
exactly the declarations of `p`. -/
def ValidInv (e0 : Nat) (c0 : List String) (p : List Node) (st : CheckState) : Prop :=
  st.errorcount = e0 ∧ st.cerr = c0 ∧
    ∀ y, st.vars.lookup y = (declKind p y).map IdType.val

instance (t : Node) : Decidable t.WF := by
  unfold Node.WF; infer_instance

instance (order : List Node) : Decidable (NoDupDecl order) := by
  unfold NoDupDecl; infer_instance

instance (order : List Node) : Decidable (UsedAfterDecl order) := by
  unfold UsedAfterDecl; infer_instance

instance (order : List Node) : Decidable (TypesAgree order) := by
  unfold TypesAgree; infer_instance

/-- The kind the checker infers for the right-hand side of an assignment when the table is
`st.vars`: `STR` for a `Str` literal, the table kind of `y` for `Ident(y)` with `y` in the
table, `NUM` for a node of any class other than `Str` and `Ident`. Nothing is said for an
`Ident(y)` with `y` not in the table. -/
def inferredKind (st : CheckState) (rhs : Node) : Option Nat :=
  match rhs.kind with
  | .Str _ => some IdType.STR.val
  | .Ident y => st.vars.lookup y
  | _ => some IdType.NUM.val

/-! ### Example programs -/

/-- The program `NUM x; STR s; x = x + 1; s = "a"; x++; print s`. -/
def progValid : Node :=
  .mk 100 .Program [.mk 101 .Stmts [
    Node.Decl 1 "x" .NUM,
    Node.Decl 2 "s" .STR,
    Node.Attr 6 "x" (Node.Arit 5 (Node.Ident 3 "x") (Node.Int 4 1) '+'),
    Node.Attr 8 "s" (Node.Str 7 "a"),
    Node.Inc 10 9 "x",
    Node.Print 12 (Node.Ident 11 "s")]]

/-- The program `STR x; x = 1`. -/
def progStrNum : Node :=
  .mk 100 .Program [.mk 101 .Stmts [
    Node.Decl 1 "x" .STR,
    Node.Attr 3 "x" (Node.Int 2 1)]]

/-- The program `NUM x; NUM x`. -/
def progRedecl : Node :=
  .mk 100 .Program [.mk 101 .Stmts [
    Node.Decl 1 "x" .NUM,
    Node.Decl 2 "x" .NUM]]

/-- The program `NUM x; x = y; print y`. -/
def progUndecl : Node :=
  .mk 100 .Program [.mk 101 .Stmts [
    Node.Decl 1 "x" .NUM,
    Node.Attr 3 "x" (Node.Ident 2 "y"),
    Node.Print 5 (Node.Ident 4 "y")]]

/-- The program `NUM x; STR x; x = 1`. -/
def progNumStrNum : Node :=
  .mk 100 .Program [.mk 101 .Stmts [
    Node.Decl 1 "x" .NUM,
    Node.Decl 2 "x" .STR,
    Node.Attr 4 "x" (Node.Int 3 1)]]

/-! ## The IR builder

`nodes.h` builds LLVM IR through the globals that `backllvm.h` declares: the `IRBuilder`
`backend`, the context `ctx`, the function under construction `current_func`, and the runtime
functions `printfloat` and `printstr`. The part of their state that the `codegen` methods read
or change is modelled by `State`. The constant folder of the builder is not modelled: every
`Create...` call of an instruction appends that instruction. Passing a null `Value*` to the
builder is undefined behaviour and is the result `none`. -/

/-- The types of the IR values the generator produces. -/
inductive Ty where
  | double
  | pointer
  | i1
  | i16
  | label
  | void
deriving DecidableEq, Repr

/-- The argument of `APFloat(...)`: either the `double` of a `Float` node or the converted
`int` of an `Int` node, `(double)value`. -/
inductive APFloat where
  | ofDouble (d : Double)
  | ofInt (i : CInt)
deriving DecidableEq, Repr

/-- A non-null `Value*`. An instruction is identified by the number `id` it got when it was
created. -/
inductive Value where
  | constFP (v : APFloat)
  | constInt (width : Nat) (v : Nat)
  | globalString (idx : Nat)
  | block (idx : Nat)
  | alloca (id : Nat) (ty : Ty)
  | inst (id : Nat) (ty : Ty)
deriving DecidableEq, Repr

/-- The method `Value::getType`. -/
def Value.getType : Value → Ty
  | .constFP _ => .double
  | .constInt _ _ => .i16
  | .globalString _ => .pointer
  | .block _ => .label
  | .alloca _ _ => .pointer
  | .inst _ ty => ty

/-- A runtime function declared by `backllvm.h`, with its return type. -/
structure Func where
  name : String
  retTy : Ty
deriving DecidableEq, Repr

/-- The binary operators the generator emits. -/
inductive BinOp where
  | FAdd
  | FSub
  | FMul
  | FDiv
  | And
  | Or
deriving DecidableEq, Repr

/-- The ordered floating-point comparison predicates. -/
inductive FCmp where
  | OEQ
  | ONE
  | OGT
  | OLT
  | OGE
  | OLE
deriving DecidableEq, Repr

/-- An IR instruction; `id` identifies it as a `Value`. Basic blocks are referred to by their
index in the function. -/
inductive Instr where
  | alloca (id : Nat) (ty : Ty) (name : String)
  | load (id : Nat) (ty : Ty) (ptr : Value) (name : String)
  | store (id : Nat) (val ptr : Value)
  | call (id : Nat) (callee : Func) (args : List Value)
  | binop (id : Nat) (op : BinOp) (l r : Value)
  | fcmp (id : Nat) (pred : FCmp) (l r : Value)
  | not (id : Nat) (v : Value)
  | br (id : Nat) (dest : Nat)
  | condBr (id : Nat) (cond : Value) (ifTrue ifFalse : Nat)
  | ret (id : Nat) (v : Value)
deriving DecidableEq, Repr

/-- A basic block: the name it was created with and its instructions in order. -/
structure Block where
  name : String
  instrs : List Instr
deriving DecidableEq, Repr

/-- The state of code generation: the global `symbols` (a `map<string, Value*>`, kept as an
association list, newest entry first; `none` is a null pointer), the basic blocks of
`current_func` in creation order, the block the builder inserts into (at its end), the number
of instructions created so far, the global strings of the module, the two runtime functions,
and the lines written to `cerr`. -/
structure State where
  symbols : List (String × Option Value)
  blocks : List Block
  insertPoint : Option Nat
  nextId : Nat
  strings : List String
  printfloat : Func
  printstr : Func
  cerr : List String
deriving DecidableEq, Repr

/-- The expression `symbols[name]` used as a value: the mapped pointer; when the key is
absent `std::map::operator[]` first inserts it with a null pointer. -/
def State.symbolsIndex (s : State) (name : String) : Option Value × State :=
  match s.symbols.lookup name with
  | some v => (v, s)
  | none => (none, { s with symbols := (name, none) :: s.symbols })

/-- The assignment `symbols[name] = v`. -/
def State.symbolsAssign (s : State) (name : String) (v : Value) : State :=
  { s with symbols := (name, some v) :: s.symbols }

/-- The builder's `Insert`: the new instruction gets the next number and is appended to the
block at the insertion point (to no block when there is none). -/
def State.insert (s : State) (mk : Nat → Instr) : Nat × State :=
  (s.nextId,
    { s with
      nextId := s.nextId + 1
      blocks :=
        match s.insertPoint with
        | none => s.blocks
        | some b =>
          match s.blocks[b]? with
          | none => s.blocks
          | some blk => s.blocks.set b { blk with instrs := blk.instrs ++ [mk s.nextId] } })

/-- `BasicBlock::Create(ctx, name, current_func)`: a new empty block at the end of the
function. The result is its index. -/
def State.createBlock (s : State) (name : String) : Nat × State :=
  (s.blocks.length, { s with blocks := s.blocks ++ [{ name := name, instrs := [] }] })

/-- `backend.SetInsertPoint(b)`. -/
def State.setInsertPoint (s : State) (b : Nat) : State :=
  { s with insertPoint := some b }

/-- `backend.CreateBr(dest)`. -/
def State.createBr (s : State) (dest : Nat) : Value × State :=
  let r := s.insert (fun id => .br id dest)
  (.inst r.1 .void, r.2)

/-- `backend.CreateCondBr(cond, ifTrue, ifFalse)`. -/
def State.createCondBr (s : State) (cond : Option Value) (ifTrue ifFalse : Nat) :
    Option (Value × State) :=
  match cond with
  | none => none
  | some c =>
    let r := s.insert (fun id => .condBr id c ifTrue ifFalse)
    some (.inst r.1 .void, r.2)

/-- `backend.CreateAlloca(ty, 0, NULL, name)`. -/
def State.createAlloca (s : State) (ty : Ty) (name : String) : Value × State :=
  let r := s.insert (fun id => .alloca id ty name)
  (.alloca r.1 ty, r.2)

/-- `backend.CreateLoad(ty, ptr, name)`. -/
def State.createLoad (s : State) (ty : Ty) (ptr : Value) (name : String) : Value × State :=
  let r := s.insert (fun id => .load id ty ptr name)
  (.inst r.1 ty, r.2)

/-- `backend.CreateStore(val, ptr)`. -/
def State.createStore (s : State) (val ptr : Option Value) : Option (Value × State) :=
  match val, ptr with
  | some v, some p =>
    let r := s.insert (fun id => .store id v p)
    some (.inst r.1 .void, r.2)
  | _, _ => none

/-- `backend.CreateCall(callee, args)`. -/
def State.createCall (s : State) (callee : Func) (args : List Value) : Value × State :=
  let r := s.insert (fun id => .call id callee args)
  (.inst r.1 callee.retTy, r.2)

/-- `backend.CreateFAdd`, `CreateFSub`, `CreateFMul`, `CreateFDiv`, `CreateAnd`, `CreateOr`:
the result has the type of the left operand. -/
def State.createBinOp (s : State) (op : BinOp) (l r : Option Value) : Option (Value × State) :=
  match l, r with
  | some lv, some rv =>
    let q := s.insert (fun id => .binop id op lv rv)
    some (.inst q.1 lv.getType, q.2)
  | _, _ => none

/-- `backend.CreateFCmpOEQ` and the other ordered comparisons: the result has type `i1`. -/
def State.createFCmp (s : State) (pred : FCmp) (l r : Option Value) : Option (Value × State) :=
  match l, r with
  | some lv, some rv =>
    let q := s.insert (fun id => .fcmp id pred lv rv)
    some (.inst q.1 .i1, q.2)
  | _, _ => none

/-- `backend.CreateNot(v)`. -/
def State.createNot (s : State) (v : Option Value) : Option (Value × State) :=
  match v with
  | some x =>
    let q := s.insert (fun id => .not id x)
    some (.inst q.1 x.getType, q.2)
  | none => none

/-- `backend.CreateGlobalStringPtr(value)`: a new global string in the module and a pointer to
it. -/
def State.createGlobalStringPtr (s : State) (value : String) : Value × State :=
  (.globalString s.strings.length, { s with strings := s.strings ++ [value] })

/-- `cerr << line << endl`. -/
def State.err (s : State) (line : String) : State :=
  { s with cerr := s.cerr ++ [line] }

/-! ## `codegen` -/

/-- `Float::codegen`. -/
def codegenFloat (value : Double) (s : State) : Option Value × State :=
  (some (.constFP (.ofDouble value)), s)

/-- `Int::codegen`. -/
def codegenInt (value : CInt) (s : State) : Option Value × State :=
  (some (.constFP (.ofInt value)), s)

/-- `Str::codegen`. -/
def codegenStr (value : String) (s : State) : Option Value × State :=
  let r := s.createGlobalStringPtr value
  (some r.1, r.2)

/-- `Ident::codegen`. A `symbol` that is null or not an `AllocaInst` makes `ai` null (or is
itself dereferenced by `dyn_cast`), and `ai->getAllocatedType()` is undefined. -/
def codegenIdent (name : String) (s : State) : Option (Option Value × State) :=
  let r := s.symbolsIndex name
  match r.1 with
  | some (.alloca id st) =>
    let q := r.2.createLoad st (.alloca id st) name
    some (some q.1, q.2)
  | _ => none

/-- `Decl::codegen`. -/
def codegenDecl (ident : String) (type : IdType) (s : State) : Option (Option Value × State) :=
  let r : Ty × Option Value × State :=
    match type with
    | .NUM => (.double, codegenFloat ⟨0⟩ s)
    | .STR => (.pointer, codegenStr "" s)
  let q := r.2.2.createAlloca r.1 ident
  let s3 := q.2.symbolsAssign ident q.1
  (s3.createStore r.2.1 (some q.1)).map (fun w => (some w.1, w.2))

/-- The body of `Print::codegen` after the operand has been lowered to `exprv`. -/
def codegenPrint (exprv : Option Value) (s : State) : Option (Option Value × State) :=
  match exprv with
  | none => none
  | some v =>
    if v.getType = .double then
      let q := s.createCall s.printfloat [v]
      some (some q.1, q.2)
    else if v.getType = .pointer then
      let q := s.createCall s.printstr [v]
      some (some q.1, q.2)
    else
      some (none, s.err "Unable to print")

/-- The `switch` of `Arit::codegen` after both operands have been lowered. -/
def codegenArit (oper : Char) (lv rv : Option Value) (s : State) :
    Option (Option Value × State) :=
  if oper = '+' then (s.createBinOp .FAdd lv rv).map (fun w => (some w.1, w.2))
  else if oper = '-' then (s.createBinOp .FSub lv rv).map (fun w => (some w.1, w.2))
  else if oper = '*' then (s.createBinOp .FMul lv rv).map (fun w => (some w.1, w.2))
  else if oper = '/' then (s.createBinOp .FDiv lv rv).map (fun w => (some w.1, w.2))
  else some (none, s.err ("Failed! Operator not implemented: " ++ String.singleton oper))

/-- The predicate each `Relational::Oper` is lowered with. -/
def RelOper.pred : RelOper → FCmp
  | .EQUAL => .OEQ
  | .DIFF => .ONE
  | .GREATER => .OGT
  | .LESS => .OLT
  | .GREATER_EQUAL => .OGE
  | .LESS_EQUAL => .OLE

/-- The `switch` of `Relational::codegen` after both operands have been lowered. -/
def codegenRelational (oper : RelOper) (lv rv : Option Value) (s : State) :
    Option (Option Value × State) :=
  (s.createFCmp oper.pred lv rv).map (fun w => (some w.1, w.2))

/-- The `switch` of `Logical::codegen` after the operands have been lowered. -/
def codegenLogical (oper : LogOper) (lv rv : Option Value) (s : State) :
    Option (Option Value × State) :=
  match oper with
  | .AND => (s.createBinOp .And lv rv).map (fun w => (some w.1, w.2))
  | .OR => (s.createBinOp .Or lv rv).map (fun w => (some w.1, w.2))
  | .NOT => (s.createNot lv).map (fun w => (some w.1, w.2))

/-- The end of `Inc::codegen` and `Dec::codegen` after the `Ident` child has been lowered to
`idv`: the operation with the constant `Int(1)`, then the store to `symbols[ident]`. -/
def codegenIncDec (op : BinOp) (ident : String) (idv : Option Value) (s : State) :
    Option (Option Value × State) :=
  let one := codegenInt 1 s
  match one.2.createBinOp op idv one.1 with
  | none => none
  | some (exprv, s1) =>
    let r := s1.symbolsIndex ident
    (r.2.createStore (some exprv) r.1).map (fun w => (some w.1, w.2))

mutual
/-- The virtual method `codegen`. The result is `none` when the C++ code runs into undefined
behaviour, and otherwise the returned `Value*` (`none` for `NULL`) with the new state. -/
def codegen : Node → State → Option (Option Value × State)
  | .mk _ .Node cs, s => (codegenChildren cs s).map (fun s' => (none, s'))
  | .mk _ .Program cs, s => (codegenChildren cs s).map (fun s' => (none, s'))
  | .mk _ .Stmts cs, s => (codegenChildren cs s).map (fun s' => (none, s'))
  | .mk _ (.Ident name) _, s => codegenIdent name s
  | .mk _ (.Float value) _, s => some (codegenFloat value s)
  | .mk _ (.Int value) _, s => some (codegenInt value s)
  | .mk _ (.Str value) _, s => some (codegenStr value s)
  | .mk _ (.Decl ident type) _, s => codegenDecl ident type s
  | .mk _ (.Attr ident) (c :: _), s =>
    match codegen c s with
    | none => none
    | some (dv, s1) =>
      let r := s1.symbolsIndex ident
      (r.2.createStore dv r.1).map (fun w => (some w.1, w.2))
  | .mk _ .Print (c :: _), s =>
    match codegen c s with
    | none => none
    | some (exprv, s1) => codegenPrint exprv s1
  | .mk _ (.Arit oper) (c0 :: c1 :: _), s =>
    match codegen c0 s with
    | none => none
    | some (lv, s1) =>
      match codegen c1 s1 with
      | none => none
      | some (rv, s2) => codegenArit oper lv rv s2
  | .mk _ (.Inc ident) (c :: _), s =>
    match codegen c s with
    | none => none
    | some (idv, s1) => codegenIncDec .FAdd ident idv s1
  | .mk _ (.Dec ident) (c :: _), s =>
    match codegen c s with
    | none => none
    | some (idv, s1) => codegenIncDec .FSub ident idv s1
  | .mk _ .While (c0 :: c1 :: _), s =>
    let condition := s.createBlock "cond"
    let body := condition.2.createBlock "body"
    let contin := body.2.createBlock "contin"
    let s1 := (contin.2.createBr condition.1).2.setInsertPoint condition.1
    match codegen c0 s1 with
    | none => none
    | some (expr, s2) =>
      match s2.createCondBr expr body.1 contin.1 with
      | none => none
      | some (_, s3) =>
        match codegen c1 (s3.setInsertPoint body.1) with
        | none => none
        | some (_, s4) =>
          some (some (.block contin.1), (s4.createBr condition.1).2.setInsertPoint contin.1)
  | .mk _ .If (c0 :: c1 :: _), s =>
    let condition := s.createBlock "cond"
    let body := condition.2.createBlock "body"
    let contin := body.2.createBlock "contin"
    let s1 := (contin.2.createBr condition.1).2.setInsertPoint condition.1
    match codegen c0 s1 with
    | none => none
    | some (expr, s2) =>
      match s2.createCondBr expr body.1 contin.1 with
      | none => none
      | some (_, s3) =>
        match codegen c1 (s3.setInsertPoint body.1) with
        | none => none
        | some (_, s4) =>
          some (some (.block contin.1), (s4.createBr contin.1).2.setInsertPoint contin.1)
  | .mk _ .IfElse (c0 :: c1 :: c2 :: _), s =>
    let condition := s.createBlock "cond"
    let ifBody := condition.2.createBlock "ifBody"
    let elseBody := ifBody.2.createBlock "elseBody"
    let contin := elseBody.2.createBlock "contin"
    let s1 := (contin.2.createBr condition.1).2.setInsertPoint condition.1
    match codegen c0 s1 with
    | none => none
    | some (expr, s2) =>
      match s2.createCondBr expr ifBody.1 elseBody.1 with
      | none => none
      | some (_, s3) =>
        match codegen c1 (s3.setInsertPoint ifBody.1) with
        | none => none
        | some (_, s4) =>
          match codegen c2 ((s4.createBr contin.1).2.setInsertPoint elseBody.1) with
          | none => none
          | some (_, s5) =>
            some (some (.block contin.1), (s5.createBr contin.1).2.setInsertPoint contin.1)
  | .mk _ (.Relational oper) (c0 :: c1 :: _), s =>
    match codegen c0 s with
    | none => none
    | some (lv, s1) =>
      match codegen c1 s1 with
      | none => none
      | some (rv, s2) => codegenRelational oper lv rv s2
  | .mk _ (.Logical oper) [c0, c1], s =>
    match codegen c0 s with
    | none => none
    | some (lv, s1) =>
      match codegen c1 s1 with
      | none => none
      | some (rv, s2) => codegenLogical oper lv rv s2
  | .mk _ (.Logical oper) (c0 :: _), s =>
    match codegen c0 s with
    | none => none
    | some (lv, s1) => codegenLogical oper lv none s1
  | .mk _ _ _, _ => none
/-- The loop `for (Node *n : children) n->codegen();` of `Node::codegen`. -/
def codegenChildren : List Node → State → Option State
  | [], s => some s
  | c :: cs, s =>
    match codegen c s with
    | none => none
    | some (_, s1) => codegenChildren cs s1
end

/-- Modelled from the spec: `setup_llvm` is defined in `backllvm.h`, which is not part of the
sources. By the spec the generator emits into "a single module/function" with a "single
implicit entry routine": the state in which `p->codegen()` starts has an empty symbol table,
one empty block `entry` holding the insertion point, no instruction and no global string. -/
def State.setup (printfloat printstr : Func) : State :=
  { symbols := []
    blocks := [{ name := "entry", instrs := [] }]
    insertPoint := some 0
    nextId := 0
    strings := []
    printfloat := printfloat
    printstr := printstr
    cerr := [] }

/-- The `double` 50.0. -/
def Double.fifty : Double := ⟨0x4049000000000000⟩

/-- The loop `while (i < 50) { i++ }`. -/
def whileExample : Node :=
  Node.While 6 (Node.Relational 3 (Node.Ident 1 "i") .LESS (Node.Float 2 Double.fifty))
    (Node.Inc 5 4 "i")

/-- The program `NUM i; while (i < 50) { i++ }`. -/
def progWhile : Node :=
  .mk 100 .Program [.mk 101 .Stmts [Node.Decl 0 "i" .NUM, whileExample]]

/-! ### The control-flow graph -/

/-- A terminator instruction: `br`, conditional `br`, `ret`. -/
def Instr.isTerminator : Instr → Bool
  | .br _ _ => true
  | .condBr _ _ _ _ => true
  | .ret _ _ => true
  | _ => false

/-- An unconditional or conditional branch. -/
def Instr.isBranch : Instr → Bool
  | .br _ _ => true
  | .condBr _ _ _ _ => true
  | _ => false

/-- The blocks an instruction can transfer control to. -/
def Instr.successors : Instr → List Nat
  | .br _ dest => [dest]
  | .condBr _ _ ifTrue ifFalse => [ifTrue, ifFalse]
  | _ => []

/-- The terminators among the instructions of a block. -/
def terminators (l : List Instr) : List Instr := l.filter Instr.isTerminator

/-- The successor blocks of a block with the instructions `l`, one entry per edge. -/
def successors (l : List Instr) : List Nat := l.flatMap Instr.successors

/-- The instructions of block `j` (none when there is no such block). -/
def State.instrsAt (s : State) (j : Nat) : List Instr :=
  match s.blocks[j]? with
  | some b => b.instrs
  | none => []

/-- The number of edges of the function that lead to block `j`. -/
def State.incoming (s : State) (j : Nat) : Nat :=
  ((List.range s.blocks.length).map (fun p => (successors (s.instrsAt p)).count j)).sum

/-- Block `p` is a predecessor of block `j`. -/
def State.isPred (s : State) (p j : Nat) : Prop := j ∈ successors (s.instrsAt p)

/-- No branch of the function leads to a block that does not exist. -/
def State.closedCFG (s : State) : Prop :=
  ∀ b ∈ s.blocks, ∀ j ∈ successors b.instrs, j < s.blocks.length

/-- A sequence of instructions without terminator. -/
def Open (l : List Instr) : Prop := ∀ i ∈ l, i.isTerminator = false

/-- A sequence of instructions whose last one is a branch and which has no other
terminator. -/
def Closed (l : List Instr) : Prop :=
  ∃ pre t, l = pre ++ [t] ∧ Open pre ∧ t.isBranch = true

/-- How lowering changes the blocks of the function from `s` to `s'` when it starts with the
insertion point at block `B`. Blocks of `s` other than `B` are untouched. The blocks `P` are
new and still empty. The insertion point of `s'` is `B` or a new block, not in `P`. Every other
block that is `B` or new got instructions `added`: without terminator if the block holds the
insertion point of `s'`, and ending in its only terminator, a branch, if it does not. -/
structure Gen (s s' : State) (B : Nat) (P : List Nat) : Prop where
  valid : B < s.blocks.length
  len_le : s.blocks.length ≤ s'.blocks.length
  frame : ∀ j, j < s.blocks.length → j ≠ B → s'.instrsAt j = s.instrsAt j
  ip : ∃ B', s'.insertPoint = some B' ∧ B' < s'.blocks.length ∧
    (B' = B ∨ s.blocks.length ≤ B') ∧ B' ∉ P
  pend : ∀ p ∈ P, s.blocks.length ≤ p ∧ p < s'.blocks.length ∧ s'.instrsAt p = []
  touched : ∀ j, j < s'.blocks.length → (j = B ∨ s.blocks.length ≤ j) → j ∉ P →
    ∃ added, s'.instrsAt j = s.instrsAt j ++ added ∧
      (s'.insertPoint = some j → Open added) ∧ (s'.insertPoint ≠ some j → Closed added)

/-- The state `s'` comes from `s` by inserting one instruction that is not a terminator. -/
def Inserted (s s' : State) : Prop :=
  ∃ mk : Nat → Instr, (∀ id, (mk id).isTerminator = false) ∧ s' = (s.insert mk).2

/-- Lowering the node `c` changes the blocks of the function as `Gen` describes, with no new
block left empty. -/
def GenIH (c : Node) : Prop :=
  ∀ s v s' B, codegen c s = some (v, s') → s.insertPoint = some B → B < s.blocks.length →
    Gen s s' B []

/-- The state in which `While::codegen` and `If::codegen` lower the condition: the three
blocks have been created, the current block has got its branch to the condition block, and
the insertion point is the condition block. -/
def State.enterCond (s : State) : State :=
  ((((s.createBlock "cond").2.createBlock "body").2.createBlock "contin").2.createBr
    s.blocks.length).2.setInsertPoint s.blocks.length

/-- The state in which `While::codegen` and `If::codegen` lower the body, `s2` being the state
after the condition has been lowered to `e` and `n` the number of blocks before the
construct: the conditional branch has been added and the insertion point is the body block. -/
def State.enterBody (s2 : State) (e : Value) (n : Nat) : State :=
  (s2.insert (fun id => .condBr id e (n + 1) (n + 2))).2.setInsertPoint (n + 1)

instance (s : State) : Decidable s.closedCFG := by
  unfold State.closedCFG; infer_instance

/-- The state after `NUM i` has been lowered in the state `State.setup`, the runtime
functions returning `void`. -/
def declState : State :=
  { symbols := [("i", some (.alloca 0 .double))]
    blocks := [{ name := "entry", instrs := [.alloca 0 .double "i",
      .store 1 (.constFP (.ofDouble ⟨0⟩)) (.alloca 0 .double)] }]
    insertPoint := some 0
    nextId := 2
    strings := []
    printfloat := ⟨"printfloat", .void⟩
    printstr := ⟨"printstr", .void⟩
    cerr := [] }

/-- The state in which `IfElse::codegen` lowers the condition: the four blocks have been
created, the current block has got its branch to the condition block, and the insertion point
is the condition block. -/
def State.enterCond4 (s : State) : State :=
  (((((s.createBlock "cond").2.createBlock "ifBody").2.createBlock "elseBody").2.createBlock
    "contin").2.createBr s.blocks.length).2.setInsertPoint s.blocks.length

/-- The state in which `IfElse::codegen` lowers the else branch, `s4` being the state after
the if branch has been lowered and `n` the number of blocks before the construct: the branch
to the continuation block has been added and the insertion point is the else block. -/
def State.enterElse (s4 : State) (n : Nat) : State :=
  (s4.insert (fun id => .br id (n + 3))).2.setInsertPoint (n + 2)

/-- The statement `if (i < 50) { i++ } else { }`. -/
def ifElseExample : Node :=
  Node.IfElse 8 (Node.Relational 3 (Node.Ident 1 "i") .LESS (Node.Float 2 Double.fifty))
    (Node.Inc 5 4 "i") (Node.Stmts 7)

/-- The classes `CheckVars::checkRecursive` tests for with `dynamic_cast`: `Decl`, `Attr` and
`Ident`. -/
def Kind.isChecked : Kind → Bool
  | .Decl _ _ => true
  | .Attr _ => true
  | .Ident _ => true
  | _ => false

/-- The program `print 1 + 2; while (1 < 2) { print "a" }`, without any variable. -/
def progNoVars : Node :=
  .mk 100 .Program [.mk 101 .Stmts [
    Node.Print 4 (Node.Arit 3 (Node.Int 1 1) (Node.Int 2 2) '+'),
    Node.While 10 (Node.Relational 7 (Node.Int 5 1) .LESS (Node.Int 6 2))
      (Node.Print 9 (Node.Str 8 "a"))]]

/-- The program `NUM x; x = y; NUM y`, in which `y` is declared once, after its use. -/
def progPhantom : Node :=
  .mk 100 .Program [.mk 101 .Stmts [
    Node.Decl 1 "x" .NUM,
    Node.Attr 3 "x" (Node.Ident 2 "y"),
    Node.Decl 4 "y" .NUM]]

/-- The builder state after the three instructions of an increment or decrement of the
variable `x` bound to the slot `alloca id ty`: the load of the slot, the operation `op` on the
loaded value and the constant 1, and the store of the result to the slot. -/
def State.afterIncDec (s : State) (op : BinOp) (x : String) (id : Nat) (ty : Ty) : State :=
  (((s.insert (fun n => .load n ty (.alloca id ty) x)).2.insert
    (fun n => .binop n op (.inst s.nextId ty) (.constFP (.ofInt 1)))).2.insert
    (fun n => .store n (.inst (s.nextId + 1) ty) (.alloca id ty))).2

/-- Lowering the node `c` keeps the symbol-table entry of every name that no `Decl` node of
`c` declares. -/
def SymIH (c : Node) : Prop :=
  ∀ s v s' y, codegen c s = some (v, s') → (∀ u ∈ postorder c, u.declares ≠ some y) →
    s'.symbols.lookup y = s.symbols.lookup y

/-- `backend.CreateRet(v)`. -/
def State.createRet (s : State) (v : Value) : Value × State :=
  let r := s.insert (fun id => .ret id v)
  (.inst r.1 .void, r.2)

/-- `CodeGen::generate` after `setup_llvm()` has left the state `s0`: the program is lowered
and the return of the 16-bit constant 0 is appended. What follows in the source,
`module->print` and `generate_object`, writes the module out and does not change it. -/
def generateFrom (s0 : State) (p : Node) : Option State :=
  match codegen p s0 with
  | none => none
  | some (_, s1) => some (s1.createRet (.constInt 16 0)).2

/-- `CodeGen::generate`, started in the state `State.setup`. -/
def generate (printfloat printstr : Func) (p : Node) : Option State :=
  generateFrom (State.setup printfloat printstr) p

/-- A sequence of instructions whose last one is a terminator and which has no other
terminator. -/
def Terminated (l : List Instr) : Prop :=
  ∃ pre t, l = pre ++ [t] ∧ Open pre ∧ t.isTerminator = true

/-- The invariant of lowering: the block at the insertion point has no terminator, and every
other block of the function ends in its only terminator. -/
def CFGInv (s : State) : Prop :=
  ∃ B, s.insertPoint = some B ∧ B < s.blocks.length ∧ Open (s.instrsAt B) ∧
    ∀ j, j < s.blocks.length → j ≠ B → Terminated (s.instrsAt j)

/-! ## `PrintTree` -/

/-- The string `Decl::toStr` shows for each `IdType`. -/
def IdType.name : IdType → String
  | .NUM => "NUM"
  | .STR => "STR"

/-- The string `Relational::toStr` shows for each operator. -/
def RelOper.symbol : RelOper → String
  | .EQUAL => "="
  | .DIFF => "!="
  | .GREATER => ">"
  | .LESS => "<"
  | .GREATER_EQUAL => ">="
  | .LESS_EQUAL => "<="

/-- The string `Logical::toStr` shows for each operator. -/
def LogOper.symbol : LogOper → String
  | .AND => "&&"
  | .OR => "||"
  | .NOT => "!"

/-- The virtual method `toStr`. The library function `std::to_string(double)` that
`Float::toStr` calls is the parameter `doubleToString`. -/
def Node.toStr (doubleToString : Double → String) (n : Node) : String :=
  match n.kind with
  | .Node => "node"
  | .Program => "program"
  | .Stmts => "stmts"
  | .Ident name => name
  | .Float value => doubleToString value
  | .Int value => toString value
  | .Str value => "\\\"" ++ value ++ "\\\""
  | .Attr ident => ident ++ "="
  | .Decl ident type => type.name ++ " " ++ ident
  | .Print => "print"
  | .Arit oper => String.singleton oper
  | .Inc _ => "++"
  | .Dec _ => "--"
  | .While => "while"
  | .If => "if"
  | .IfElse => "ifElse"
  | .Relational oper => oper.symbol
  | .Logical oper => oper.symbol

/-- One record of the graph description: a node with its identity, the value of its address,
and its label, or an edge between the identities of a parent and a child. -/
inductive Record where
  | node (id : Nat) (label : String)
  | edge (parent child : Nat)
deriving DecidableEq, Repr

/-- The line `printRecursive` writes for a record. -/
def Record.line : Record → String
  | .node id label => "n" ++ toString id ++ "[label=\"" ++ label ++ "\"]" ++ ";"
  | .edge parent child => "n" ++ toString parent ++ " -- " ++ "n" ++ toString child ++ ";"

mutual
/-- The method `PrintTree::printRecursive`: the records it writes to `cout`, in order. -/
def printRecursive (doubleToString : Double → String) : Node → List Record
  | .mk a k cs =>
    printRecursiveList doubleToString cs ++
      [Record.node a ((Node.mk a k cs).toStr doubleToString)] ++
      cs.map (fun c => Record.edge a c.addr)
/-- The first loop of `printRecursive`, over the children. -/
def printRecursiveList (doubleToString : Double → String) : List Node → List Record
  | [] => []
  | c :: cs => printRecursive doubleToString c ++ printRecursiveList doubleToString cs
end

/-- The node record of a node. -/
def Node.record (doubleToString : Double → String) (u : Node) : Record :=
  .node u.addr (u.toStr doubleToString)

/-- The edge records of a node, one for each child. -/
def Node.edges (u : Node) : List Record :=
  u.getChildren.map (fun c => Record.edge u.addr c.addr)

/-- The identities of the children of the nodes of a sequence. -/
def childAddrs (l : List Node) : List Nat :=
  l.flatMap (fun u => u.getChildren.map Node.addr)

theorem visitAll_append (l1 l2 : List Node) (st : CheckState) :
    visitAll (l1 ++ l2) st = (visitAll l1 st).bind (visitAll l2) := by
  induction l1 generalizing st with
  | nil => simp [visitAll]
  | cons u us ih =>
    simp only [List.cons_append, visitAll]
    cases visit u st with
    | none => simp
    | some st1 => simp [ih]

mutual
theorem checkRecursive_eq : ∀ (n : Node) (st : CheckState),
    checkRecursive n st = visitAll (postorder n) st
  | .mk a k cs, st => by
    rw [checkRecursive, postorder, visitAll_append, checkChildren_eq cs st]
    cases visitAll (postorderList cs) st with
    | none => simp
    | some st1 =>
      simp only [Option.some_bind, visitAll]
      cases visit (.mk a k cs) st1 <;> simp
theorem checkChildren_eq : ∀ (cs : List Node) (st : CheckState),
    checkChildren cs st = visitAll (postorderList cs) st
  | [], st => by simp [checkChildren, postorderList, visitAll]
  | c :: cs, st => by
    rw [checkChildren, postorderList, visitAll_append, checkRecursive_eq c st]
    cases visitAll (postorder c) st with
    | none => simp
    | some st1 => simp [checkChildren_eq cs st1]
end

theorem self_mem_postorder : ∀ (n : Node), n ∈ postorder n
  | .mk a k cs => by simp [postorder]

theorem mem_postorderList : ∀ (cs : List Node) (c : Node), c ∈ cs → c ∈ postorderList cs
  | [], c, h => by simp at h
  | d :: cs, c, h => by
    rw [postorderList]
    rcases List.mem_cons.mp h with rfl | h
    · exact List.mem_append_left _ (self_mem_postorder c)
    · exact List.mem_append_right _ (mem_postorderList cs c h)

theorem childrenFirst_append {l1 l2 : List Node} (h1 : ChildrenFirst l1)
    (h2 : ChildrenFirst l2) : ChildrenFirst (l1 ++ l2) := by
  intro p q u h c hc
  rcases List.append_eq_append_iff.mp h with ⟨r, hr1, hr2⟩ | ⟨r, hr1, hr2⟩
  · rw [hr1]
    exact List.mem_append_right _ (h2 r q u hr2 c hc)
  · cases r with
    | nil =>
      simp only [List.nil_append] at hr2
      exact absurd (h2 [] q u (by simpa using hr2.symm) c hc) (by simp)
    | cons x r =>
      simp only [List.cons_append, List.cons.injEq] at hr2
      have hx : u = x := hr2.1
      subst hx
      exact h1 p r u hr1 c hc

theorem childrenFirst_snoc {l : List Node} (n : Node) (h1 : ChildrenFirst l)
    (h2 : ∀ c ∈ n.getChildren, c ∈ l) : ChildrenFirst (l ++ [n]) := by
  intro p q u h c hc
  rcases List.append_eq_append_iff.mp h with ⟨r, hr1, hr2⟩ | ⟨r, hr1, hr2⟩
  · cases r with
    | nil =>
      simp only [List.nil_append, List.cons.injEq] at hr2
      have hx : n = u := hr2.1
      subst hx
      rw [hr1]; simpa using h2 c hc
    | cons x r =>
      have := congrArg List.length hr2
      simp at this
  · cases r with
    | nil =>
      simp only [List.nil_append, List.cons.injEq] at hr2
      have hx : u = n := hr2.1
      subst hx
      simp only [List.append_nil] at hr1
      rw [← hr1]; exact h2 c hc
    | cons x r =>
      simp only [List.cons_append, List.cons.injEq] at hr2
      have hx : u = x := hr2.1
      subst hx
      exact h1 p r u hr1 c hc

mutual
theorem childrenFirst_postorder : ∀ (n : Node), ChildrenFirst (postorder n)
  | .mk a k cs => by
    rw [postorder]
    exact childrenFirst_snoc _ (childrenFirst_postorderList cs)
      (fun c hc => mem_postorderList cs c hc)
theorem childrenFirst_postorderList : ∀ (cs : List Node), ChildrenFirst (postorderList cs)
  | [] => by
    intro p q u h
    simp [postorderList] at h
  | d :: cs => by
    rw [postorderList]
    exact childrenFirst_append (childrenFirst_postorder d) (childrenFirst_postorderList cs)
end

theorem grows_refl (st : CheckState) : Grows st st [] :=
  ⟨by simp, by simp, fun _ _ h => h⟩

theorem grows_trans {a b c : CheckState} {n1 n2 : List String} (h1 : Grows a b n1)
    (h2 : Grows b c n2) : Grows a c (n1 ++ n2) :=
  ⟨by rw [h2.cerr, h1.cerr, List.append_assoc],
   by rw [h2.count, h1.count, List.length_append, Nat.add_assoc],
   fun y v h => h2.vars y v (h1.vars y v h)⟩

theorem grows_error (st : CheckState) (msg name : String) :
    Grows st (st.error msg name) [msg ++ name] :=
  ⟨rfl, rfl, fun _ _ h => h⟩

theorem lookup_cons_of_none {vars : List (String × Nat)} {x : String} (w : Nat)
    (hx : vars.lookup x = none) (y : String) (v : Nat) (h : vars.lookup y = some v) :
    ((x, w) :: vars).lookup y = some v := by
  rw [List.lookup_cons]
  cases hyx : (y == x) with
  | false => simpa using h
  | true =>
    have : y = x := by simpa using hyx
    subst this
    rw [hx] at h
    cases h

theorem count_eq_zero_iff (st : CheckState) (x : String) :
    st.count x = 0 ↔ st.vars.lookup x = none := by
  unfold CheckState.count
  cases st.vars.lookup x <;> simp

theorem grows_index (st : CheckState) (name : String) : Grows st (st.index name).2 [] := by
  unfold CheckState.index
  cases h : st.vars.lookup name with
  | some v => exact grows_refl st
  | none => exact ⟨by simp, by simp, fun y v hy => lookup_cons_of_none 0 h y v hy⟩

theorem visit_grows {u : Node} {st st' : CheckState} (h : visit u st = some st') :
    ∃ new, Grows st st' new := by
  obtain ⟨a, k, cs⟩ := u
  cases k
  case Decl ident type =>
    simp only [visit] at h
    split at h
    · rename_i h0
      rw [count_eq_zero_iff] at h0
      cases h
      exact ⟨[], by simp, by simp, fun y v hy => lookup_cons_of_none _ h0 y v hy⟩
    · cases h
      exact ⟨_, grows_error _ _ _⟩
  case Attr ident =>
    simp only [visit] at h
    split at h
    · cases h
      exact ⟨_, grows_error _ _ _⟩
    · cases cs with
      | nil => simp at h
      | cons c cs' =>
        simp only at h
        have hr : ∃ r : Nat × CheckState,
            (match c.kind with
              | .Ident name => st.index name
              | .Str _ => (IdType.STR.val, st)
              | _ => (IdType.NUM.val, st)) = r ∧ Grows st r.2 [] := by
          refine ⟨_, rfl, ?_⟩
          split
          · exact grows_index _ _
          · exact grows_refl _
          · exact grows_refl _
        obtain ⟨r, hr, hg⟩ := hr
        rw [hr] at h
        have hq := grows_index r.2 ident
        split at h
        · cases h
          exact ⟨_, grows_trans (grows_trans hg hq) (grows_error _ _ _)⟩
        · cases h
          exact ⟨_, grows_trans hg hq⟩
  case Ident name =>
    simp only [visit] at h
    split at h
    · cases h
      exact ⟨_, grows_error _ _ _⟩
    · cases h
      exact ⟨_, grows_refl _⟩
  all_goals
    simp only [visit] at h
    cases h
    exact ⟨_, grows_refl _⟩

theorem visitAll_grows {l : List Node} {st st' : CheckState} (h : visitAll l st = some st') :
    ∃ new, Grows st st' new := by
  induction l generalizing st with
  | nil =>
    simp only [visitAll] at h
    cases h
    exact ⟨_, grows_refl _⟩
  | cons u us ih =>
    simp only [visitAll] at h
    cases h1 : visit u st with
    | none => simp [h1] at h
    | some st1 =>
      rw [h1] at h
      obtain ⟨n1, g1⟩ := visit_grows h1
      obtain ⟨n2, g2⟩ := ih (by simpa using h)
      exact ⟨_, grows_trans g1 g2⟩

theorem visit_total {u : Node} (st : CheckState) (h : u.shapeOk = true) :
    ∃ st', visit u st = some st' := by
  obtain ⟨a, k, cs⟩ := u
  cases k
  case Attr ident =>
    cases cs with
    | nil => simp [Node.shapeOk, Kind.arity] at h
    | cons c cs' =>
      simp only [visit]
      split
      · exact ⟨_, rfl⟩
      · split <;> exact ⟨_, rfl⟩
  case Decl ident type =>
    simp only [visit]
    split <;> exact ⟨_, rfl⟩
  case Ident name =>
    simp only [visit]
    split <;> exact ⟨_, rfl⟩
  all_goals exact ⟨_, rfl⟩

theorem visitAll_total {l : List Node} (st : CheckState) (h : ∀ u ∈ l, u.shapeOk = true) :
    ∃ st', visitAll l st = some st' := by
  induction l generalizing st with
  | nil => exact ⟨st, rfl⟩
  | cons u us ih =>
    obtain ⟨st1, h1⟩ := visit_total st (h u (by simp))
    obtain ⟨st2, h2⟩ := ih st1 (fun w hw => h w (by simp [hw]))
    exact ⟨st2, by simp [visitAll, h1, h2]⟩

/-- A run over `p ++ u :: q` is a run over `p`, the visit of `u`, and a run over `q`. -/
theorem visitAll_split {p q : List Node} {u : Node} {st st' : CheckState}
    (h : visitAll (p ++ u :: q) st = some st') :
    ∃ s1 s2, visitAll p st = some s1 ∧ visit u s1 = some s2 ∧ visitAll q s2 = some st' := by
  rw [visitAll_append] at h
  cases h1 : visitAll p st with
  | none => simp [h1] at h
  | some s1 =>
    rw [h1] at h
    simp only [Option.some_bind, visitAll] at h
    cases h2 : visit u s1 with
    | none => simp [h2] at h
    | some s2 =>
      rw [h2] at h
      exact ⟨s1, s2, rfl, h2, by simpa using h⟩

theorem split_of_getElem? {l : List Node} {i : Nat} {u : Node} (h : l[i]? = some u) :
    l = l.take i ++ u :: l.drop (i + 1) := by
  obtain ⟨hlt, rfl⟩ := List.getElem?_eq_some_iff.mp h
  simp

theorem declares_eq {u : Node} {name : String} (h : u.declares = some name) :
    ∃ a ty cs, u = .mk a (.Decl name ty) cs := by
  obtain ⟨a, k, cs⟩ := u
  cases k <;> simp [Node.declares, Node.kind] at h
  subst h
  exact ⟨_, _, _, rfl⟩

theorem uses_eq {u : Node} {name : String} (h : u.uses = some name) :
    ∃ a cs, u = .mk a (.Ident name) cs ∨ u = .mk a (.Attr name) cs := by
  obtain ⟨a, k, cs⟩ := u
  cases k <;> simp [Node.uses, Node.kind] at h
  · subst h; exact ⟨_, _, Or.inl rfl⟩
  · subst h; exact ⟨_, _, Or.inr rfl⟩

theorem grows_count_le {st st' : CheckState} {new : List String} {m : String}
    (h : Grows st st' new) (hm : m ∈ new) : st.errorcount + 1 ≤ st'.errorcount := by
  have : 0 < new.length := List.length_pos_of_mem hm
  rw [h.count]
  omega

/-- A line written by the visit of one node of the sequence is among the lines of the run. -/
theorem visitAll_emits {p q : List Node} {u : Node} {st st' : CheckState} {m : String}
    (h : visitAll (p ++ u :: q) st = some st')
    (hu : ∀ s1 s2, visitAll p st = some s1 → visit u s1 = some s2 →
      ∃ n, Grows s1 s2 n ∧ m ∈ n) :
    ∃ new, Grows st st' new ∧ m ∈ new := by
  obtain ⟨s1, s2, hp, hv, hq⟩ := visitAll_split h
  obtain ⟨n1, g1⟩ := visitAll_grows hp
  obtain ⟨n2, g2, hm⟩ := hu s1 s2 hp hv
  obtain ⟨n3, g3⟩ := visitAll_grows hq
  exact ⟨_, grows_trans (grows_trans g1 g2) g3, by simp [hm]⟩

/-- After the visit of a `Decl` node its name is a key of the table. -/
theorem visit_decl_present {a : Nat} {name : String} {ty : IdType} {cs : List Node}
    {st st' : CheckState} (h : visit (.mk a (.Decl name ty) cs) st = some st') :
    ∃ v, st'.vars.lookup name = some v := by
  simp only [visit] at h
  split at h
  · cases h
    exact ⟨ty.val, by simp [List.lookup_cons]⟩
  · rename_i h0
    cases h
    rw [count_eq_zero_iff] at h0
    cases hl : st.vars.lookup name with
    | none => exact absurd hl h0
    | some v => exact ⟨v, by simpa [CheckState.error] using hl⟩

/-- C2. If a `Decl(name)` node is visited after an earlier visited `Decl(name)` node, then
`check` succeeds, raises `errorcount` by at least 1, and the lines it writes to `cerr` include
"Redeclared var name". -/
theorem check_redeclared (t : Node) (st : CheckState) (name : String) (i j : Nat) (u v : Node)
    (hwf : t.WF) (hij : i < j)
    (hi : (postorder t)[i]? = some u) (hu : u.declares = some name)
    (hj : (postorder t)[j]? = some v) (hv : v.declares = some name) :
    ∃ st' new, check t st = some st' ∧ st'.cerr = st.cerr ++ new ∧
      "Redeclared var " ++ name ∈ new ∧ st.errorcount + 1 ≤ st'.errorcount := by
  obtain ⟨st', hst'⟩ := visitAll_total st hwf
  have hsplit := split_of_getElem? hj
  have hi' : ((postorder t).take j)[i]? = some u := by
    rw [List.getElem?_take_of_lt hij]; exact hi
  have hsplit' := split_of_getElem? hi'
  obtain ⟨a1, ty1, cs1, rfl⟩ := declares_eq hu
  obtain ⟨a2, ty2, cs2, rfl⟩ := declares_eq hv
  have hrun := hst'
  rw [hsplit] at hrun
  obtain ⟨new, g, hm⟩ := visitAll_emits (m := "Redeclared var " ++ name) hrun (by
    intro s1 s2 hp hvis
    rw [hsplit'] at hp
    obtain ⟨sa, sb, _, hd, hrest⟩ := visitAll_split hp
    obtain ⟨w, hw⟩ := visit_decl_present hd
    obtain ⟨n, gn⟩ := visitAll_grows hrest
    have hw1 := gn.vars _ _ hw
    have hc : s1.count name ≠ 0 := by
      rw [Ne, count_eq_zero_iff, hw1]; simp
    simp only [visit, if_neg hc] at hvis
    cases hvis
    exact ⟨_, grows_error _ _ _, by simp⟩)
  exact ⟨st', new, by rw [check, checkRecursive_eq]; exact hst', g.cerr, hm, grows_count_le g hm⟩

theorem childrenFirst_left {l1 l2 : List Node} (h : ChildrenFirst (l1 ++ l2)) :
    ChildrenFirst l1 := by
  intro p q u hl c hc
  exact h p (q ++ l2) u (by rw [hl]; simp) c hc

/-- The keys of the table after a visit: the old ones, the name the node declares, and the
identifier on the right-hand side of an assignment. -/
theorem visit_keys {u : Node} {st st' : CheckState} (h : visit u st = some st')
    (name : String) (v : Nat) (hl : st'.vars.lookup name = some v) :
    st.vars.lookup name = some v ∨ (∃ ty, u.kind = .Decl name ty ∧ v = ty.val) ∨
      (v = 0 ∧ ∃ c, u.getChildren.head? = some c ∧ c.uses = some name) := by
  obtain ⟨a, k, cs⟩ := u
  cases k
  case Decl ident type =>
    simp only [visit] at h
    split at h
    · cases h
      simp only [List.lookup_cons] at hl
      cases hn : (name == ident) with
      | true =>
        right; left
        have : name = ident := by simpa using hn
        rw [hn] at hl
        exact ⟨type, by simp [Node.kind, this], by simpa using hl.symm⟩
      | false =>
        rw [hn] at hl
        exact Or.inl hl
    · cases h
      exact Or.inl hl
  case Attr ident =>
    simp only [visit] at h
    split at h
    · cases h
      exact Or.inl hl
    · rename_i hc
      rw [count_eq_zero_iff] at hc
      cases cs with
      | nil => simp at h
      | cons c cs' =>
        simp only at h
        obtain ⟨w, hw⟩ := Option.ne_none_iff_exists'.mp hc
        have hr : ∀ r : Nat × CheckState,
            (match c.kind with
              | .Ident name => st.index name
              | .Str _ => (IdType.STR.val, st)
              | _ => (IdType.NUM.val, st)) = r →
            (r.2.index ident).2 = r.2 ∧
            (r.2.vars.lookup name = some v → st.vars.lookup name = some v ∨
              (v = 0 ∧ c.uses = some name)) := by
          intro r hr
          have hg : Grows st r.2 [] := by
            rw [← hr]
            split
            · exact grows_index _ _
            · exact grows_refl _
            · exact grows_refl _
          constructor
          · simp [CheckState.index, hg.vars _ _ hw]
          · intro h2
            rw [← hr] at h2
            split at h2
            · rename_i y hk
              unfold CheckState.index at h2
              cases hy : st.vars.lookup y with
              | some z =>
                rw [hy] at h2
                exact Or.inl h2
              | none =>
                rw [hy] at h2
                simp only [List.lookup_cons] at h2
                cases hn : (name == y) with
                | true =>
                  right
                  have : name = y := by simpa using hn
                  rw [hn] at h2
                  exact ⟨by simpa using h2.symm, by simp [Node.uses, hk, this]⟩
                | false =>
                  rw [hn] at h2
                  exact Or.inl h2
            · exact Or.inl h2
            · exact Or.inl h2
        obtain ⟨h1, h2⟩ := hr _ rfl
        rw [h1] at h
        split at h
        · cases h
          rcases h2 hl with h3 | h3
          · exact Or.inl h3
          · exact Or.inr (Or.inr ⟨h3.1, c, rfl, h3.2⟩)
        · cases h
          rcases h2 hl with h3 | h3
          · exact Or.inl h3
          · exact Or.inr (Or.inr ⟨h3.1, c, rfl, h3.2⟩)
  case Ident nm =>
    simp only [visit] at h
    split at h <;> cases h <;> exact Or.inl hl
  all_goals
    simp only [visit] at h
    cases h
    exact Or.inl hl

/-- After the visit of an `Ident` or `Attr` node its name was a key of the table or has just
been reported as undeclared. -/
theorem visit_uses {u : Node} {st st' : CheckState} {n : List String} {name : String}
    (h : visit u st = some st') (g : Grows st st' n) (hu : u.uses = some name) :
    (∃ v, st.vars.lookup name = some v) ∨ "Undeclared var " ++ name ∈ n := by
  cases hl : st.vars.lookup name with
  | some v => exact Or.inl ⟨v, rfl⟩
  | none =>
    right
    have hc : st.count name = 0 := (count_eq_zero_iff _ _).mpr hl
    obtain ⟨a, cs, rfl | rfl⟩ := uses_eq hu
    all_goals
      simp only [visit, hc, if_true] at h
      cases h
      have := g.cerr
      simp only [CheckState.error, List.append_cancel_left_eq] at this
      rw [← this]
      simp

theorem undeclInv_step {p : List Node} {u : Node} {st st' : CheckState} {new0 n : List String}
    (hc : ∀ c ∈ u.getChildren, c ∈ p) (hinv : UndeclInv p st.vars new0)
    (h : visit u st = some st') (g : Grows st st' n) :
    UndeclInv (p ++ [u]) st'.vars (new0 ++ n) := by
  obtain ⟨hI, hJ⟩ := hinv
  have old : ∀ name, ((∃ d ∈ p, d.declares = some name) ∨ "Undeclared var " ++ name ∈ new0) →
      ((∃ d ∈ p ++ [u], d.declares = some name) ∨ "Undeclared var " ++ name ∈ new0 ++ n) := by
    rintro name (⟨d, hd, hdn⟩ | hm)
    · exact Or.inl ⟨d, by simp [hd], hdn⟩
    · exact Or.inr (by simp [hm])
  constructor
  · intro name v hl
    rcases visit_keys h name v hl with h1 | ⟨ty, h1, -⟩ | ⟨-, c, hc1, hc2⟩
    · exact old name (hI name v h1)
    · exact Or.inl ⟨u, by simp, by simp [Node.declares, h1]⟩
    · have hcp : c ∈ p := hc c (List.mem_of_mem_head? hc1)
      exact old name (hJ c hcp name hc2)
  · intro w hw name hwn
    rcases List.mem_append.mp hw with hw | hw
    · exact old name (hJ w hw name hwn)
    · have : w = u := by simpa using hw
      subst this
      rcases visit_uses h g hwn with ⟨v, hv⟩ | hm
      · exact old name (hI name v hv)
      · exact Or.inr (by simp [hm])

theorem undeclInv_run : ∀ (l p : List Node) (st st' : CheckState) (new0 : List String),
    ChildrenFirst (p ++ l) → UndeclInv p st.vars new0 → visitAll l st = some st' →
    ∃ n, Grows st st' n ∧ UndeclInv (p ++ l) st'.vars (new0 ++ n)
  | [], p, st, st', new0, _, hinv, h => by
    simp only [visitAll] at h
    cases h
    exact ⟨[], grows_refl _, by simpa using hinv⟩
  | u :: us, p, st, st', new0, hcf, hinv, h => by
    simp only [visitAll] at h
    cases h1 : visit u st with
    | none => simp [h1] at h
    | some s1 =>
      rw [h1] at h
      obtain ⟨n1, g1⟩ := visit_grows h1
      have hstep := undeclInv_step (hcf p us u rfl) hinv h1 g1
      have hcf' : ChildrenFirst ((p ++ [u]) ++ us) := by simpa using hcf
      obtain ⟨n2, g2, hinv2⟩ := undeclInv_run us (p ++ [u]) s1 st' (new0 ++ n1) hcf' hstep
        (by simpa using h)
      exact ⟨n1 ++ n2, grows_trans g1 g2, by simpa using hinv2⟩

/-- C3. If an `Ident(name)` or `Attr(name, rhs)` node is visited when no `Decl(name)` node has
been visited before it, then `check`, run with an empty table, succeeds, raises `errorcount`
by at least 1, and the lines it writes to `cerr` include "Undeclared var name". -/
theorem check_undeclared (t : Node) (errorcount : Nat) (cerr : List String) (name : String)
    (i : Nat) (u : Node) (hwf : t.WF)
    (hi : (postorder t)[i]? = some u) (hu : u.uses = some name)
    (hnone : ∀ d ∈ (postorder t).take i, d.declares ≠ some name) :
    ∃ st' new, check t (CheckState.fresh errorcount cerr) = some st' ∧
      st'.cerr = cerr ++ new ∧ "Undeclared var " ++ name ∈ new ∧
      errorcount + 1 ≤ st'.errorcount := by
  obtain ⟨st', hst'⟩ := visitAll_total (CheckState.fresh errorcount cerr) hwf
  have hsplit := split_of_getElem? hi
  have hrun := hst'
  rw [hsplit] at hrun
  obtain ⟨s1, s2, hp, hv, hq⟩ := visitAll_split hrun
  have hpu : visitAll ((postorder t).take i ++ [u]) (CheckState.fresh errorcount cerr)
      = some s2 := by
    rw [visitAll_append, hp]
    simp [visitAll, hv]
  have hcf : ChildrenFirst ([] ++ ((postorder t).take i ++ [u])) := by
    have h0 := childrenFirst_postorder t
    rw [hsplit] at h0
    have h1 : ChildrenFirst (((postorder t).take i ++ [u]) ++ (postorder t).drop (i + 1)) := by
      simpa using h0
    simpa using childrenFirst_left h1
  obtain ⟨n, g, -, hJ⟩ := undeclInv_run _ [] _ s2 [] hcf
    (by constructor <;> simp [CheckState.fresh, UndeclInv]) hpu
  obtain ⟨n3, g3⟩ := visitAll_grows hq
  have hm : "Undeclared var " ++ name ∈ n := by
    rcases hJ u (by simp) name hu with ⟨d, hd, hdn⟩ | hm
    · simp only [List.nil_append, List.mem_append, List.mem_singleton] at hd
      rcases hd with hd | rfl
      · exact absurd hdn (hnone d hd)
      · obtain ⟨a, ty, cs, rfl⟩ := declares_eq hdn
        simp [Node.uses, Node.kind] at hu
    · simpa using hm
  have gt := grows_trans g g3
  have hm' : "Undeclared var " ++ name ∈ n ++ n3 := by simp [hm]
  exact ⟨st', n ++ n3, by rw [check, checkRecursive_eq]; exact hst', gt.cerr, hm',
    grows_count_le gt hm'⟩

/-- The table records a name as `NUM` only through a `Decl` node that declares it `NUM`. -/
theorem visitAll_num (name : String) : ∀ (l : List Node) (st st' : CheckState),
    visitAll l st = some st' → st'.vars.lookup name = some 1 →
    st.vars.lookup name = some 1 ∨ ∃ d ∈ l, d.kind = .Decl name .NUM
  | [], st, st', h, hl => by
    simp only [visitAll] at h
    cases h
    exact Or.inl hl
  | u :: us, st, st', h, hl => by
    simp only [visitAll] at h
    cases h1 : visit u st with
    | none => simp [h1] at h
    | some s1 =>
      rw [h1] at h
      rcases visitAll_num name us s1 st' (by simpa using h) hl with h2 | ⟨d, hd, hk⟩
      · rcases visit_keys h1 name 1 h2 with h3 | ⟨ty, h3, h4⟩ | ⟨h3, -⟩
        · exact Or.inl h3
        · cases ty with
          | NUM => exact Or.inr ⟨u, by simp, h3⟩
          | STR => simp [IdType.val] at h4
        · cases h3
      · exact Or.inr ⟨d, by simp [hd], hk⟩

/-- C4 (amended). If a `Decl(name, STR)` node is visited that no `Decl(name, NUM)` node
precedes, and later an `Attr(name, e)` node whose right-hand side `e` is an `Int` or `Float`
literal, an `Arit` or a `Relational` node, then `check`, run with an empty table, succeeds,
raises `errorcount` by at least 1, and the lines it writes to `cerr` include
"Incorrect type assigned to name". -/
theorem check_str_assigned_num (t : Node) (errorcount : Nat) (cerr : List String)
    (name : String) (i j : Nat) (d : Node) (a : Nat) (e : Node) (rest : List Node)
    (hwf : t.WF) (hij : i < j)
    (hi : (postorder t)[i]? = some d) (hd : d.kind = .Decl name .STR)
    (hfirst : ∀ w ∈ (postorder t).take i, w.kind ≠ .Decl name .NUM)
    (hj : (postorder t)[j]? = some (.mk a (.Attr name) (e :: rest)))
    (he : e.isNumeric = true) :
    ∃ st' new, check t (CheckState.fresh errorcount cerr) = some st' ∧
      st'.cerr = cerr ++ new ∧ "Incorrect type assigned to " ++ name ∈ new ∧
      errorcount + 1 ≤ st'.errorcount := by
  obtain ⟨st', hst'⟩ := visitAll_total (CheckState.fresh errorcount cerr) hwf
  have hsplit := split_of_getElem? hj
  have hi' : ((postorder t).take j)[i]? = some d := by
    rw [List.getElem?_take_of_lt hij]; exact hi
  have hsplit' := split_of_getElem? hi'
  have htake : ((postorder t).take j).take i = (postorder t).take i := by
    rw [List.take_take, Nat.min_eq_left (Nat.le_of_lt hij)]
  rw [htake] at hsplit'
  have hrun := hst'
  rw [hsplit] at hrun
  obtain ⟨new, g, hm⟩ := visitAll_emits (m := "Incorrect type assigned to " ++ name) hrun (by
    intro s1 s2 hp hvis
    rw [hsplit'] at hp
    obtain ⟨sa, sb, hpa, hdv, hrest⟩ := visitAll_split hp
    -- before the declaration the name is not recorded as NUM
    have hsa : sa.vars.lookup name ≠ some 1 := by
      intro h1
      rcases visitAll_num name _ _ _ hpa h1 with h2 | ⟨w, hw, hk⟩
      · simp [CheckState.fresh] at h2
      · exact hfirst w hw hk
    -- after it the name is a key, with a value other than NUM
    obtain ⟨ad, cd, rfl⟩ : ∃ ad cd, d = .mk ad (.Decl name .STR) cd := by
      obtain ⟨ad, kd, cd⟩ := d
      simp only [Node.kind] at hd
      subst hd
      exact ⟨_, _, rfl⟩
    obtain ⟨w, hw⟩ := visit_decl_present hdv
    have hw1 : w ≠ 1 := by
      rintro rfl
      rcases visit_keys hdv name 1 hw with h3 | ⟨ty, h3, h4⟩ | ⟨h3, -⟩
      · exact hsa h3
      · simp only [Node.kind, Kind.Decl.injEq, true_and] at h3
        subst h3
        simp [IdType.val] at h4
      · cases h3
    obtain ⟨n, gn⟩ := visitAll_grows hrest
    have hs1 := gn.vars _ _ hw
    have hc : s1.count name ≠ 0 := by
      rw [Ne, count_eq_zero_iff, hs1]; simp
    have hr : (match e.kind with
        | .Ident nm => s1.index nm
        | .Str _ => (IdType.STR.val, s1)
        | _ => (IdType.NUM.val, s1)) = (1, s1) := by
      unfold Node.isNumeric at he
      generalize e.kind = k at he ⊢
      cases k <;> simp [IdType.val] at he ⊢
    simp only [visit, if_neg hc, hr] at hvis
    have hq : s1.index name = (w, s1) := by simp [CheckState.index, hs1]
    rw [hq] at hvis
    simp only [ne_eq, hw1, not_false_eq_true, if_true] at hvis
    cases hvis
    exact ⟨_, grows_error _ _ _, by simp⟩)
  exact ⟨st', new, by rw [check, checkRecursive_eq]; exact hst', g.cerr, hm, grows_count_le g hm⟩

theorem declKind_append (p l : List Node) (y : String) :
    declKind (p ++ l) y = (declKind p y).or (declKind l y) := by
  unfold declKind
  rw [List.findSome?_append]

theorem declKind_of_mem {p : List Node} {d : Node} {y : String} (hd : d ∈ p)
    (hy : d.declares = some y) : ∃ k, declKind p y = some k := by
  obtain ⟨a, ty, cs, rfl⟩ := declares_eq hy
  have : (declKind p y).isSome = true := by
    unfold declKind
    rw [List.findSome?_isSome_iff]
    exact ⟨_, hd, by simp [Node.kind]⟩
  exact Option.isSome_iff_exists.mp this

theorem declKind_none_of_nodup {p us : List Node} {u : Node} {x : String}
    (hnd : NoDupDecl (p ++ u :: us)) (hu : u.declares = some x) : declKind p x = none := by
  cases h : declKind p x with
  | none => rfl
  | some k =>
    exfalso
    unfold declKind at h
    obtain ⟨d, hd, hk⟩ := List.exists_of_findSome?_eq_some h
    have hdx : d.declares = some x := by
      obtain ⟨a, kd, cs⟩ := d
      cases kd <;> simp [Node.kind] at hk
      simp [Node.declares, Node.kind, hk.1]
    unfold NoDupDecl at hnd
    rw [List.filterMap_append, List.filterMap_cons, hu] at hnd
    have hx : x ∈ List.filterMap Node.declares p := List.mem_filterMap.mpr ⟨d, hd, hdx⟩
    have := (List.nodup_append.mp hnd).2.2
    exact this hx (by simp)

theorem declared_before {order : List Node} (hud : UsedAfterDecl order) {i : Nat} {u : Node}
    {name : String} (hi : order[i]? = some u) (hu : u.uses = some name) :
    ∃ d ∈ order.take i, d.declares = some name := by
  have hlt : i < order.length := (List.getElem?_eq_some_iff.mp hi).1
  have h := hud i hlt
  unfold usedAfterDeclAt at h
  rw [hi] at h
  simp only [Option.some_bind, hu, List.any_eq_true, beq_iff_eq] at h
  exact h

theorem declKind_of_left {p l : List Node} {y : String} {k : IdType}
    (h : declKind p y = some k) : declKind (p ++ l) y = some k := by
  rw [declKind_append, h]; rfl

/-- In a valid program a name that a node of the prefix `p` refers to is declared in `p`. -/
theorem used_declared {p l : List Node} (hud : UsedAfterDecl (p ++ l)) {u : Node}
    {name : String} (hu : u ∈ p) (hn : u.uses = some name) : ∃ k, declKind p name = some k := by
  obtain ⟨i, hlt, hi⟩ := List.mem_iff_getElem.mp hu
  have hi' : (p ++ l)[i]? = some u := by
    rw [List.getElem?_append_left hlt, List.getElem?_eq_getElem hlt, hi]
  obtain ⟨d, hd, hdn⟩ := declared_before hud hi' hn
  have hd' : d ∈ p := by
    rw [List.take_append_of_le_length (Nat.le_of_lt hlt)] at hd
    exact List.mem_of_mem_take hd
  exact declKind_of_mem hd' hdn

theorem validInv_step {e0 : Nat} {c0 : List String} {p us : List Node} {u : Node}
    {st : CheckState} (hnd : NoDupDecl (p ++ u :: us)) (hud : UsedAfterDecl (p ++ u :: us))
    (hta : TypesAgree (p ++ u :: us)) (hcf : ChildrenFirst (p ++ u :: us))
    (hok : u.shapeOk = true) (hinv : ValidInv e0 c0 p st) :
    ∃ st', visit u st = some st' ∧ ValidInv e0 c0 (p ++ [u]) st' := by
  obtain ⟨he, hc, hv⟩ := hinv
  have hup : (p ++ u :: us)[p.length]? = some u := by
    rw [List.getElem?_append_right (Nat.le_refl _)]; simp
  have same : ∀ y, u.declares = none →
      (declKind (p ++ [u]) y).map IdType.val = (declKind p y).map IdType.val := by
    intro y hu
    rw [declKind_append]
    have : declKind [u] y = none := by
      obtain ⟨a, k, cs⟩ := u
      cases k <;> simp [Node.declares, Node.kind] at hu <;> simp [declKind, Node.kind]
    rw [this]; simp
  have used : ∀ name, u.uses = some name → ∃ k, declKind p name = some k := by
    intro name hu
    obtain ⟨d, hd, hdn⟩ := declared_before hud hup hu
    rw [List.take_left' rfl] at hd
    exact declKind_of_mem hd hdn
  obtain ⟨a, k, cs⟩ := u
  cases k
  case Decl x ty =>
    have hnone := declKind_none_of_nodup hnd (u := .mk a (.Decl x ty) cs) (x := x)
      (by simp [Node.declares, Node.kind])
    have hl : st.vars.lookup x = none := by rw [hv, hnone]; rfl
    have hcount : st.count x = 0 := (count_eq_zero_iff _ _).mpr hl
    refine ⟨{ st with vars := (x, ty.val) :: st.vars }, ?_, he, hc, ?_⟩
    · simp only [visit, hcount, if_true]
    intro y
    show List.lookup y ((x, ty.val) :: st.vars) = _
    rw [List.lookup_cons, declKind_append]
    by_cases hyx : y = x
    · subst hyx
      rw [hnone]
      simp [declKind, Node.kind]
    · have h1 : (y == x) = false := by simpa using hyx
      have h2 : declKind [Node.mk a (Kind.Decl x ty) cs] y = none := by
        simp [declKind, Node.kind, Ne.symm hyx]
      rw [h1, h2, hv]; simp
  case Attr x =>
    cases cs with
    | nil => simp [Node.shapeOk, Kind.arity] at hok
    | cons rhs rest =>
      obtain ⟨kx, hkx⟩ := used x (by simp [Node.uses, Node.kind])
      have hlx : st.vars.lookup x = some kx.val := by rw [hv, hkx]; rfl
      have hcount : st.count x ≠ 0 := by rw [Ne, count_eq_zero_iff, hlx]; simp
      have hrhs : rhs ∈ p := hcf p us _ rfl rhs (by simp [Node.getChildren])
      have hagree : rhsKind (p ++ Node.mk a (Kind.Attr x) (rhs :: rest) :: us) rhs
          = some kx := by
        have := hta (.mk a (.Attr x) (rhs :: rest)) (by simp)
        simp only [decide_eq_true_eq] at this
        rw [this]
        exact declKind_of_left hkx
      have hr : (match rhs.kind with
          | .Ident nm => st.index nm
          | .Str _ => (IdType.STR.val, st)
          | _ => (IdType.NUM.val, st)) = (kx.val, st) := by
        unfold rhsKind at hagree
        split
        · rename_i y hk
          rw [hk] at hagree
          simp only at hagree
          obtain ⟨ky, hky⟩ := used_declared hud hrhs
            (show rhs.uses = some y by simp [Node.uses, hk])
          rw [declKind_of_left hky] at hagree
          cases hagree
          simp [CheckState.index, hv, hky]
        · rename_i v hk
          rw [hk] at hagree
          simp only [Option.some.injEq] at hagree
          rw [← hagree]
        · rename_i h1 h2
          have : kx = .NUM := by
            revert hagree h1 h2
            generalize rhs.kind = kk
            cases kk <;> simp
            all_goals (intro h; exact h.symm)
          rw [this]
      have hq : st.index x = (kx.val, st) := by simp [CheckState.index, hlx]
      refine ⟨st, ?_, he, hc, ?_⟩
      · simp only [visit, if_neg hcount, hr, hq, ne_eq, not_true_eq_false, if_false]
      · intro y
        rw [same y (by simp [Node.declares, Node.kind])]
        exact hv y
  case Ident nm =>
    obtain ⟨kx, hkx⟩ := used nm (by simp [Node.uses, Node.kind])
    have hlx : st.vars.lookup nm = some kx.val := by rw [hv, hkx]; rfl
    have hcount : st.count nm ≠ 0 := by rw [Ne, count_eq_zero_iff, hlx]; simp
    refine ⟨st, by simp only [visit, if_neg hcount], he, hc, ?_⟩
    intro y
    rw [same y (by simp [Node.declares, Node.kind])]
    exact hv y
  all_goals
    refine ⟨st, rfl, he, hc, ?_⟩
    intro y
    rw [same y (by simp [Node.declares, Node.kind])]
    exact hv y

theorem validInv_run (e0 : Nat) (c0 : List String) : ∀ (l p : List Node) (st : CheckState),
    NoDupDecl (p ++ l) → UsedAfterDecl (p ++ l) → TypesAgree (p ++ l) →
    ChildrenFirst (p ++ l) → (∀ u ∈ l, u.shapeOk = true) → ValidInv e0 c0 p st →
    ∃ st', visitAll l st = some st' ∧ ValidInv e0 c0 (p ++ l) st'
  | [], p, st, _, _, _, _, _, hinv => ⟨st, rfl, by simpa using hinv⟩
  | u :: us, p, st, hnd, hud, hta, hcf, hok, hinv => by
    obtain ⟨s1, h1, hinv1⟩ := validInv_step hnd hud hta hcf (hok u (by simp)) hinv
    have e : p ++ u :: us = (p ++ [u]) ++ us := by simp
    obtain ⟨st', h2, hinv2⟩ := validInv_run e0 c0 us (p ++ [u]) s1 (e ▸ hnd) (e ▸ hud) (e ▸ hta)
      (e ▸ hcf) (fun w hw => hok w (by simp [hw])) hinv1
    exact ⟨st', by simp [visitAll, h1, h2], e ▸ hinv2⟩

/-- C1 (amended). For every tree in which no two `Decl` nodes carry the same name, every
`Ident(name)` and `Attr(name, ...)` node is visited only after a `Decl(name)` node, and every
assignment has a right-hand side of the declared kind of its target, running `check` from an
empty table and `errorcount = 0` succeeds and ends with `errorcount = 0`, nothing written to
`cerr`. -/
theorem check_valid (t : Node) (cerr : List String) (hwf : t.WF)
    (hnd : NoDupDecl (postorder t)) (hud : UsedAfterDecl (postorder t))
    (hta : TypesAgree (postorder t)) :
    ∃ st', check t (CheckState.fresh 0 cerr) = some st' ∧ st'.errorcount = 0 ∧
      st'.cerr = cerr := by
  obtain ⟨st', h, he, hc, -⟩ := validInv_run 0 cerr (postorder t) []
    (CheckState.fresh 0 cerr) (by simpa using hnd) (by simpa using hud) (by simpa using hta)
    (by simpa using childrenFirst_postorder t) hwf
    ⟨rfl, rfl, fun y => by simp [CheckState.fresh, declKind]⟩
  exact ⟨st', by rw [check, checkRecursive_eq]; exact h, he, hc⟩

/-- Witness of `check_valid`: the program `NUM x; STR s; x = x + 1; s = "a"; x++; print s`. -/
theorem check_valid_witness :
    progValid.WF ∧ NoDupDecl (postorder progValid) ∧ UsedAfterDecl (postorder progValid) ∧
    TypesAgree (postorder progValid) ∧
    ∃ st', check progValid (CheckState.fresh 0 []) = some st' ∧ st'.errorcount = 0 ∧
      st'.cerr = [] :=
  ⟨by decide, by decide, by decide, by decide,
    check_valid progValid [] (by decide) (by decide) (by decide) (by decide)⟩

/-- C1 fails as stated: in `STR x; x = 1` no name is declared twice and `x` is used after its
declaration, yet `check` ends with `errorcount = 1`. -/
theorem check_valid_counterexample :
    progStrNum.WF ∧ NoDupDecl (postorder progStrNum) ∧ UsedAfterDecl (postorder progStrNum) ∧
    check progStrNum (CheckState.fresh 0 []) =
      some ⟨[("x", 2)], 1, ["Incorrect type assigned to x"]⟩ := by
  decide

/-- Witness of `check_redeclared`: the program `NUM x; NUM x`. -/
theorem check_redeclared_witness :
    progRedecl.WF ∧ (postorder progRedecl)[0]? = some (Node.Decl 1 "x" .NUM) ∧
    (postorder progRedecl)[1]? = some (Node.Decl 2 "x" .NUM) ∧
    ∃ st' new, check progRedecl (CheckState.fresh 0 []) = some st' ∧ st'.cerr = [] ++ new ∧
      "Redeclared var " ++ "x" ∈ new ∧ 0 + 1 ≤ st'.errorcount :=
  ⟨by decide, rfl, rfl,
    check_redeclared progRedecl (CheckState.fresh 0 []) "x" 0 1 (Node.Decl 1 "x" .NUM)
      (Node.Decl 2 "x" .NUM) (by decide) (by decide) rfl rfl rfl rfl⟩

/-- Witness of `check_undeclared`: the program `NUM x; x = y; print y`, whose second `Ident(y)`
is visited when `y` is already a key of the table. -/
theorem check_undeclared_witness :
    progUndecl.WF ∧ (postorder progUndecl)[3]? = some (Node.Ident 4 "y") ∧
    (∀ d ∈ (postorder progUndecl).take 3, d.declares ≠ some "y") ∧
    ∃ st' new, check progUndecl (CheckState.fresh 0 []) = some st' ∧ st'.cerr = [] ++ new ∧
      "Undeclared var " ++ "y" ∈ new ∧ 0 + 1 ≤ st'.errorcount :=
  ⟨by decide, rfl, by decide,
    check_undeclared progUndecl 0 [] "y" 3 (Node.Ident 4 "y") (by decide) rfl rfl
      (by decide)⟩

/-- Witness of `check_str_assigned_num`: the program `STR x; x = 1`. -/
theorem check_str_assigned_num_witness :
    progStrNum.WF ∧ (postorder progStrNum)[0]? = some (Node.Decl 1 "x" .STR) ∧
    (postorder progStrNum)[2]? = some (Node.Attr 3 "x" (Node.Int 2 1)) ∧
    ∃ st' new, check progStrNum (CheckState.fresh 0 []) = some st' ∧ st'.cerr = [] ++ new ∧
      "Incorrect type assigned to " ++ "x" ∈ new ∧ 0 + 1 ≤ st'.errorcount :=
  ⟨by decide, rfl, rfl,
    check_str_assigned_num progStrNum 0 [] "x" 0 2 (Node.Decl 1 "x" .STR) 3 (Node.Int 2 1) []
      (by decide) (by decide) rfl rfl (by decide) rfl rfl⟩

/-- C4 fails as stated: in `NUM x; STR x; x = 1` a `Decl(x, STR)` node is visited and later
an `Attr(x, Int)` node, yet the only line `check` writes is "Redeclared var x": the table
keeps the kind `NUM` of the first declaration, so the assignment is not reported. -/
theorem check_str_assigned_num_counterexample :
    progNumStrNum.WF ∧ (postorder progNumStrNum)[1]? = some (Node.Decl 2 "x" .STR) ∧
    (postorder progNumStrNum)[3]? = some (Node.Attr 4 "x" (Node.Int 3 1)) ∧
    (Node.Int 3 1).isNumeric = true ∧
    check progNumStrNum (CheckState.fresh 0 []) = some ⟨[("x", 1)], 1, ["Redeclared var x"]⟩ ∧
    "Incorrect type assigned to x" ∉ ["Redeclared var x"] :=
  ⟨by decide, rfl, rfl, rfl, by decide, by decide⟩

/-- C5 (amended). Visiting an `Attr(x, rhs)` node while `x` is in the table with kind `k`,
where the inferred kind `c` of `rhs` is `STR` for a `Str` literal, the table kind of `y` for
`Ident(y)` with `y` in the table, and `NUM` for a node of any class other than `Str` and
`Ident`: the visit of the node itself succeeds, adds exactly one error
"Incorrect type assigned to x" if `c` differs from `k`, and changes nothing if they are
equal. -/
theorem visit_attr (st : CheckState) (a : Nat) (x : String) (rhs : Node) (rest : List Node)
    (k c : Nat) (hx : st.vars.lookup x = some k) (hc : inferredKind st rhs = some c) :
    visit (.mk a (.Attr x) (rhs :: rest)) st =
      some (if c ≠ k then st.error "Incorrect type assigned to " x else st) := by
  have hcount : st.count x ≠ 0 := by rw [Ne, count_eq_zero_iff, hx]; simp
  have hr : (match rhs.kind with
      | .Ident nm => st.index nm
      | .Str _ => (IdType.STR.val, st)
      | _ => (IdType.NUM.val, st)) = (c, st) := by
    unfold inferredKind at hc
    generalize rhs.kind = kk at hc ⊢
    cases kk <;> simp only [Option.some.injEq] at hc <;> try rw [hc]
    simp [CheckState.index, hc]
  have hq : st.index x = (k, st) := by simp [CheckState.index, hx]
  simp only [visit, if_neg hcount, hr, hq]
  by_cases hkc : k = c
  · subst hkc; simp
  · have hck : c ≠ k := fun h => hkc h.symm
    simp [hkc, hck]

/-- Witness of `visit_attr`: `s = 1` where `s` is recorded as `STR` adds one error,
the table being that of `STR s`. -/
theorem visit_attr_witness :
    visit (Node.Attr 3 "s" (Node.Int 2 1)) ⟨[("s", 2)], 0, []⟩ =
      some ⟨[("s", 2)], 1, ["Incorrect type assigned to s"]⟩ :=
  visit_attr ⟨[("s", 2)], 0, []⟩ 3 "s" (Node.Int 2 1) [] 2 1 rfl rfl

/-- C5 fails as stated: with `x` recorded as `NUM` and `y` not in the table, the claim infers
`NUM` for the right-hand side of `x = y` and so promises no error from the visit of the
`Attr` node; the code reads `vars[y]`, which is 0 and enters `y` in the table, and reports
"Incorrect type assigned to x". -/
theorem visit_attr_counterexample :
    (⟨[("x", 1)], 1, ["Undeclared var y"]⟩ : CheckState).vars.lookup "x" = some IdType.NUM.val ∧
    (⟨[("x", 1)], 1, ["Undeclared var y"]⟩ : CheckState).vars.lookup "y" = none ∧
    checkChildren [Node.Decl 1 "x" .NUM, Node.Ident 2 "y"] (CheckState.fresh 0 []) =
      some ⟨[("x", 1)], 1, ["Undeclared var y"]⟩ ∧
    visit (Node.Attr 3 "x" (Node.Ident 2 "y")) ⟨[("x", 1)], 1, ["Undeclared var y"]⟩ =
      some ⟨[("y", 0), ("x", 1)], 2, ["Undeclared var y", "Incorrect type assigned to x"]⟩ := by
  decide

/-! ## Lemmas about the IR builder -/

theorem insert_length (s : State) (mk : Nat → Instr) :
    (s.insert mk).2.blocks.length = s.blocks.length := by
  unfold State.insert
  simp only
  split
  · rfl
  · split <;> simp

theorem insert_insertPoint (s : State) (mk : Nat → Instr) :
    (s.insert mk).2.insertPoint = s.insertPoint := rfl

theorem insert_instrsAt_self (s : State) (mk : Nat → Instr) (j : Nat)
    (hip : s.insertPoint = some j) (hj : j < s.blocks.length) :
    (s.insert mk).2.instrsAt j = s.instrsAt j ++ [mk s.nextId] := by
  unfold State.insert State.instrsAt
  simp only [hip]
  rw [List.getElem?_eq_getElem hj]
  simp [List.getElem?_set_self, hj]

theorem insert_instrsAt_other (s : State) (mk : Nat → Instr) (j : Nat)
    (hip : s.insertPoint ≠ some j) : (s.insert mk).2.instrsAt j = s.instrsAt j := by
  have h : (s.insert mk).2.blocks[j]? = s.blocks[j]? := by
    unfold State.insert
    simp only
    cases hi : s.insertPoint with
    | none => rfl
    | some b =>
      simp only
      cases hb : s.blocks[b]? with
      | none => rfl
      | some blk =>
        simp only
        rw [List.getElem?_set_ne]
        rintro rfl
        exact hip hi
  unfold State.instrsAt
  rw [h]

theorem createBlock_length (s : State) (name : String) :
    (s.createBlock name).2.blocks.length = s.blocks.length + 1 := by
  simp [State.createBlock]

theorem createBlock_instrsAt (s : State) (name : String) (j : Nat) :
    (s.createBlock name).2.instrsAt j = s.instrsAt j := by
  unfold State.createBlock State.instrsAt
  simp only
  rcases Nat.lt_trichotomy j s.blocks.length with h | h | h
  · rw [List.getElem?_append_left h]
  · subst h
    simp
  · rw [List.getElem?_eq_none (by simp; omega), List.getElem?_eq_none (by omega)]

theorem instrsAt_of_le (s : State) (j : Nat) (h : s.blocks.length ≤ j) : s.instrsAt j = [] := by
  unfold State.instrsAt
  rw [List.getElem?_eq_none h]

theorem open_nil : Open [] := by
  intro i hi
  cases hi

theorem open_append {l1 l2 : List Instr} (h1 : Open l1) (h2 : Open l2) : Open (l1 ++ l2) := by
  intro i hi
  rcases List.mem_append.mp hi with h | h
  · exact h1 i h
  · exact h2 i h

theorem open_single {i : Instr} (h : i.isTerminator = false) : Open [i] := by
  intro j hj
  have : j = i := by simpa using hj
  rw [this]; exact h

theorem closed_append {l1 l2 : List Instr} (h1 : Open l1) (h2 : Closed l2) :
    Closed (l1 ++ l2) := by
  obtain ⟨pre, t, rfl, hp, ht⟩ := h2
  exact ⟨l1 ++ pre, t, by simp, open_append h1 hp, ht⟩

theorem closed_snoc {l : List Instr} {t : Instr} (h1 : Open l) (ht : t.isBranch = true) :
    Closed (l ++ [t]) :=
  ⟨l, t, rfl, h1, ht⟩

theorem isTerminator_of_isBranch {t : Instr} (h : t.isBranch = true) :
    t.isTerminator = true := by
  cases t <;> simp [Instr.isBranch] at h <;> rfl

/-- A closed block has exactly one terminator, its last instruction, and a successor. -/
theorem closed_terminators {l : List Instr} (h : Closed l) :
    ∃ t, terminators l = [t] ∧ l.getLast? = some t ∧ t.isBranch = true ∧ successors l ≠ [] := by
  obtain ⟨pre, t, rfl, hp, ht⟩ := h
  refine ⟨t, ?_, by simp, ht, ?_⟩
  · unfold terminators
    rw [List.filter_append]
    have : pre.filter Instr.isTerminator = [] := by
      rw [List.filter_eq_nil_iff]
      intro i hi
      simp [hp i hi]
    rw [this]
    simp [isTerminator_of_isBranch ht]
  · unfold successors
    rw [List.flatMap_append]
    intro h
    have h2 := (List.append_eq_nil.mp h).2
    cases t <;> simp [Instr.isBranch] at ht <;> simp [Instr.successors] at h2

theorem open_terminators {l : List Instr} (h : Open l) :
    terminators l = [] ∧ successors l = [] := by
  constructor
  · unfold terminators
    rw [List.filter_eq_nil_iff]
    intro i hi
    simp [h i hi]
  · unfold successors
    rw [List.flatMap_eq_nil_iff]
    intro i hi
    have := h i hi
    cases i <;> simp [Instr.isTerminator] at this <;> rfl

theorem instrsAt_congr {s1 s2 : State} (h : s2.blocks = s1.blocks) (j : Nat) :
    s2.instrsAt j = s1.instrsAt j := by
  unfold State.instrsAt
  rw [h]

theorem gen_refl (s : State) (B : Nat) (hip : s.insertPoint = some B)
    (hB : B < s.blocks.length) : Gen s s B [] where
  valid := hB
  len_le := Nat.le_refl _
  frame := fun _ _ _ => rfl
  ip := ⟨B, hip, hB, Or.inl rfl, by simp⟩
  pend := fun p hp => by cases hp
  touched := by
    intro j hj hor _
    have hjB : j = B := by omega
    refine ⟨[], by simp, fun _ => open_nil, fun h => ?_⟩
    exact absurd (hjB ▸ hip) h

theorem gen_same {s s1 s2 : State} {B : Nat} {P : List Nat} (g : Gen s s1 B P)
    (hb : s2.blocks = s1.blocks) (hi : s2.insertPoint = s1.insertPoint) : Gen s s2 B P where
  valid := g.valid
  len_le := by rw [hb]; exact g.len_le
  frame := fun j h1 h2 => by rw [instrsAt_congr hb]; exact g.frame j h1 h2
  ip := by rw [hb, hi]; exact g.ip
  pend := fun p hp => by rw [hb, instrsAt_congr hb]; exact g.pend p hp
  touched := by
    intro j hj hor hP
    rw [hb] at hj
    rw [instrsAt_congr hb, hi]
    exact g.touched j hj hor hP

theorem gen_insert {s s1 : State} {B : Nat} {P : List Nat} (g : Gen s s1 B P)
    (mk : Nat → Instr) (hmk : ∀ id, (mk id).isTerminator = false) :
    Gen s (s1.insert mk).2 B P := by
  obtain ⟨B1, hip1, hB1, hor1, hP1⟩ := g.ip
  have other : ∀ j, j ≠ B1 → (s1.insert mk).2.instrsAt j = s1.instrsAt j := by
    intro j hj
    apply insert_instrsAt_other
    rw [hip1]
    intro h
    exact hj (Option.some.inj h).symm
  refine ⟨g.valid, ?_, ?_, ?_, ?_, ?_⟩
  · rw [insert_length]; exact g.len_le
  · intro j h1 h2
    rw [other j (by omega)]
    exact g.frame j h1 h2
  · rw [insert_length, insert_insertPoint]
    exact ⟨B1, hip1, hB1, hor1, hP1⟩
  · intro p hp
    rw [insert_length, other p (fun h => hP1 (h ▸ hp))]
    exact g.pend p hp
  · intro j hj hor hP
    rw [insert_length] at hj
    rw [insert_insertPoint]
    obtain ⟨added, ha, ho, hc⟩ := g.touched j hj hor hP
    by_cases hjB : j = B1
    · subst hjB
      refine ⟨added ++ [mk s1.nextId], ?_, fun _ => ?_, fun h => absurd hip1 h⟩
      · rw [insert_instrsAt_self s1 mk j hip1 hB1, ha, List.append_assoc]
      · exact open_append (ho hip1) (open_single (hmk _))
    · rw [other j hjB]
      exact ⟨added, ha, ho, hc⟩

theorem gen_createBlock {s s1 : State} {B : Nat} {P : List Nat} (g : Gen s s1 B P)
    (name : String) : Gen s (s1.createBlock name).2 B (s1.blocks.length :: P) := by
  obtain ⟨B1, hip1, hB1, hor1, hP1⟩ := g.ip
  refine ⟨g.valid, ?_, ?_, ?_, ?_, ?_⟩
  · rw [createBlock_length]; exact Nat.le_succ_of_le g.len_le
  · intro j h1 h2
    rw [createBlock_instrsAt]
    exact g.frame j h1 h2
  · refine ⟨B1, hip1, ?_, hor1, ?_⟩
    · rw [createBlock_length]; omega
    · simp only [List.mem_cons, not_or]
      exact ⟨by omega, hP1⟩
  · intro p hp
    rw [createBlock_length, createBlock_instrsAt]
    rcases List.mem_cons.mp hp with rfl | hp
    · exact ⟨g.len_le, by omega, instrsAt_of_le _ _ (Nat.le_refl _)⟩
    · obtain ⟨h1, h2, h3⟩ := g.pend p hp
      exact ⟨h1, by omega, h3⟩
  · intro j hj hor hP
    rw [createBlock_length] at hj
    simp only [List.mem_cons, not_or] at hP
    rw [createBlock_instrsAt]
    exact g.touched j (by omega) hor hP.2

theorem gen_jump {s s1 : State} {B : Nat} {P : List Nat} (g : Gen s s1 B P)
    (p : Nat) (hp : p ∈ P) (mk : Nat → Instr) (hmk : ∀ id, (mk id).isBranch = true) :
    Gen s ((s1.insert mk).2.setInsertPoint p) B (P.filter (fun q => q ≠ p)) := by
  obtain ⟨B1, hip1, hB1, hor1, hP1⟩ := g.ip
  obtain ⟨hp1, hp2, hp3⟩ := g.pend p hp
  have hpB1 : p ≠ B1 := fun h => hP1 (h ▸ hp)
  have hat : ∀ j, ((s1.insert mk).2.setInsertPoint p).instrsAt j = (s1.insert mk).2.instrsAt j :=
    fun j => instrsAt_congr rfl j
  have other : ∀ j, j ≠ B1 →
      ((s1.insert mk).2.setInsertPoint p).instrsAt j = s1.instrsAt j := by
    intro j hj
    rw [hat]
    apply insert_instrsAt_other
    rw [hip1]
    intro h
    exact hj (Option.some.inj h).symm
  have hlen : ((s1.insert mk).2.setInsertPoint p).blocks.length = s1.blocks.length :=
    insert_length s1 mk
  have hip2 : ((s1.insert mk).2.setInsertPoint p).insertPoint = some p := rfl
  refine ⟨g.valid, ?_, ?_, ?_, ?_, ?_⟩
  · rw [hlen]; exact g.len_le
  · intro j h1 h2
    rw [other j (by omega)]
    exact g.frame j h1 h2
  · exact ⟨p, hip2, by rw [hlen]; exact hp2, Or.inr hp1, by simp⟩
  · intro q hq
    simp only [List.mem_filter, decide_eq_true_eq] at hq
    rw [hlen, other q (fun h => hP1 (h ▸ hq.1))]
    exact g.pend q hq.1
  · intro j hj hor hP
    rw [hlen] at hj
    rw [hip2]
    by_cases hjp : j = p
    · subst hjp
      refine ⟨[], ?_, fun _ => open_nil, fun h => absurd rfl h⟩
      rw [other j hpB1, hp3, instrsAt_of_le s j hp1]
      rfl
    · have hP' : j ∉ P := by
        intro h
        exact hP (List.mem_filter.mpr ⟨h, by simpa using hjp⟩)
      obtain ⟨added, ha, ho, hc⟩ := g.touched j hj hor hP'
      have hne : some p ≠ some j := fun h => hjp (Option.some.inj h).symm
      by_cases hjB : j = B1
      · subst hjB
        refine ⟨added ++ [mk s1.nextId], ?_, fun h => absurd h hne, fun _ => ?_⟩
        · rw [hat, insert_instrsAt_self s1 mk j hip1 hB1, ha, List.append_assoc]
        · exact closed_snoc (ho hip1) (hmk _)
      · rw [other j hjB]
        refine ⟨added, ha, fun h => absurd h hne, fun _ => hc ?_⟩
        rw [hip1]
        intro h
        exact hjB (Option.some.inj h).symm

theorem gen_comp {s s1 s2 : State} {B B1 : Nat} {P : List Nat} (g : Gen s s1 B P)
    (hip : s1.insertPoint = some B1) (g2 : Gen s1 s2 B1 []) : Gen s s2 B P := by
  obtain ⟨B1', hip1, hB1, hor1, hP1⟩ := g.ip
  have hB : B1' = B1 := Option.some.inj (hip1.symm.trans hip)
  subst hB
  obtain ⟨B2, hip2, hB2, hor2, -⟩ := g2.ip
  have hs : s.blocks.length ≤ s1.blocks.length := g.len_le
  refine ⟨g.valid, Nat.le_trans g.len_le g2.len_le, ?_, ?_, ?_, ?_⟩
  · intro j h1 h2
    rw [g2.frame j (by omega) (by omega)]
    exact g.frame j h1 h2
  · refine ⟨B2, hip2, hB2, ?_, ?_⟩
    · rcases hor2 with rfl | h
      · exact hor1
      · exact Or.inr (by omega)
    · rcases hor2 with rfl | h
      · exact hP1
      · intro hB2P
        have := (g.pend B2 hB2P).2.1
        omega
  · intro p hp
    obtain ⟨h1, h2, h3⟩ := g.pend p hp
    have hne : p ≠ B1' := fun h => hP1 (h ▸ hp)
    rw [g2.frame p h2 hne]
    exact ⟨h1, Nat.lt_of_lt_of_le h2 g2.len_le, h3⟩
  · intro j hj hor hP
    by_cases hj1 : j < s1.blocks.length
    · obtain ⟨added1, ha1, ho1, hc1⟩ := g.touched j hj1 hor hP
      by_cases hjB : j = B1'
      · subst hjB
        obtain ⟨added2, ha2, ho2, hc2⟩ := g2.touched j hj (Or.inl rfl) (by simp)
        refine ⟨added1 ++ added2, ?_, fun h => ?_, fun h => ?_⟩
        · rw [ha2, ha1, List.append_assoc]
        · exact open_append (ho1 hip1) (ho2 h)
        · exact closed_append (ho1 hip1) (hc2 h)
      · rw [g2.frame j hj1 hjB]
        have hne1 : s1.insertPoint ≠ some j := by
          rw [hip1]
          intro h
          exact hjB (Option.some.inj h).symm
        have hne2 : s2.insertPoint ≠ some j := by
          rw [hip2]
          intro h
          have := Option.some.inj h
          omega
        exact ⟨added1, ha1, fun h => absurd h hne2, fun _ => hc1 hne1⟩
    · obtain ⟨added2, ha2, ho2, hc2⟩ := g2.touched j hj (Or.inr (by omega)) (by simp)
      refine ⟨added2, ?_, ho2, hc2⟩
      rw [ha2, instrsAt_of_le s1 j (by omega), instrsAt_of_le s j (by omega)]

mutual
theorem node_induct {motive : Node → Prop}
    (h : ∀ a k cs, (∀ c ∈ cs, motive c) → motive (.mk a k cs)) : ∀ n, motive n
  | .mk a k cs => h a k cs (node_induct_list h cs)
theorem node_induct_list {motive : Node → Prop}
    (h : ∀ a k cs, (∀ c ∈ cs, motive c) → motive (.mk a k cs)) :
    ∀ (cs : List Node), ∀ c ∈ cs, motive c
  | [], c, hc => by cases hc
  | d :: ds, c, hc => by
    rcases List.mem_cons.mp hc with rfl | hc
    · exact node_induct h c
    · exact node_induct_list h ds c hc
end

theorem gen_inserted {s s1 s2 : State} {B : Nat} {P : List Nat} (g : Gen s s1 B P)
    (h : Inserted s1 s2) : Gen s s2 B P := by
  obtain ⟨mk, hmk, rfl⟩ := h
  exact gen_insert g mk hmk

theorem createStore_inserted {s s' : State} {v p : Option Value} {w : Value}
    (h : s.createStore v p = some (w, s')) : Inserted s s' := by
  unfold State.createStore at h
  split at h
  · rename_i x y
    cases h
    exact ⟨fun id => .store id x y, fun _ => rfl, rfl⟩
  · cases h

theorem createBinOp_inserted {s s' : State} {op : BinOp} {l r : Option Value} {w : Value}
    (h : s.createBinOp op l r = some (w, s')) : Inserted s s' := by
  unfold State.createBinOp at h
  split at h
  · rename_i x y
    cases h
    exact ⟨fun id => .binop id op x y, fun _ => rfl, rfl⟩
  · cases h

theorem createFCmp_inserted {s s' : State} {pred : FCmp} {l r : Option Value} {w : Value}
    (h : s.createFCmp pred l r = some (w, s')) : Inserted s s' := by
  unfold State.createFCmp at h
  split at h
  · rename_i x y
    cases h
    exact ⟨fun id => .fcmp id pred x y, fun _ => rfl, rfl⟩
  · cases h

theorem createNot_inserted {s s' : State} {v : Option Value} {w : Value}
    (h : s.createNot v = some (w, s')) : Inserted s s' := by
  unfold State.createNot at h
  split at h
  · rename_i x
    cases h
    exact ⟨fun id => .not id x, fun _ => rfl, rfl⟩
  · cases h

theorem createCall_inserted (s : State) (f : Func) (args : List Value) :
    Inserted s (s.createCall f args).2 :=
  ⟨fun id => .call id f args, fun _ => rfl, rfl⟩

theorem createLoad_inserted (s : State) (ty : Ty) (ptr : Value) (name : String) :
    Inserted s (s.createLoad ty ptr name).2 :=
  ⟨fun id => .load id ty ptr name, fun _ => rfl, rfl⟩

theorem createAlloca_inserted (s : State) (ty : Ty) (name : String) :
    Inserted s (s.createAlloca ty name).2 :=
  ⟨fun id => .alloca id ty name, fun _ => rfl, rfl⟩

theorem symbolsIndex_blocks (s : State) (name : String) :
    (s.symbolsIndex name).2.blocks = s.blocks ∧
      (s.symbolsIndex name).2.insertPoint = s.insertPoint := by
  unfold State.symbolsIndex
  split <;> exact ⟨rfl, rfl⟩

theorem gen_symbolsIndex {s s1 : State} {B : Nat} {P : List Nat} (g : Gen s s1 B P)
    (name : String) : Gen s (s1.symbolsIndex name).2 B P :=
  gen_same g (symbolsIndex_blocks s1 name).1 (symbolsIndex_blocks s1 name).2

theorem gen_symbolsAssign {s s1 : State} {B : Nat} {P : List Nat} (g : Gen s s1 B P)
    (name : String) (v : Value) : Gen s (s1.symbolsAssign name v) B P :=
  gen_same g rfl rfl

theorem gen_createAlloca {s s1 : State} {B : Nat} {P : List Nat} (g : Gen s s1 B P)
    (ty : Ty) (name : String) : Gen s (s1.createAlloca ty name).2 B P :=
  gen_inserted g (createAlloca_inserted _ _ _)

theorem gen_codegenStr {s s1 : State} {B : Nat} {P : List Nat} (g : Gen s s1 B P)
    (value : String) : Gen s (codegenStr value s1).2 B P :=
  gen_same g rfl rfl

theorem gen_codegenIdent {s s1 s2 : State} {B : Nat} {P : List Nat} {name : String}
    {v : Option Value} (g : Gen s s1 B P) (h : codegenIdent name s1 = some (v, s2)) :
    Gen s s2 B P := by
  unfold codegenIdent at h
  dsimp only at h
  split at h
  · cases h
    exact gen_inserted (gen_symbolsIndex g name) (createLoad_inserted _ _ _ _)
  · cases h

theorem gen_codegenDecl {s s1 s2 : State} {B : Nat} {P : List Nat} {ident : String}
    {type : IdType} {v : Option Value} (g : Gen s s1 B P)
    (h : codegenDecl ident type s1 = some (v, s2)) : Gen s s2 B P := by
  cases type
  · simp only [codegenDecl, Option.map_eq_some'] at h
    obtain ⟨⟨w, s3⟩, h1, h2⟩ := h
    cases h2
    exact gen_inserted (gen_symbolsAssign (gen_createAlloca g _ _) _ _) (createStore_inserted h1)
  · simp only [codegenDecl, Option.map_eq_some'] at h
    obtain ⟨⟨w, s3⟩, h1, h2⟩ := h
    cases h2
    exact gen_inserted (gen_symbolsAssign (gen_createAlloca (gen_codegenStr g "") _ _) _ _)
      (createStore_inserted h1)

theorem gen_codegenPrint {s s1 s2 : State} {B : Nat} {P : List Nat} {exprv v : Option Value}
    (g : Gen s s1 B P) (h : codegenPrint exprv s1 = some (v, s2)) : Gen s s2 B P := by
  unfold codegenPrint at h
  split at h
  · cases h
  · split at h
    · cases h
      exact gen_inserted g (createCall_inserted _ _ _)
    · split at h
      · cases h
        exact gen_inserted g (createCall_inserted _ _ _)
      · cases h
        exact gen_same g rfl rfl

theorem gen_codegenArit {s s1 s2 : State} {B : Nat} {P : List Nat} {oper : Char}
    {lv rv v : Option Value} (g : Gen s s1 B P)
    (h : codegenArit oper lv rv s1 = some (v, s2)) : Gen s s2 B P := by
  unfold codegenArit at h
  have key : ∀ op, (s1.createBinOp op lv rv).map (fun w => (some w.1, w.2)) = some (v, s2) →
      Gen s s2 B P := by
    intro op h
    simp only [Option.map_eq_some'] at h
    obtain ⟨⟨w, s3⟩, h1, h2⟩ := h
    cases h2
    exact gen_inserted g (createBinOp_inserted h1)
  split at h
  · exact key _ h
  · split at h
    · exact key _ h
    · split at h
      · exact key _ h
      · split at h
        · exact key _ h
        · cases h
          exact gen_same g rfl rfl

theorem gen_codegenRelational {s s1 s2 : State} {B : Nat} {P : List Nat} {oper : RelOper}
    {lv rv v : Option Value} (g : Gen s s1 B P)
    (h : codegenRelational oper lv rv s1 = some (v, s2)) : Gen s s2 B P := by
  unfold codegenRelational at h
  simp only [Option.map_eq_some'] at h
  obtain ⟨⟨w, s3⟩, h1, h2⟩ := h
  cases h2
  exact gen_inserted g (createFCmp_inserted h1)

theorem gen_codegenLogical {s s1 s2 : State} {B : Nat} {P : List Nat} {oper : LogOper}
    {lv rv v : Option Value} (g : Gen s s1 B P)
    (h : codegenLogical oper lv rv s1 = some (v, s2)) : Gen s s2 B P := by
  unfold codegenLogical at h
  cases oper <;> simp only [Option.map_eq_some'] at h <;> obtain ⟨⟨w, s3⟩, h1, h2⟩ := h <;>
    cases h2
  · exact gen_inserted g (createBinOp_inserted h1)
  · exact gen_inserted g (createBinOp_inserted h1)
  · exact gen_inserted g (createNot_inserted h1)

theorem gen_codegenIncDec {s s1 s2 : State} {B : Nat} {P : List Nat} {op : BinOp}
    {ident : String} {idv v : Option Value} (g : Gen s s1 B P)
    (h : codegenIncDec op ident idv s1 = some (v, s2)) : Gen s s2 B P := by
  unfold codegenIncDec at h
  dsimp only at h
  split at h
  · cases h
  · rename_i exprv s3 h1
    simp only [Option.map_eq_some'] at h
    obtain ⟨⟨w, s4⟩, h2, h3⟩ := h
    cases h3
    have g1 : Gen s s3 B P := gen_inserted g (createBinOp_inserted h1)
    exact gen_inserted (gen_symbolsIndex g1 ident) (createStore_inserted h2)

theorem gen_then {s s1 s2 : State} {B : Nat} {P : List Nat} {c : Node} {v : Option Value}
    (g : Gen s s1 B P) (ih : GenIH c) (h : codegen c s1 = some (v, s2)) : Gen s s2 B P := by
  obtain ⟨B1, hip1, hB1, -, -⟩ := g.ip
  exact gen_comp g hip1 (ih s1 v s2 B1 h hip1 hB1)

theorem gen_children : ∀ (cs : List Node) {s s1 s2 : State} {B : Nat} {P : List Nat},
    Gen s s1 B P → (∀ c ∈ cs, GenIH c) → codegenChildren cs s1 = some s2 → Gen s s2 B P
  | [], s, s1, s2, B, P, g, _, h => by
    simp only [codegenChildren] at h
    cases h
    exact g
  | c :: cs, s, s1, s2, B, P, g, ih, h => by
    simp only [codegenChildren] at h
    split at h
    · cases h
    · rename_i w s3 hc
      exact gen_children cs (gen_then g (ih c (by simp)) hc) (fun d hd => ih d (by simp [hd])) h

theorem gen_jump_to {s s1 : State} {B : Nat} {P : List Nat} (g : Gen s s1 B P)
    (p : Nat) (P' : List Nat) (hp : p ∈ P) (mk : Nat → Instr)
    (hmk : ∀ id, (mk id).isBranch = true) (hP : P.filter (fun q => q ≠ p) = P') :
    Gen s ((s1.insert mk).2.setInsertPoint p) B P' :=
  hP ▸ gen_jump g p hp mk hmk

theorem createCondBr_eq {s s' : State} {cond : Option Value} {t f : Nat} {w : Value}
    (h : s.createCondBr cond t f = some (w, s')) :
    ∃ e, cond = some e ∧ s' = (s.insert (fun id => .condBr id e t f)).2 := by
  unfold State.createCondBr at h
  split at h
  · cases h
  · rename_i e
    cases h
    exact ⟨e, rfl, rfl⟩

/-- The start of `While::codegen`, `If::codegen` and `IfElse::codegen` with three blocks:
the blocks are created, the current block branches to the first of them, and the insertion
point moves there. -/
theorem gen_header3 (s : State) (B : Nat) (hip : s.insertPoint = some B)
    (hB : B < s.blocks.length) (n1 n2 n3 : String) :
    Gen s
      (((((s.createBlock n1).2.createBlock n2).2.createBlock n3).2.insert
        (fun id => .br id s.blocks.length)).2.setInsertPoint s.blocks.length) B
      [s.blocks.length + 2, s.blocks.length + 1] := by
  have g1 := gen_createBlock (gen_createBlock (gen_createBlock (gen_refl s B hip hB) n1) n2) n3
  refine gen_jump_to g1 s.blocks.length _ (by simp) _ (fun _ => rfl) ?_
  simp [State.createBlock, List.filter]

theorem gen_header4 (s : State) (B : Nat) (hip : s.insertPoint = some B)
    (hB : B < s.blocks.length) (n1 n2 n3 n4 : String) :
    Gen s
      ((((((s.createBlock n1).2.createBlock n2).2.createBlock n3).2.createBlock n4).2.insert
        (fun id => .br id s.blocks.length)).2.setInsertPoint s.blocks.length) B
      [s.blocks.length + 3, s.blocks.length + 2, s.blocks.length + 1] := by
  have g1 := gen_createBlock (gen_createBlock (gen_createBlock (gen_createBlock
    (gen_refl s B hip hB) n1) n2) n3) n4
  refine gen_jump_to g1 s.blocks.length _ (by simp) _ (fun _ => rfl) ?_
  simp [State.createBlock, List.filter]

theorem createBlock_fst (s : State) (name : String) : (s.createBlock name).1 = s.blocks.length :=
  rfl

theorem createBr_snd (s : State) (dest : Nat) :
    (s.createBr dest).2 = (s.insert (fun id => .br id dest)).2 := rfl

/-- Lowering any node changes the control-flow graph as `Gen` describes: blocks other than the
one it starts in are untouched, the instructions it adds to a block contain a terminator only
as the last one and only when the insertion point leaves the block, and every block it creates
except the one holding the final insertion point ends in its only terminator. -/
theorem codegen_gen : ∀ n, GenIH n := by
  refine node_induct ?_
  intro a k cs ih s v s' B h hip hB
  have g0 := gen_refl s B hip hB
  cases k
  case Node =>
    simp only [codegen, Option.map_eq_some'] at h
    obtain ⟨s2, h1, h2⟩ := h
    cases h2
    exact gen_children cs g0 ih h1
  case Program =>
    simp only [codegen, Option.map_eq_some'] at h
    obtain ⟨s2, h1, h2⟩ := h
    cases h2
    exact gen_children cs g0 ih h1
  case Stmts =>
    simp only [codegen, Option.map_eq_some'] at h
    obtain ⟨s2, h1, h2⟩ := h
    cases h2
    exact gen_children cs g0 ih h1
  case Ident name =>
    simp only [codegen] at h
    exact gen_codegenIdent g0 h
  case Float value =>
    simp only [codegen, codegenFloat] at h
    cases h
    exact g0
  case Int value =>
    simp only [codegen, codegenInt] at h
    cases h
    exact g0
  case Str value =>
    simp only [codegen] at h
    cases h
    exact gen_codegenStr g0 value
  case Decl ident type =>
    simp only [codegen] at h
    exact gen_codegenDecl g0 h
  case Attr ident =>
    cases cs with
    | nil => simp [codegen] at h
    | cons c rest =>
      simp only [codegen] at h
      split at h
      · cases h
      · rename_i dv s1 hc
        simp only [Option.map_eq_some'] at h
        obtain ⟨⟨w, s3⟩, h1, h2⟩ := h
        cases h2
        exact gen_inserted (gen_symbolsIndex (gen_then g0 (ih c (by simp)) hc) ident)
          (createStore_inserted h1)
  case Print =>
    cases cs with
    | nil => simp [codegen] at h
    | cons c rest =>
      simp only [codegen] at h
      split at h
      · cases h
      · rename_i exprv s1 hc
        exact gen_codegenPrint (gen_then g0 (ih c (by simp)) hc) h
  case Arit oper =>
    rcases cs with _ | ⟨c0, _ | ⟨c1, rest⟩⟩
    · simp [codegen] at h
    · simp [codegen] at h
    · simp only [codegen] at h
      split at h
      · cases h
      · rename_i lv s1 hc0
        split at h
        · cases h
        · rename_i rv s2 hc1
          exact gen_codegenArit
            (gen_then (gen_then g0 (ih c0 (by simp)) hc0) (ih c1 (by simp)) hc1) h
  case Inc ident =>
    cases cs with
    | nil => simp [codegen] at h
    | cons c rest =>
      simp only [codegen] at h
      split at h
      · cases h
      · rename_i idv s1 hc
        exact gen_codegenIncDec (gen_then g0 (ih c (by simp)) hc) h
  case Dec ident =>
    cases cs with
    | nil => simp [codegen] at h
    | cons c rest =>
      simp only [codegen] at h
      split at h
      · cases h
      · rename_i idv s1 hc
        exact gen_codegenIncDec (gen_then g0 (ih c (by simp)) hc) h
  case While =>
    rcases cs with _ | ⟨c0, _ | ⟨c1, rest⟩⟩
    · simp [codegen] at h
    · simp [codegen] at h
    · simp only [codegen, createBlock_fst, createBlock_length, createBr_snd] at h
      split at h
      · cases h
      · rename_i expr s2 hc0
        split at h
        · cases h
        · rename_i w s3 hcb
          split at h
          · cases h
          · rename_i w1 s4 hc1
            obtain ⟨e, rfl, rfl⟩ := createCondBr_eq hcb
            cases h
            have g1 := gen_header3 s B hip hB "cond" "body" "contin"
            have g2 := gen_then g1 (ih c0 (by simp)) hc0
            have g3 := gen_jump_to g2 (s.blocks.length + 1) [s.blocks.length + 2] (by simp)
              (fun id => .condBr id e (s.blocks.length + 1) (s.blocks.length + 1 + 1))
              (fun _ => rfl) (by simp [List.filter])
            have g4 := gen_then g3 (ih c1 (by simp)) hc1
            exact gen_jump_to g4 (s.blocks.length + 1 + 1) [] (by simp) _ (fun _ => rfl)
              (by simp [List.filter])
  case If =>
    rcases cs with _ | ⟨c0, _ | ⟨c1, rest⟩⟩
    · simp [codegen] at h
    · simp [codegen] at h
    · simp only [codegen, createBlock_fst, createBlock_length, createBr_snd] at h
      split at h
      · cases h
      · rename_i expr s2 hc0
        split at h
        · cases h
        · rename_i w s3 hcb
          split at h
          · cases h
          · rename_i w1 s4 hc1
            obtain ⟨e, rfl, rfl⟩ := createCondBr_eq hcb
            cases h
            have g1 := gen_header3 s B hip hB "cond" "body" "contin"
            have g2 := gen_then g1 (ih c0 (by simp)) hc0
            have g3 := gen_jump_to g2 (s.blocks.length + 1) [s.blocks.length + 2] (by simp)
              (fun id => .condBr id e (s.blocks.length + 1) (s.blocks.length + 1 + 1))
              (fun _ => rfl) (by simp [List.filter])
            have g4 := gen_then g3 (ih c1 (by simp)) hc1
            exact gen_jump_to g4 (s.blocks.length + 1 + 1) [] (by simp) _ (fun _ => rfl)
              (by simp [List.filter])
  case IfElse =>
    rcases cs with _ | ⟨c0, _ | ⟨c1, _ | ⟨c2, rest⟩⟩⟩
    · simp [codegen] at h
    · simp [codegen] at h
    · simp [codegen] at h
    · simp only [codegen, createBlock_fst, createBlock_length, createBr_snd] at h
      split at h
      · cases h
      · rename_i expr s2 hc0
        split at h
        · cases h
        · rename_i w s3 hcb
          split at h
          · cases h
          · rename_i w1 s4 hc1
            split at h
            · cases h
            · rename_i w2 s5 hc2
              obtain ⟨e, rfl, rfl⟩ := createCondBr_eq hcb
              cases h
              have g1 := gen_header4 s B hip hB "cond" "ifBody" "elseBody" "contin"
              have g2 := gen_then g1 (ih c0 (by simp)) hc0
              have g3 := gen_jump_to g2 (s.blocks.length + 1)
                [s.blocks.length + 3, s.blocks.length + 2] (by simp)
                (fun id => .condBr id e (s.blocks.length + 1) (s.blocks.length + 1 + 1))
                (fun _ => rfl) (by simp [List.filter])
              have g4 := gen_then g3 (ih c1 (by simp)) hc1
              have g5 := gen_jump_to g4 (s.blocks.length + 1 + 1) [s.blocks.length + 3]
                (by simp) (fun id => .br id (s.blocks.length + 1 + 1 + 1)) (fun _ => rfl)
                (by simp [List.filter])
              have g6 := gen_then g5 (ih c2 (by simp)) hc2
              exact gen_jump_to g6 (s.blocks.length + 1 + 1 + 1) [] (by simp) _ (fun _ => rfl)
                (by simp [List.filter])
  case Relational oper =>
    rcases cs with _ | ⟨c0, _ | ⟨c1, rest⟩⟩
    · simp [codegen] at h
    · simp [codegen] at h
    · simp only [codegen] at h
      split at h
      · cases h
      · rename_i lv s1 hc0
        split at h
        · cases h
        · rename_i rv s2 hc1
          exact gen_codegenRelational
            (gen_then (gen_then g0 (ih c0 (by simp)) hc0) (ih c1 (by simp)) hc1) h
  case Logical oper =>
    rcases cs with _ | ⟨c0, _ | ⟨c1, _ | ⟨c2, rest⟩⟩⟩
    · simp [codegen] at h
    · simp only [codegen] at h
      split at h
      · cases h
      · rename_i lv s1 hc0
        exact gen_codegenLogical (gen_then g0 (ih c0 (by simp)) hc0) h
    · simp only [codegen] at h
      split at h
      · cases h
      · rename_i lv s1 hc0
        split at h
        · cases h
        · rename_i rv s2 hc1
          exact gen_codegenLogical
            (gen_then (gen_then g0 (ih c0 (by simp)) hc0) (ih c1 (by simp)) hc1) h
    · simp only [codegen] at h
      split at h
      · cases h
      · rename_i lv s1 hc0
        exact gen_codegenLogical (gen_then g0 (ih c0 (by simp)) hc0) h

theorem setInsertPoint_instrsAt (s : State) (b j : Nat) :
    (s.setInsertPoint b).instrsAt j = s.instrsAt j := rfl

theorem enterCond_length (s : State) : s.enterCond.blocks.length = s.blocks.length + 3 := by
  simp [State.enterCond, State.setInsertPoint, State.createBr, insert_length,
    createBlock_length]

theorem enterCond_insertPoint (s : State) : s.enterCond.insertPoint = some s.blocks.length :=
  rfl

theorem enterCond_instrsAt (s : State) (B : Nat) (hip : s.insertPoint = some B)
    (hB : B < s.blocks.length) (j : Nat) :
    s.enterCond.instrsAt j =
      if j = B then s.instrsAt B ++ [.br s.nextId s.blocks.length] else s.instrsAt j := by
  unfold State.enterCond
  rw [setInsertPoint_instrsAt, createBr_snd]
  have hip3 : (((s.createBlock "cond").2.createBlock "body").2.createBlock
      "contin").2.insertPoint = some B := hip
  split
  · rename_i hj
    subst hj
    rw [insert_instrsAt_self _ _ j hip3 (by simp [createBlock_length]; omega)]
    rw [createBlock_instrsAt, createBlock_instrsAt, createBlock_instrsAt]
    rfl
  · rename_i hj
    rw [insert_instrsAt_other _ _ j (by rw [hip3]; intro h; exact hj (Option.some.inj h).symm)]
    simp [createBlock_instrsAt]

theorem enterBody_length (s2 : State) (e : Value) (n : Nat) :
    (s2.enterBody e n).blocks.length = s2.blocks.length :=
  insert_length s2 (fun id => .condBr id e (n + 1) (n + 2))

theorem enterBody_instrsAt (s2 : State) (e : Value) (n E : Nat) (hip : s2.insertPoint = some E)
    (hE : E < s2.blocks.length) (j : Nat) :
    (s2.enterBody e n).instrsAt j =
      if j = E then s2.instrsAt E ++ [.condBr s2.nextId e (n + 1) (n + 2)]
      else s2.instrsAt j := by
  unfold State.enterBody
  rw [setInsertPoint_instrsAt]
  split
  · rename_i hj
    subst hj
    rw [insert_instrsAt_self _ _ j hip hE]
  · rename_i hj
    rw [insert_instrsAt_other _ _ j (by rw [hip]; intro h; exact hj (Option.some.inj h).symm)]

theorem leave_instrsAt (s4 : State) (dest p F : Nat) (hip : s4.insertPoint = some F)
    (hF : F < s4.blocks.length) (j : Nat) :
    ((s4.insert (fun id => .br id dest)).2.setInsertPoint p).instrsAt j =
      if j = F then s4.instrsAt F ++ [.br s4.nextId dest] else s4.instrsAt j := by
  rw [setInsertPoint_instrsAt]
  split
  · rename_i hj
    subst hj
    rw [insert_instrsAt_self _ _ j hip hF]
  · rename_i hj
    rw [insert_instrsAt_other _ _ j (by rw [hip]; intro h; exact hj (Option.some.inj h).symm)]

/-- The general part of C6: what `While::codegen` does to the control-flow graph. -/
theorem while_lowering (s : State) (a : Nat) (c0 c1 : Node) (rest : List Node) (B : Nat)
    (e : Value) (w : Option Value) (s2 s4 : State)
    (hip : s.insertPoint = some B) (hB : B < s.blocks.length)
    (hc0 : codegen c0 s.enterCond = some (some e, s2))
    (hc1 : codegen c1 (s2.enterBody e s.blocks.length) = some (w, s4)) :
    ∃ s', codegen (.mk a .While (c0 :: c1 :: rest)) s =
        some (some (.block (s.blocks.length + 2)), s') ∧
      s'.insertPoint = some (s.blocks.length + 2) ∧
      s.blocks.length + 3 ≤ s2.blocks.length ∧ s2.blocks.length ≤ s4.blocks.length ∧
      s'.blocks.length = s.blocks.length + 3 + (s2.blocks.length - (s.blocks.length + 3)) +
        (s4.blocks.length - s2.blocks.length) ∧
      s'.instrsAt B = s.instrsAt B ++ [.br s.nextId s.blocks.length] ∧
      (∃ E, s2.insertPoint = some E ∧
        s'.instrsAt E = s2.instrsAt E ++
          [.condBr s2.nextId e (s.blocks.length + 1) (s.blocks.length + 2)]) ∧
      (∃ F, s4.insertPoint = some F ∧
        s'.instrsAt F = s4.instrsAt F ++ [.br s4.nextId s.blocks.length]) := by
  have G1 := codegen_gen c0 _ _ _ _ hc0 (enterCond_insertPoint s)
    (by rw [enterCond_length]; omega)
  obtain ⟨E, hE, hEl, hEor, -⟩ := G1.ip
  have hl1 := G1.len_le
  rw [enterCond_length] at hl1 hEor
  have G2 := codegen_gen c1 _ _ _ (s.blocks.length + 1) hc1 rfl
    (by rw [enterBody_length]; omega)
  obtain ⟨F, hF, hFl, hFor, -⟩ := G2.ip
  have hl2 := G2.len_le
  rw [enterBody_length] at hl2 hFor
  refine ⟨(s4.insert (fun id => .br id s.blocks.length)).2.setInsertPoint (s.blocks.length + 2),
    ?_, rfl, hl1, hl2, ?_, ?_, ⟨E, hE, ?_⟩, ⟨F, hF, ?_⟩⟩
  · have hc0' := hc0
    have hc1' := hc1
    unfold State.enterCond at hc0'
    unfold State.enterBody at hc1'
    simp only [createBr_snd] at hc0'
    simp only [codegen, createBlock_fst, createBlock_length, createBr_snd, Nat.add_assoc,
      Nat.reduceAdd, hc0', State.createCondBr, hc1']
  · have h := insert_length s4 (fun id => .br id s.blocks.length)
    show (s4.insert (fun id => .br id s.blocks.length)).2.blocks.length = _
    omega
  · rw [leave_instrsAt s4 _ _ F hF hFl, if_neg (by omega),
      G2.frame B (by rw [enterBody_length]; omega) (by omega),
      enterBody_instrsAt s2 e _ E hE hEl, if_neg (by omega),
      G1.frame B (by rw [enterCond_length]; omega) (by omega),
      enterCond_instrsAt s B hip hB, if_pos rfl]
  · rw [leave_instrsAt s4 _ _ F hF hFl, if_neg (by omega),
      G2.frame E (by rw [enterBody_length]; omega) (by omega),
      enterBody_instrsAt s2 e _ E hE hEl, if_pos rfl]
  · rw [leave_instrsAt s4 _ _ F hF hFl, if_pos rfl]

theorem successors_append (l1 l2 : List Instr) :
    successors (l1 ++ l2) = successors l1 ++ successors l2 := by
  unfold successors
  rw [List.flatMap_append]

theorem successors_nil : successors [] = [] := rfl

theorem closedCFG_instrsAt {s : State} (h : s.closedCFG) (p j : Nat)
    (hj : j ∈ successors (s.instrsAt p)) : j < s.blocks.length := by
  unfold State.instrsAt at hj
  cases hb : s.blocks[p]? with
  | none =>
    rw [hb] at hj
    cases hj
  | some b =>
    rw [hb] at hj
    exact h b (List.getElem?_mem hb) j hj

/-- A `While` whose condition and body create no block: three blocks are created, the body
block ends in the branch back to the condition block, and the predecessors of the condition
block are the block the lowering started in and the body block. -/
theorem while_straight (s : State) (a : Nat) (c0 c1 : Node) (rest : List Node) (B : Nat)
    (e : Value) (w : Option Value) (s2 s4 : State)
    (hip : s.insertPoint = some B) (hB : B < s.blocks.length) (hcl : s.closedCFG)
    (hc0 : codegen c0 s.enterCond = some (some e, s2))
    (hc1 : codegen c1 (s2.enterBody e s.blocks.length) = some (w, s4))
    (h2 : s2.blocks.length = s.blocks.length + 3)
    (h4 : s4.blocks.length = s.blocks.length + 3) :
    ∃ s', codegen (.mk a .While (c0 :: c1 :: rest)) s =
        some (some (.block (s.blocks.length + 2)), s') ∧
      s'.blocks.length = s.blocks.length + 3 ∧
      successors (s'.instrsAt (s.blocks.length + 1)) = [s.blocks.length] ∧
      ∀ p, s'.isPred p s.blocks.length ↔ p = B ∨ p = s.blocks.length + 1 := by
  obtain ⟨s', hs', hip', -, -, hlen, hBi, ⟨E, hE, hEi⟩, ⟨F, hF, hFi⟩⟩ :=
    while_lowering s a c0 c1 rest B e w s2 s4 hip hB hc0 hc1
  have G := codegen_gen _ _ _ _ _ hs' hip hB
  have G1 := codegen_gen c0 _ _ _ _ hc0 (enterCond_insertPoint s)
    (by rw [enterCond_length]; omega)
  have G2 := codegen_gen c1 _ _ _ (s.blocks.length + 1) hc1 rfl
    (by rw [enterBody_length]; omega)
  have hlen' : s'.blocks.length = s.blocks.length + 3 := by omega
  -- the condition is lowered inside the condition block
  have hEn : E = s.blocks.length := by
    obtain ⟨E', hE', hEl, hEor, -⟩ := G1.ip
    rw [hE] at hE'
    cases hE'
    rw [enterCond_length] at hEor
    omega
  subst hEn
  obtain ⟨add1, ha1, ho1, -⟩ := G1.touched s.blocks.length (by omega) (Or.inl rfl) (by simp)
  rw [enterCond_instrsAt s B hip hB, if_neg (by omega), instrsAt_of_le s _ (Nat.le_refl _),
    List.nil_append] at ha1
  -- the body is lowered inside the body block
  have hFn : F = s.blocks.length + 1 := by
    obtain ⟨F', hF', hFl, hFor, -⟩ := G2.ip
    rw [hF] at hF'
    cases hF'
    rw [enterBody_length] at hFor
    omega
  subst hFn
  obtain ⟨add2, ha2, ho2, -⟩ := G2.touched (s.blocks.length + 1) (by omega) (Or.inl rfl)
    (by simp)
  rw [enterBody_instrsAt s2 e _ _ hE (by omega), if_neg (by omega),
    G1.frame _ (by rw [enterCond_length]; omega) (by omega),
    enterCond_instrsAt s B hip hB, if_neg (by omega), instrsAt_of_le s _ (by omega),
    List.nil_append] at ha2
  have hbody : successors (s'.instrsAt (s.blocks.length + 1)) = [s.blocks.length] := by
    rw [hFi, ha2, successors_append, (open_terminators (ho2 hF)).2]
    rfl
  refine ⟨s', hs', hlen', hbody, ?_⟩
  intro p
  unfold State.isPred
  by_cases hpB : p = B
  · subst hpB
    simp only [true_or, iff_true]
    rw [hBi, successors_append]
    exact List.mem_append_right _ (by simp [successors, Instr.successors])
  by_cases hp1 : p = s.blocks.length + 1
  · subst hp1
    simp only [or_true, iff_true]
    rw [hbody]
    simp
  simp only [hpB, hp1, or_self, iff_false]
  intro hmem
  rcases Nat.lt_or_ge p s.blocks.length with hlt | hge
  · rw [G.frame p hlt hpB] at hmem
    exact absurd (closedCFG_instrsAt hcl p _ hmem) (Nat.lt_irrefl _)
  · rcases Nat.lt_or_ge p (s.blocks.length + 3) with hlt3 | hge3
    · have hcase : p = s.blocks.length ∨ p = s.blocks.length + 2 := by omega
      rcases hcase with rfl | rfl
      · rw [hEi, ha1, successors_append, (open_terminators (ho1 hE)).2] at hmem
        simp [successors, Instr.successors] at hmem
      · obtain ⟨add3, ha3, ho3, -⟩ := G.touched (s.blocks.length + 2) (by omega)
          (Or.inr (by omega)) (by simp)
        rw [ha3, instrsAt_of_le s _ (by omega), List.nil_append,
          (open_terminators (ho3 hip')).2] at hmem
        cases hmem
    · rw [instrsAt_of_le s' p (by omega)] at hmem
      cases hmem

theorem codegenIdent_bound (S : State) (name : String) (id : Nat) (ty : Ty)
    (h : S.symbols.lookup name = some (some (.alloca id ty))) :
    codegenIdent name S =
      some (some (.inst S.nextId ty),
        (S.insert (fun n => .load n ty (.alloca id ty) name)).2) := by
  simp only [codegenIdent, State.symbolsIndex, h]
  rfl

/-- Lowering `Ident(name)` when `name` is bound to a stack slot: one `load` from that slot. -/
theorem codegen_ident_bound (S : State) (a : Nat) (name : String) (cs : List Node)
    (id : Nat) (ty : Ty) (h : S.symbols.lookup name = some (some (.alloca id ty))) :
    codegen (.mk a (.Ident name) cs) S =
      some (some (.inst S.nextId ty),
        (S.insert (fun n => .load n ty (.alloca id ty) name)).2) := by
  simp only [codegen]
  exact codegenIdent_bound S name id ty h

theorem insert_symbols (S : State) (mk : Nat → Instr) : (S.insert mk).2.symbols = S.symbols :=
  rfl

/-- The condition `i < 50` lowers without creating a block when `i` is bound. -/
theorem codegen_cond_example (S : State) (id : Nat) (ty : Ty)
    (h : S.symbols.lookup "i" = some (some (.alloca id ty))) :
    ∃ e s2, codegen (Node.Relational 3 (Node.Ident 1 "i") .LESS (Node.Float 2 Double.fifty)) S
        = some (some e, s2) ∧ s2.blocks.length = S.blocks.length ∧ s2.symbols = S.symbols := by
  refine ⟨.inst (S.nextId + 1) .i1,
    ((S.insert (fun n => .load n ty (.alloca id ty) "i")).2.insert
      (fun n => .fcmp n .OLT (.inst S.nextId ty) (.constFP (.ofDouble Double.fifty)))).2,
    ?_, ?_, rfl⟩
  · simp only [Node.Relational, Node.Ident, Node.Float, codegen,
      codegenIdent_bound S "i" id ty h, codegenFloat, codegenRelational,
      State.createFCmp, RelOper.pred, Option.map]
    rfl
  · rw [insert_length, insert_length]

/-- The body `i++` lowers without creating a block when `i` is bound. -/
theorem codegen_body_example (S : State) (id : Nat) (ty : Ty)
    (h : S.symbols.lookup "i" = some (some (.alloca id ty))) :
    ∃ w s4, codegen (Node.Inc 5 4 "i") S = some (w, s4) ∧
      s4.blocks.length = S.blocks.length := by
  refine ⟨some (.inst (S.nextId + 2) .void),
    (((S.insert (fun n => .load n ty (.alloca id ty) "i")).2.insert
      (fun n => .binop n .FAdd (.inst S.nextId ty) (.constFP (.ofInt 1)))).2.insert
      (fun n => .store n (.inst (S.nextId + 1) ty) (.alloca id ty))).2, ?_, ?_⟩
  · have h' : ((S.insert (fun n => .load n ty (.alloca id ty) "i")).2.insert
        (fun n => .binop n .FAdd (.inst S.nextId ty) (.constFP (.ofInt 1)))).2.symbols.lookup "i"
        = some (some (.alloca id ty)) := h
    simp only [Node.Inc, Node.Ident, codegen, codegenIdent_bound S "i" id ty h,
      codegenIncDec, codegenInt, State.createBinOp, State.symbolsIndex, h', State.createStore,
      Option.map, Value.getType]
    rfl
  · rw [insert_length, insert_length, insert_length]

/-- The particular part of C6: the loop `while (i < 50) { i++ }` lowered where `i` is bound
to a stack slot. -/
theorem while_example (s : State) (B id : Nat) (ty : Ty)
    (hip : s.insertPoint = some B) (hB : B < s.blocks.length) (hcl : s.closedCFG)
    (hsym : s.symbols.lookup "i" = some (some (.alloca id ty))) :
    ∃ s', codegen whileExample s = some (some (.block (s.blocks.length + 2)), s') ∧
      s'.blocks.length = s.blocks.length + 3 ∧
      successors (s'.instrsAt (s.blocks.length + 1)) = [s.blocks.length] ∧
      ∀ p, s'.isPred p s.blocks.length ↔ p = B ∨ p = s.blocks.length + 1 := by
  obtain ⟨e, s2, hc0, hl2, hs2⟩ := codegen_cond_example s.enterCond id ty hsym
  obtain ⟨w, s4, hc1, hl4⟩ := codegen_body_example (s2.enterBody e s.blocks.length) id ty
    (by
      show s2.symbols.lookup "i" = _
      rw [hs2]
      exact hsym)
  rw [enterCond_length] at hl2
  rw [enterBody_length, hl2] at hl4
  exact while_straight s 6 _ _ [] B e w s2 s4 hip hB hcl hc0 hc1 hl2 hl4

/-- C6. `While::codegen`, lowered with the insertion point at block `B` of a function with
`n` blocks, the condition lowering to a non-null `e` and ending in state `s2`, the body
lowering ending in state `s4`: the lowering succeeds and returns the continuation block
`n + 2`, which holds the insertion point afterwards; outside the lowering of the children
exactly the three blocks `n` (condition), `n + 1` (body), `n + 2` (continuation) are created;
`B` receives a branch to the condition block; the block in which the lowering of the condition
ends receives the conditional branch on `e` to the body block and the continuation block; the
block in which the lowering of the body ends receives a branch to the condition block.
In particular, for `while (i < 50) { i++ }`, lowered where `i` is bound to a stack slot and no
branch leads out of the function, exactly 3 blocks are created, the only successor of the
body block is the condition block, and the predecessors of the condition block are exactly
`B` and the body block. -/
theorem while_codegen :
    (∀ (s : State) (a : Nat) (c0 c1 : Node) (rest : List Node) (B : Nat) (e : Value)
      (w : Option Value) (s2 s4 : State),
      s.insertPoint = some B → B < s.blocks.length →
      codegen c0 s.enterCond = some (some e, s2) →
      codegen c1 (s2.enterBody e s.blocks.length) = some (w, s4) →
      ∃ s', codegen (.mk a .While (c0 :: c1 :: rest)) s =
          some (some (.block (s.blocks.length + 2)), s') ∧
        s'.insertPoint = some (s.blocks.length + 2) ∧
        s.blocks.length + 3 ≤ s2.blocks.length ∧ s2.blocks.length ≤ s4.blocks.length ∧
        s'.blocks.length = s.blocks.length + 3 + (s2.blocks.length - (s.blocks.length + 3)) +
          (s4.blocks.length - s2.blocks.length) ∧
        s'.instrsAt B = s.instrsAt B ++ [.br s.nextId s.blocks.length] ∧
        (∃ E, s2.insertPoint = some E ∧
          s'.instrsAt E = s2.instrsAt E ++
            [.condBr s2.nextId e (s.blocks.length + 1) (s.blocks.length + 2)]) ∧
        (∃ F, s4.insertPoint = some F ∧
          s'.instrsAt F = s4.instrsAt F ++ [.br s4.nextId s.blocks.length])) ∧
    (∀ (s : State) (B id : Nat) (ty : Ty),
      s.insertPoint = some B → B < s.blocks.length → s.closedCFG →
      s.symbols.lookup "i" = some (some (.alloca id ty)) →
      ∃ s', codegen whileExample s = some (some (.block (s.blocks.length + 2)), s') ∧
        s'.blocks.length = s.blocks.length + 3 ∧
        successors (s'.instrsAt (s.blocks.length + 1)) = [s.blocks.length] ∧
        ∀ p, s'.isPred p s.blocks.length ↔ p = B ∨ p = s.blocks.length + 1) :=
  ⟨while_lowering, while_example⟩

/-- Witness of `while_codegen`: `while (i < 50) { i++ }` lowered right after `NUM i`, the
entry block being block 0. -/
theorem while_codegen_witness :
    codegen (Node.Decl 0 "i" .NUM) (State.setup ⟨"printfloat", .void⟩ ⟨"printstr", .void⟩)
      = some (some (.inst 1 .void), declState) ∧
    (∃ e w s2 s4 s',
      codegen (Node.Relational 3 (Node.Ident 1 "i") .LESS (Node.Float 2 Double.fifty))
        declState.enterCond = some (some e, s2) ∧
      codegen (Node.Inc 5 4 "i") (s2.enterBody e 1) = some (w, s4) ∧
      codegen whileExample declState = some (some (.block 3), s') ∧
      s'.insertPoint = some 3 ∧
      s'.instrsAt 0 = declState.instrsAt 0 ++ [.br 2 1]) ∧
    (∃ s', codegen whileExample declState = some (some (.block 3), s') ∧
      s'.blocks.length = 4 ∧ successors (s'.instrsAt 2) = [1] ∧
      ∀ p, s'.isPred p 1 ↔ p = 0 ∨ p = 2) := by
  refine ⟨by decide, ?_, ?_⟩
  · obtain ⟨e, s2, hc0, -, hs2⟩ := codegen_cond_example declState.enterCond 0 .double rfl
    obtain ⟨w, s4, hc1, -⟩ := codegen_body_example (s2.enterBody e 1) 0 .double
      (by
        show s2.symbols.lookup "i" = _
        rw [hs2]
        rfl)
    obtain ⟨s', h1, h2, -, -, -, h3, -⟩ :=
      while_codegen.1 declState 6 _ _ [] 0 e w s2 s4 rfl (by decide) hc0 hc1
    exact ⟨e, w, s2, s4, s', hc0, hc1, h1, h2, h3⟩
  · exact while_codegen.2 declState 0 0 .double rfl (by decide) (by decide) rfl

theorem enterCond4_length (s : State) : s.enterCond4.blocks.length = s.blocks.length + 4 := by
  simp [State.enterCond4, State.setInsertPoint, State.createBr, insert_length,
    createBlock_length]

theorem enterCond4_instrsAt (s : State) (B : Nat) (hip : s.insertPoint = some B)
    (hB : B < s.blocks.length) (j : Nat) :
    s.enterCond4.instrsAt j =
      if j = B then s.instrsAt B ++ [.br s.nextId s.blocks.length] else s.instrsAt j := by
  unfold State.enterCond4
  rw [setInsertPoint_instrsAt, createBr_snd]
  have hip3 : ((((s.createBlock "cond").2.createBlock "ifBody").2.createBlock
      "elseBody").2.createBlock "contin").2.insertPoint = some B := hip
  split
  · rename_i hj
    subst hj
    rw [insert_instrsAt_self _ _ j hip3 (by simp [createBlock_length]; omega)]
    rw [createBlock_instrsAt, createBlock_instrsAt, createBlock_instrsAt, createBlock_instrsAt]
    rfl
  · rename_i hj
    rw [insert_instrsAt_other _ _ j (by rw [hip3]; intro h; exact hj (Option.some.inj h).symm)]
    simp [createBlock_instrsAt]

theorem enterElse_length (s4 : State) (n : Nat) :
    (s4.enterElse n).blocks.length = s4.blocks.length :=
  insert_length s4 (fun id => .br id (n + 3))

theorem sum_range_zero (f : Nat → Nat) : ∀ (n : Nat), (∀ p, p < n → f p = 0) →
    ((List.range n).map f).sum = 0
  | 0, _ => rfl
  | n + 1, h => by
    rw [List.range_succ, List.map_append, List.sum_append,
      sum_range_zero f n (fun p hp => h p (by omega))]
    simp [h n (by omega)]

theorem count_successors_snoc (pre : List Instr) (t : Instr) (j : Nat) (h : Open pre) :
    (successors (pre ++ [t])).count j = t.successors.count j := by
  rw [successors_append, (open_terminators h).2]
  simp [successors]

/-- The instructions of every block after an `IfElse` whose children create no block. -/
theorem ifElse_blocks (s : State) (a : Nat) (c0 c1 c2 : Node) (rest : List Node) (B : Nat)
    (e : Value) (w1 w2 : Option Value) (s2 s4 s6 : State)
    (hip : s.insertPoint = some B) (hB : B < s.blocks.length)
    (hc0 : codegen c0 s.enterCond4 = some (some e, s2))
    (hc1 : codegen c1 (s2.enterBody e s.blocks.length) = some (w1, s4))
    (hc2 : codegen c2 (s4.enterElse s.blocks.length) = some (w2, s6))
    (h2 : s2.blocks.length = s.blocks.length + 4)
    (h4 : s4.blocks.length = s.blocks.length + 4)
    (h6 : s6.blocks.length = s.blocks.length + 4) :
    ∃ s', codegen (.mk a .IfElse (c0 :: c1 :: c2 :: rest)) s =
        some (some (.block (s.blocks.length + 3)), s') ∧
      s'.blocks.length = s.blocks.length + 4 ∧
      s'.insertPoint = some (s.blocks.length + 3) ∧
      (∀ j, j < s.blocks.length → j ≠ B → s'.instrsAt j = s.instrsAt j) ∧
      s'.instrsAt B = s.instrsAt B ++ [.br s.nextId s.blocks.length] ∧
      (∃ pre, Open pre ∧ s'.instrsAt s.blocks.length =
        pre ++ [.condBr s2.nextId e (s.blocks.length + 1) (s.blocks.length + 2)]) ∧
      (∃ pre, Open pre ∧ s'.instrsAt (s.blocks.length + 1) =
        pre ++ [.br s4.nextId (s.blocks.length + 3)]) ∧
      (∃ pre, Open pre ∧ s'.instrsAt (s.blocks.length + 2) =
        pre ++ [.br s6.nextId (s.blocks.length + 3)]) ∧
      s'.instrsAt (s.blocks.length + 3) = [] := by
  have G1 := codegen_gen c0 _ _ _ _ hc0 rfl (by rw [enterCond4_length]; omega)
  have G2 := codegen_gen c1 _ _ _ (s.blocks.length + 1) hc1 rfl
    (by rw [enterBody_length]; omega)
  have G3 := codegen_gen c2 _ _ _ (s.blocks.length + 2) hc2 rfl
    (by rw [enterElse_length]; omega)
  obtain ⟨E, hE, hEl, hEor, -⟩ := G1.ip
  rw [enterCond4_length] at hEor
  have hEn : E = s.blocks.length := by omega
  subst hEn
  obtain ⟨F, hF, hFl, hFor, -⟩ := G2.ip
  rw [enterBody_length] at hFor
  have hFn : F = s.blocks.length + 1 := by omega
  subst hFn
  obtain ⟨H, hH, hHl, hHor, -⟩ := G3.ip
  rw [enterElse_length] at hHor
  have hHn : H = s.blocks.length + 2 := by omega
  subst hHn
  -- the four states, block by block
  have e1 : ∀ j, j ≠ s.blocks.length → j < s.blocks.length + 4 →
      s2.instrsAt j =
        if j = B then s.instrsAt B ++ [.br s.nextId s.blocks.length] else s.instrsAt j := by
    intro j hj hlt
    rw [G1.frame j (by rw [enterCond4_length]; omega) hj, enterCond4_instrsAt s B hip hB]
  have e2 : ∀ j, j ≠ s.blocks.length + 1 → j < s.blocks.length + 4 →
      s4.instrsAt j =
        if j = s.blocks.length then s2.instrsAt s.blocks.length ++
          [.condBr s2.nextId e (s.blocks.length + 1) (s.blocks.length + 2)]
        else s2.instrsAt j := by
    intro j hj hlt
    rw [G2.frame j (by rw [enterBody_length]; omega) hj,
      enterBody_instrsAt s2 e _ _ hE hEl]
  have e3 : ∀ j, j ≠ s.blocks.length + 2 → j < s.blocks.length + 4 →
      s6.instrsAt j =
        if j = s.blocks.length + 1 then s4.instrsAt (s.blocks.length + 1) ++
          [.br s4.nextId (s.blocks.length + 3)]
        else s4.instrsAt j := by
    intro j hj hlt
    rw [G3.frame j (by rw [enterElse_length]; omega) hj]
    exact leave_instrsAt s4 _ _ _ hF hFl j
  have e4 : ∀ j, ((s6.insert (fun id => .br id (s.blocks.length + 3))).2.setInsertPoint
      (s.blocks.length + 3)).instrsAt j =
        if j = s.blocks.length + 2 then s6.instrsAt (s.blocks.length + 2) ++
          [.br s6.nextId (s.blocks.length + 3)]
        else s6.instrsAt j := fun j => leave_instrsAt s6 _ _ _ hH hHl j
  -- what the children added to their blocks
  obtain ⟨add1, ha1, ho1, -⟩ := G1.touched s.blocks.length (by omega) (Or.inl rfl) (by simp)
  rw [enterCond4_instrsAt s B hip hB, if_neg (by omega), instrsAt_of_le s _ (Nat.le_refl _),
    List.nil_append] at ha1
  obtain ⟨add2, ha2, ho2, -⟩ := G2.touched (s.blocks.length + 1) (by omega) (Or.inl rfl)
    (by simp)
  rw [enterBody_instrsAt s2 e _ _ hE hEl, if_neg (by omega), e1 _ (by omega) (by omega),
    if_neg (by omega), instrsAt_of_le s _ (by omega), List.nil_append] at ha2
  obtain ⟨add3, ha3, ho3, -⟩ := G3.touched (s.blocks.length + 2) (by omega) (Or.inl rfl)
    (by simp)
  have hb3 : (s4.enterElse s.blocks.length).instrsAt (s.blocks.length + 2) = [] := by
    rw [show (s4.enterElse s.blocks.length).instrsAt (s.blocks.length + 2) = _ from
      leave_instrsAt s4 _ _ _ hF hFl _, if_neg (by omega), e2 _ (by omega) (by omega),
      if_neg (by omega), e1 _ (by omega) (by omega), if_neg (by omega),
      instrsAt_of_le s _ (by omega)]
  rw [hb3, List.nil_append] at ha3
  refine ⟨(s6.insert (fun id => .br id (s.blocks.length + 3))).2.setInsertPoint
    (s.blocks.length + 3), ?_, ?_, rfl, ?_, ?_, ⟨add1, ho1 hE, ?_⟩, ⟨add2, ho2 hF, ?_⟩,
    ⟨add3, ho3 hH, ?_⟩, ?_⟩
  · have hc0' := hc0
    have hc1' := hc1
    have hc2' := hc2
    unfold State.enterCond4 at hc0'
    unfold State.enterBody at hc1'
    unfold State.enterElse at hc2'
    simp only [createBr_snd] at hc0'
    simp only [codegen, createBlock_fst, createBlock_length, createBr_snd, Nat.add_assoc,
      Nat.reduceAdd, hc0', State.createCondBr, hc1', hc2']
  · have h := insert_length s6 (fun id => .br id (s.blocks.length + 3))
    show (s6.insert (fun id => .br id (s.blocks.length + 3))).2.blocks.length = _
    omega
  · intro j hj hjB
    rw [e4, if_neg (by omega), e3 _ (by omega) (by omega), if_neg (by omega),
      e2 _ (by omega) (by omega), if_neg (by omega), e1 _ (by omega) (by omega), if_neg hjB]
  · rw [e4, if_neg (by omega), e3 _ (by omega) (by omega), if_neg (by omega),
      e2 _ (by omega) (by omega), if_neg (by omega), e1 _ (by omega) (by omega), if_pos rfl]
  · rw [e4, if_neg (by omega), e3 _ (by omega) (by omega), if_neg (by omega),
      e2 _ (by omega) (by omega), if_pos rfl, ha1]
  · rw [e4, if_neg (by omega), e3 _ (by omega) (by omega), if_pos rfl, ha2]
  · rw [e4, if_pos rfl, ha3]
  · rw [e4, if_neg (by omega), e3 _ (by omega) (by omega), if_neg (by omega),
      e2 _ (by omega) (by omega), if_neg (by omega), e1 _ (by omega) (by omega),
      if_neg (by omega), instrsAt_of_le s _ (by omega)]

theorem count_zero_of_closed {s : State} (hcl : s.closedCFG) (p j : Nat)
    (hj : s.blocks.length ≤ j) : (successors (s.instrsAt p)).count j = 0 := by
  apply List.count_eq_zero_of_not_mem
  intro hmem
  have := closedCFG_instrsAt hcl p j hmem
  omega

/-- C7. `IfElse::codegen` with children that create no block, lowered with the insertion
point at a block of a function with `n` blocks none of whose branches leaves the function:
the lowering succeeds, creates exactly the 4 blocks `n` (condition), `n + 1` (ifBody),
`n + 2` (elseBody), `n + 3` (continuation); the condition block ends in its only terminator,
the conditional branch to ifBody (true) and elseBody (false); the ifBody and elseBody blocks
each end in their only terminator, a branch to the continuation block; the continuation
block has exactly 2 incoming edges; and the insertion point afterwards is the continuation
block. -/
theorem ifElse_codegen (s : State) (a : Nat) (c0 c1 c2 : Node) (rest : List Node) (B : Nat)
    (e : Value) (w1 w2 : Option Value) (s2 s4 s6 : State)
    (hip : s.insertPoint = some B) (hB : B < s.blocks.length) (hcl : s.closedCFG)
    (hc0 : codegen c0 s.enterCond4 = some (some e, s2))
    (hc1 : codegen c1 (s2.enterBody e s.blocks.length) = some (w1, s4))
    (hc2 : codegen c2 (s4.enterElse s.blocks.length) = some (w2, s6))
    (h2 : s2.blocks.length = s.blocks.length + 4)
    (h4 : s4.blocks.length = s.blocks.length + 4)
    (h6 : s6.blocks.length = s.blocks.length + 4) :
    ∃ s', codegen (.mk a .IfElse (c0 :: c1 :: c2 :: rest)) s =
        some (some (.block (s.blocks.length + 3)), s') ∧
      s'.blocks.length = s.blocks.length + 4 ∧
      s'.insertPoint = some (s.blocks.length + 3) ∧
      (∃ pre, Open pre ∧ s'.instrsAt s.blocks.length =
        pre ++ [.condBr s2.nextId e (s.blocks.length + 1) (s.blocks.length + 2)]) ∧
      (∃ pre, Open pre ∧ s'.instrsAt (s.blocks.length + 1) =
        pre ++ [.br s4.nextId (s.blocks.length + 3)]) ∧
      (∃ pre, Open pre ∧ s'.instrsAt (s.blocks.length + 2) =
        pre ++ [.br s6.nextId (s.blocks.length + 3)]) ∧
      s'.incoming (s.blocks.length + 3) = 2 := by
  obtain ⟨s', hs', hlen, hip', hfr, hBi, ⟨p0, ho0, hi0⟩, ⟨p1, ho1, hi1⟩, ⟨p2, ho2, hi2⟩, hi3⟩ :=
    ifElse_blocks s a c0 c1 c2 rest B e w1 w2 s2 s4 s6 hip hB hc0 hc1 hc2 h2 h4 h6
  refine ⟨s', hs', hlen, hip', ⟨p0, ho0, hi0⟩, ⟨p1, ho1, hi1⟩, ⟨p2, ho2, hi2⟩, ?_⟩
  unfold State.incoming
  rw [hlen, List.range_succ, List.range_succ, List.range_succ, List.range_succ]
  simp only [List.map_append, List.sum_append, List.map_cons, List.map_nil, List.sum_cons,
    List.sum_nil, Nat.add_zero]
  rw [sum_range_zero _ s.blocks.length (by
    intro p hp
    by_cases hpB : p = B
    · subst hpB
      rw [hBi, successors_append, List.count_append, count_zero_of_closed hcl p _ (by omega)]
      simp [successors, Instr.successors]
    · rw [hfr p hp hpB]
      exact count_zero_of_closed hcl p _ (by omega))]
  rw [hi0, hi1, hi2, hi3, count_successors_snoc _ _ _ ho0, count_successors_snoc _ _ _ ho1,
    count_successors_snoc _ _ _ ho2]
  simp [Instr.successors, successors]

/-- Witness of `ifElse_codegen`: `if (i < 50) { i++ } else { }` lowered right after
`NUM i`. -/
theorem ifElse_codegen_witness :
    declState.insertPoint = some 0 ∧ declState.closedCFG ∧
    ∃ s', codegen ifElseExample declState = some (some (.block 4), s') ∧
      s'.blocks.length = 5 ∧ s'.insertPoint = some 4 ∧ s'.incoming 4 = 2 := by
  refine ⟨rfl, by decide, ?_⟩
  obtain ⟨e, s2, hc0, hl2, hs2⟩ := codegen_cond_example declState.enterCond4 0 .double rfl
  obtain ⟨w, s4, hc1, hl4⟩ := codegen_body_example (s2.enterBody e 1) 0 .double
    (by
      show s2.symbols.lookup "i" = _
      rw [hs2]
      rfl)
  rw [enterCond4_length] at hl2
  rw [enterBody_length, hl2] at hl4
  obtain ⟨s', h1, h2, h3, -, -, -, h4⟩ :=
    ifElse_codegen declState 8 _ (Node.Inc 5 4 "i") (Node.Stmts 7) [] 0 e w none s2 s4
      (s4.enterElse 1) rfl (by decide) (by decide) hc0 hc1 rfl hl2 hl4
      (by rw [enterElse_length]; exact hl4)
  exact ⟨s', h1, h2, h3, h4⟩

/-- `While::codegen`, `If::codegen` and `IfElse::codegen` return the continuation block, a
block they created, and leave the insertion point there. -/
theorem control_returns_contin (s : State) (a : Nat) (k : Kind) (cs : List Node)
    (v : Option Value) (s' : State) (hk : k = .While ∨ k = .If ∨ k = .IfElse)
    (h : codegen (.mk a k cs) s = some (v, s')) :
    ∃ contin, v = some (.block contin) ∧ s'.insertPoint = some contin ∧
      s.blocks.length ≤ contin := by
  rcases hk with rfl | rfl | rfl
  · rcases cs with _ | ⟨c0, _ | ⟨c1, rest⟩⟩
    · simp [codegen] at h
    · simp [codegen] at h
    · simp only [codegen, createBlock_fst, createBlock_length] at h
      split at h
      · cases h
      · split at h
        · cases h
        · split at h
          · cases h
          · cases h
            exact ⟨_, rfl, rfl, by omega⟩
  · rcases cs with _ | ⟨c0, _ | ⟨c1, rest⟩⟩
    · simp [codegen] at h
    · simp [codegen] at h
    · simp only [codegen, createBlock_fst, createBlock_length] at h
      split at h
      · cases h
      · split at h
        · cases h
        · split at h
          · cases h
          · cases h
            exact ⟨_, rfl, rfl, by omega⟩
  · rcases cs with _ | ⟨c0, _ | ⟨c1, _ | ⟨c2, rest⟩⟩⟩
    · simp [codegen] at h
    · simp [codegen] at h
    · simp [codegen] at h
    · simp only [codegen, createBlock_fst, createBlock_length] at h
      split at h
      · cases h
      · split at h
        · cases h
        · split at h
          · cases h
          · split at h
            · cases h
            · cases h
              exact ⟨_, rfl, rfl, by omega⟩

/-- C8 (amended). When the `codegen` of a `While`, `If` or `IfElse` node returns, having
started with the insertion point at a block of the function, it returns the continuation
block, a block it created, and the insertion point is there; the continuation block has no
terminator; every other block created during the call has exactly one terminator, which is
its last instruction and an unconditional or conditional branch, and at least one
successor. -/
theorem control_blocks_terminated (s : State) (a : Nat) (k : Kind) (cs : List Node)
    (v : Option Value) (s' : State) (B : Nat) (hk : k = .While ∨ k = .If ∨ k = .IfElse)
    (hip : s.insertPoint = some B) (hB : B < s.blocks.length)
    (h : codegen (.mk a k cs) s = some (v, s')) :
    ∃ contin, v = some (.block contin) ∧ s'.insertPoint = some contin ∧
      s.blocks.length ≤ contin ∧ contin < s'.blocks.length ∧
      terminators (s'.instrsAt contin) = [] ∧
      ∀ j, s.blocks.length ≤ j → j < s'.blocks.length → j ≠ contin →
        ∃ t, terminators (s'.instrsAt j) = [t] ∧ (s'.instrsAt j).getLast? = some t ∧
          t.isBranch = true ∧ successors (s'.instrsAt j) ≠ [] := by
  obtain ⟨contin, hv, hip', hle⟩ := control_returns_contin s a k cs v s' hk h
  have G := codegen_gen _ _ _ _ _ h hip hB
  obtain ⟨B', hB', hBl, -, -⟩ := G.ip
  rw [hip'] at hB'
  cases hB'
  refine ⟨contin, hv, hip', hle, hBl, ?_, ?_⟩
  · obtain ⟨added, ha, ho, -⟩ := G.touched contin hBl (Or.inr hle) (by simp)
    rw [ha, instrsAt_of_le s _ hle, List.nil_append]
    exact (open_terminators (ho hip')).1
  · intro j hj hjl hjc
    obtain ⟨added, ha, -, hc⟩ := G.touched j hjl (Or.inr hj) (by simp)
    rw [ha, instrsAt_of_le s _ hj, List.nil_append]
    apply closed_terminators
    apply hc
    rw [hip']
    intro heq
    exact hjc (Option.some.inj heq).symm

/-- Witness of `control_blocks_terminated`: `while (i < 50) { i++ }` lowered right after
`NUM i`. -/
theorem control_blocks_terminated_witness :
    ∃ v s', codegen whileExample declState = some (v, s') ∧
    ∃ contin, v = some (.block contin) ∧ s'.insertPoint = some contin ∧
      declState.blocks.length ≤ contin ∧ contin < s'.blocks.length ∧
      terminators (s'.instrsAt contin) = [] ∧
      ∀ j, declState.blocks.length ≤ j → j < s'.blocks.length → j ≠ contin →
        ∃ t, terminators (s'.instrsAt j) = [t] ∧ (s'.instrsAt j).getLast? = some t ∧
          t.isBranch = true ∧ successors (s'.instrsAt j) ≠ [] := by
  obtain ⟨s', hs', -⟩ := while_example declState 0 0 .double rfl (by decide) (by decide) rfl
  exact ⟨_, s', hs', control_blocks_terminated declState 6 .While _ _ s' 0 (Or.inl rfl) rfl
    (by decide) hs'⟩

/-- C8 fails as stated: when `While::codegen` returns from lowering `while (i < 50) { i++ }`
after `NUM i`, the continuation block, block 3 of the now 4 blocks, created by this call,
has no terminator and no successor. -/
theorem control_blocks_counterexample :
    declState.blocks.length = 1 ∧
    (codegen whileExample declState).map (fun r =>
      (r.1, r.2.blocks.length, r.2.insertPoint, terminators (r.2.instrsAt 3),
        successors (r.2.instrsAt 3))) =
      some (some (.block 3), 4, some 3, [], []) := by
  decide

theorem codegenChildren_eq_foldlM : ∀ (cs : List Node) (s : State),
    codegenChildren cs s = cs.foldlM (fun st c => (codegen c st).map Prod.snd) s
  | [], s => rfl
  | c :: cs, s => by
    rw [codegenChildren, List.foldlM_cons]
    cases h : codegen c s with
    | none => rfl
    | some r =>
      obtain ⟨w, s1⟩ := r
      simp only [Option.map_some', Option.bind_eq_bind, Option.some_bind]
      exact codegenChildren_eq_foldlM cs s1

/-- C9 (amended). The default lowering `Node::codegen`, used by `Node`, `Program` and
`Stmts`, lowers every child in insertion order, each in the state the previous one left,
and returns a null value whether or not the node has children. -/
theorem default_codegen (a : Nat) (cs : List Node) (s : State) :
    codegen (.mk a .Node cs) s =
      (cs.foldlM (fun st c => (codegen c st).map Prod.snd) s).map (fun s' => (none, s')) ∧
    codegen (.mk a .Program cs) s =
      (cs.foldlM (fun st c => (codegen c st).map Prod.snd) s).map (fun s' => (none, s')) ∧
    codegen (.mk a .Stmts cs) s =
      (cs.foldlM (fun st c => (codegen c st).map Prod.snd) s).map (fun s' => (none, s')) := by
  refine ⟨?_, ?_, ?_⟩ <;> simp only [codegen, codegenChildren_eq_foldlM]

/-- C9 fails as stated: a `Stmts` node whose only child `Float` lowers to a non-null constant
returns a null value although it has a child. -/
theorem default_codegen_counterexample :
    codegen (Node.Float 1 ⟨0⟩) declState = some (some (.constFP (.ofDouble ⟨0⟩)), declState) ∧
    codegen ((Node.Stmts 2).addChild (Node.Float 1 ⟨0⟩)) declState = some (none, declState) := by
  decide

/-- C10 (amended). The number of children of a node built by a constructor is fixed by the
constructor: `Attr` 1, `Print` 1, `Arit` 2, `Inc` 1, `Dec` 1, `While` 2, `If` 2, `IfElse` 3,
`Relational` 2, and a `Logical` node has 2 children when built by the three-argument
constructor and 1 child when built by the two-argument constructor, whatever its operator. -/
theorem constructor_arity (a a1 : Nat) (ident : String) (oper : Char) (rel : RelOper)
    (log : LogOper) (x y z : Node) :
    (Node.Attr a ident x).getChildren.length = 1 ∧
    (Node.Print a x).getChildren.length = 1 ∧
    (Node.Arit a x y oper).getChildren.length = 2 ∧
    (Node.Inc a a1 ident).getChildren.length = 1 ∧
    (Node.Dec a a1 ident).getChildren.length = 1 ∧
    (Node.While a x y).getChildren.length = 2 ∧
    (Node.If a x y).getChildren.length = 2 ∧
    (Node.IfElse a x y z).getChildren.length = 3 ∧
    (Node.Relational a x rel y).getChildren.length = 2 ∧
    (Node.Logical a x log y).getChildren.length = 2 ∧
    (Node.Logical1 a x log).getChildren.length = 1 :=
  ⟨rfl, rfl, rfl, rfl, rfl, rfl, rfl, rfl, rfl, rfl, rfl⟩

/-- C10 fails as stated: the two-argument constructor builds a `Logical` node with operator
`AND` and 1 child, and the three-argument constructor one with operator `NOT` and 2
children. -/
theorem constructor_arity_counterexample :
    (Node.Logical1 1 (Node.Ident 0 "b") .AND).kind = .Logical .AND ∧
    (Node.Logical1 1 (Node.Ident 0 "b") .AND).getChildren.length = 1 ∧
    (Node.Logical 2 (Node.Ident 0 "b") .NOT (Node.Ident 1 "c")).kind = .Logical .NOT ∧
    (Node.Logical 2 (Node.Ident 0 "b") .NOT (Node.Ident 1 "c")).getChildren.length = 2 := by
  decide

/-! ## Further properties of the tree and of the checker -/

/-- C15. `addChild(n)` appends `n` to the children: afterwards `getChildren` returns the
former sequence followed by `n`; hence after `addChild(c1)`, ..., `addChild(ck)` on a node
without children `getChildren` returns `[c1, ..., ck]`. -/
theorem addChild_getChildren :
    (∀ node n : Node, (node.addChild n).getChildren = node.getChildren ++ [n]) ∧
    (∀ (a : Nat) (k : Kind) (cs : List Node),
      (cs.foldl Node.addChild (.mk a k [])).getChildren = cs) := by
  have h1 : ∀ node n : Node, (node.addChild n).getChildren = node.getChildren ++ [n] := by
    intro node n
    obtain ⟨a, k, cs⟩ := node
    rfl
  refine ⟨h1, ?_⟩
  have h2 : ∀ (cs : List Node) (node : Node),
      (cs.foldl Node.addChild node).getChildren = node.getChildren ++ cs := by
    intro cs
    induction cs with
    | nil => intro node; simp
    | cons c cs ih =>
      intro node
      rw [List.foldl_cons, ih, h1, List.append_assoc]
      rfl
  intro a k cs
  rw [h2]
  rfl

theorem visit_unchecked {u : Node} (st : CheckState) (h : u.kind.isChecked = false) :
    visit u st = some st := by
  obtain ⟨a, k, cs⟩ := u
  cases k <;> simp [Node.kind, Kind.isChecked] at h <;> rfl

theorem visitAll_unchecked : ∀ (l : List Node) (st : CheckState),
    (∀ u ∈ l, u.kind.isChecked = false) → visitAll l st = some st
  | [], st, _ => rfl
  | u :: us, st, h => by
    rw [visitAll, visit_unchecked st (h u (by simp))]
    exact visitAll_unchecked us st (fun w hw => h w (by simp [hw]))

theorem checkChildren_eq_foldlM : ∀ (cs : List Node) (st : CheckState),
    checkChildren cs st = cs.foldlM (fun s c => checkRecursive c s) st
  | [], st => rfl
  | c :: cs, st => by
    rw [checkChildren, List.foldlM_cons]
    cases h : checkRecursive c st with
    | none => rfl
    | some s1 =>
      simp only [Option.some_bind, Option.bind_eq_bind]
      exact checkChildren_eq_foldlM cs s1

/-- C16. For every tree that contains no `Decl`, `Attr` or `Ident` node, `check` returns and
leaves table, `errorcount` and messages as they were; and checking a node of any class other
than `Decl`, `Attr` and `Ident` is checking its children one after the other in insertion
order. -/
theorem check_unchecked_kinds :
    (∀ (t : Node) (st : CheckState), (∀ u ∈ postorder t, u.kind.isChecked = false) →
      check t st = some st) ∧
    (∀ (a : Nat) (k : Kind) (cs : List Node) (st : CheckState), k.isChecked = false →
      checkRecursive (.mk a k cs) st = cs.foldlM (fun s c => checkRecursive c s) st) := by
  constructor
  · intro t st h
    rw [check, checkRecursive_eq]
    exact visitAll_unchecked _ st h
  · intro a k cs st hk
    rw [checkRecursive, ← checkChildren_eq_foldlM]
    cases h : checkChildren cs st with
    | none => rfl
    | some s1 =>
      simp only [Option.some_bind]
      exact visit_unchecked s1 hk

/-- Witness of `check_unchecked_kinds`: the program `print 1 + 2; while (1 < 2) { print "a" }`
checked in a state with a table, an error count and a message. -/
theorem check_unchecked_kinds_witness :
    (∀ u ∈ postorder progNoVars, u.kind.isChecked = false) ∧
    check progNoVars ⟨[("x", 1)], 3, ["m"]⟩ = some ⟨[("x", 1)], 3, ["m"]⟩ ∧
    checkRecursive (.mk 7 (.Relational .LESS) [Node.Int 5 1, Node.Int 6 2]) ⟨[("x", 1)], 3, ["m"]⟩
      = [Node.Int 5 1, Node.Int 6 2].foldlM (fun s c => checkRecursive c s)
          ⟨[("x", 1)], 3, ["m"]⟩ :=
  ⟨by decide, check_unchecked_kinds.1 progNoVars _ (by decide),
    check_unchecked_kinds.2 7 (.Relational .LESS) _ _ rfl⟩

/-- C17. Visiting a `Decl(name, kind)` node when `name` is in the table: one error
"Redeclared var name" is added and the table is unchanged. Visiting it when `name` is not in
the table: no error is added, `name` gets the binding `kind`, and every other binding is
unchanged. A `Decl` built by its constructor has no children, so checking it is this
visit. -/
theorem visit_decl (st : CheckState) (a : Nat) (name : String) (kind : IdType)
    (cs : List Node) :
    (∀ v, st.vars.lookup name = some v →
      visit (.mk a (.Decl name kind) cs) st =
        some { vars := st.vars, errorcount := st.errorcount + 1,
               cerr := st.cerr ++ ["Redeclared var " ++ name] }) ∧
    (st.vars.lookup name = none →
      ∃ st', visit (.mk a (.Decl name kind) cs) st = some st' ∧
        st'.errorcount = st.errorcount ∧ st'.cerr = st.cerr ∧
        st'.vars.lookup name = some kind.val ∧
        ∀ y, y ≠ name → st'.vars.lookup y = st.vars.lookup y) ∧
    checkRecursive (Node.Decl a name kind) st = visit (Node.Decl a name kind) st := by
  refine ⟨?_, ?_, rfl⟩
  · intro v hv
    have hc : st.count name ≠ 0 := by rw [Ne, count_eq_zero_iff, hv]; simp
    simp only [visit, if_neg hc]
    rfl
  · intro hn
    have hc : st.count name = 0 := (count_eq_zero_iff _ _).mpr hn
    refine ⟨{ st with vars := (name, kind.val) :: st.vars }, ?_, rfl, rfl, ?_, ?_⟩
    · simp only [visit, hc, if_true]
    · simp [List.lookup_cons]
    · intro y hy
      have : (y == name) = false := by simpa using hy
      simp [List.lookup_cons, this]

/-- Witness of `visit_decl`: `STR x` visited when `x` is recorded as `NUM`, and `STR s`
visited when `s` is not in the table. -/
theorem visit_decl_witness :
    visit (Node.Decl 2 "x" .STR) ⟨[("x", 1)], 0, []⟩ =
      some ⟨[("x", 1)], 1, ["Redeclared var x"]⟩ ∧
    ∃ st', visit (Node.Decl 2 "s" .STR) ⟨[("x", 1)], 0, []⟩ = some st' ∧
      st'.errorcount = 0 ∧ st'.cerr = [] ∧ st'.vars.lookup "s" = some IdType.STR.val ∧
      ∀ y, y ≠ "s" → st'.vars.lookup y = (⟨[("x", 1)], 0, []⟩ : CheckState).vars.lookup y :=
  ⟨(visit_decl ⟨[("x", 1)], 0, []⟩ 2 "x" .STR []).1 1 rfl,
    (visit_decl ⟨[("x", 1)], 0, []⟩ 2 "s" .STR []).2.1 rfl⟩

/-- C19 fails on the code: checking `NUM x; x = y; NUM y` from an empty table. When the `Attr`
node has been visited, `y` is a key of the table, with the value 0 that is neither `NUM` nor
`STR`, although no `Decl(y)` node has been visited; the only `Decl(y)` of the program is then
reported as "Redeclared var y". -/
theorem check_phantom_key :
    checkChildren [Node.Decl 1 "x" .NUM, Node.Attr 3 "x" (Node.Ident 2 "y")]
      (CheckState.fresh 0 []) =
      some ⟨[("y", 0), ("x", 1)], 2, ["Undeclared var y", "Incorrect type assigned to x"]⟩ ∧
    check progPhantom (CheckState.fresh 0 []) =
      some ⟨[("y", 0), ("x", 1)], 3,
        ["Undeclared var y", "Incorrect type assigned to x", "Redeclared var y"]⟩ := by
  decide

/-! ## Further properties of the code generator -/

/-- C13. `Print::codegen` when the operand lowers to a non-null value `v` in state `s1`:
for a `double` exactly one call of `printfloat` with the argument `v` is inserted, at the end
of the current block, and nothing is written to `cerr`; for a pointer exactly one call of
`printstr` with the argument `v`, likewise; for any other type no instruction is inserted,
the line "Unable to print" is appended to `cerr` and nothing else of the state changes, the
result is null, and the statements that follow in a statement list are lowered all the
same, from that state. -/
theorem print_codegen (s : State) (a : Nat) (e : Node) (rest : List Node) (v : Value)
    (s1 : State) (he : codegen e s = some (some v, s1)) :
    (v.getType = .double →
      codegen (.mk a .Print (e :: rest)) s =
        some (some (.inst s1.nextId s1.printfloat.retTy),
          (s1.insert (fun n => .call n s1.printfloat [v])).2) ∧
      (s1.insert (fun n => .call n s1.printfloat [v])).2.cerr = s1.cerr ∧
      (s1.insert (fun n => .call n s1.printfloat [v])).2.nextId = s1.nextId + 1 ∧
      (s1.insert (fun n => .call n s1.printfloat [v])).2.blocks.length = s1.blocks.length ∧
      ∀ b, s1.insertPoint = some b →
        (b < s1.blocks.length →
          (s1.insert (fun n => .call n s1.printfloat [v])).2.instrsAt b =
            s1.instrsAt b ++ [.call s1.nextId s1.printfloat [v]]) ∧
        ∀ j, j ≠ b →
          (s1.insert (fun n => .call n s1.printfloat [v])).2.instrsAt j = s1.instrsAt j) ∧
    (v.getType = .pointer →
      codegen (.mk a .Print (e :: rest)) s =
        some (some (.inst s1.nextId s1.printstr.retTy),
          (s1.insert (fun n => .call n s1.printstr [v])).2) ∧
      (s1.insert (fun n => .call n s1.printstr [v])).2.cerr = s1.cerr ∧
      (s1.insert (fun n => .call n s1.printstr [v])).2.nextId = s1.nextId + 1 ∧
      (s1.insert (fun n => .call n s1.printstr [v])).2.blocks.length = s1.blocks.length ∧
      ∀ b, s1.insertPoint = some b →
        (b < s1.blocks.length →
          (s1.insert (fun n => .call n s1.printstr [v])).2.instrsAt b =
            s1.instrsAt b ++ [.call s1.nextId s1.printstr [v]]) ∧
        ∀ j, j ≠ b →
          (s1.insert (fun n => .call n s1.printstr [v])).2.instrsAt j = s1.instrsAt j) ∧
    (v.getType ≠ .double → v.getType ≠ .pointer →
      codegen (.mk a .Print (e :: rest)) s = some (none, s1.err "Unable to print") ∧
      (s1.err "Unable to print").cerr = s1.cerr ++ ["Unable to print"] ∧
      (s1.err "Unable to print").blocks = s1.blocks ∧
      (s1.err "Unable to print").nextId = s1.nextId ∧
      (s1.err "Unable to print").insertPoint = s1.insertPoint ∧
      (s1.err "Unable to print").symbols = s1.symbols ∧
      (s1.err "Unable to print").strings = s1.strings ∧
      ∀ following : List Node,
        codegenChildren (.mk a .Print (e :: rest) :: following) s =
          codegenChildren following (s1.err "Unable to print")) := by
  refine ⟨?_, ?_, ?_⟩
  · intro h
    refine ⟨?_, rfl, rfl, insert_length _ _, ?_⟩
    · simp only [codegen, he, codegenPrint, h, if_true]
      rfl
    · intro b hb
      refine ⟨fun hlt => insert_instrsAt_self s1 _ b hb hlt, ?_⟩
      intro j hj
      refine insert_instrsAt_other s1 _ j ?_
      rw [hb]
      intro hc
      exact hj (Option.some.inj hc).symm
  · intro h
    have hd : v.getType ≠ .double := by rw [h]; decide
    refine ⟨?_, rfl, rfl, insert_length _ _, ?_⟩
    · simp only [codegen, he, codegenPrint, h, if_true]
      rfl
    · intro b hb
      refine ⟨fun hlt => insert_instrsAt_self s1 _ b hb hlt, ?_⟩
      intro j hj
      refine insert_instrsAt_other s1 _ j ?_
      rw [hb]
      intro hc
      exact hj (Option.some.inj hc).symm
  · intro h1 h2
    have hp : codegen (.mk a .Print (e :: rest)) s = some (none, s1.err "Unable to print") := by
      simp only [codegen, he, codegenPrint, h1, h2, if_false]
    refine ⟨hp, rfl, rfl, rfl, rfl, rfl, rfl, ?_⟩
    intro following
    simp only [codegenChildren, hp]

/-- Witness of `print_codegen`: `print 1`, `print "a"` and `print 1 < 2` lowered right after
`NUM i`. The first two append one call to the entry block and leave `cerr` empty; the third
appends no call (the block gets only the comparison of its operand) and leaves the line
"Unable to print" on `cerr`. -/
theorem print_codegen_witness :
    (codegen (Node.Print 2 (Node.Int 1 1)) declState =
      some (some (.inst 2 .void),
        (declState.insert (fun n => .call n ⟨"printfloat", .void⟩
          [.constFP (.ofInt 1)])).2) ∧
      (declState.insert (fun n => .call n ⟨"printfloat", .void⟩
          [.constFP (.ofInt 1)])).2.cerr = [] ∧
      (declState.insert (fun n => .call n ⟨"printfloat", .void⟩
          [.constFP (.ofInt 1)])).2.instrsAt 0 =
        [.alloca 0 .double "i", .store 1 (.constFP (.ofDouble ⟨0⟩)) (.alloca 0 .double),
          .call 2 ⟨"printfloat", .void⟩ [.constFP (.ofInt 1)]]) ∧
    (codegen (Node.Print 2 (Node.Str 1 "a")) declState =
      some (some (.inst 2 .void),
        ((declState.createGlobalStringPtr "a").2.insert (fun n => .call n ⟨"printstr", .void⟩
          [.globalString 0])).2) ∧
      ((declState.createGlobalStringPtr "a").2.insert (fun n => .call n ⟨"printstr", .void⟩
          [.globalString 0])).2.cerr = [] ∧
      ((declState.createGlobalStringPtr "a").2.insert (fun n => .call n ⟨"printstr", .void⟩
          [.globalString 0])).2.instrsAt 0 =
        [.alloca 0 .double "i", .store 1 (.constFP (.ofDouble ⟨0⟩)) (.alloca 0 .double),
          .call 2 ⟨"printstr", .void⟩ [.globalString 0]]) ∧
    (codegen (Node.Print 4 (Node.Relational 3 (Node.Int 1 1) .LESS (Node.Int 2 2))) declState =
      some (none, ((declState.insert (fun n => .fcmp n .OLT (.constFP (.ofInt 1))
        (.constFP (.ofInt 2)))).2).err "Unable to print") ∧
      (((declState.insert (fun n => .fcmp n .OLT (.constFP (.ofInt 1))
        (.constFP (.ofInt 2)))).2).err "Unable to print").cerr = ["Unable to print"] ∧
      (((declState.insert (fun n => .fcmp n .OLT (.constFP (.ofInt 1))
        (.constFP (.ofInt 2)))).2).err "Unable to print").blocks =
        [⟨"entry", [.alloca 0 .double "i",
          .store 1 (.constFP (.ofDouble ⟨0⟩)) (.alloca 0 .double),
          .fcmp 2 .OLT (.constFP (.ofInt 1)) (.constFP (.ofInt 2))]⟩]) :=
  ⟨⟨((print_codegen declState 2 (Node.Int 1 1) [] (.constFP (.ofInt 1)) declState rfl).1
        rfl).1,
      ((print_codegen declState 2 (Node.Int 1 1) [] (.constFP (.ofInt 1)) declState rfl).1
        rfl).2.1,
      (((print_codegen declState 2 (Node.Int 1 1) [] (.constFP (.ofInt 1)) declState rfl).1
        rfl).2.2.2.2 0 rfl).1 (by decide)⟩,
    ⟨((print_codegen declState 2 (Node.Str 1 "a") [] (.globalString 0)
        (declState.createGlobalStringPtr "a").2 rfl).2.1 rfl).1,
      ((print_codegen declState 2 (Node.Str 1 "a") [] (.globalString 0)
        (declState.createGlobalStringPtr "a").2 rfl).2.1 rfl).2.1,
      (((print_codegen declState 2 (Node.Str 1 "a") [] (.globalString 0)
        (declState.createGlobalStringPtr "a").2 rfl).2.1 rfl).2.2.2.2 0 rfl).1 (by decide)⟩,
    ⟨((print_codegen declState 4 (Node.Relational 3 (Node.Int 1 1) .LESS (Node.Int 2 2)) []
        (.inst 2 .i1) _ rfl).2.2 (by decide) (by decide)).1,
      ((print_codegen declState 4 (Node.Relational 3 (Node.Int 1 1) .LESS (Node.Int 2 2)) []
        (.inst 2 .i1) (declState.insert (fun n => .fcmp n .OLT (.constFP (.ofInt 1))
          (.constFP (.ofInt 2)))).2 rfl).2.2 (by decide) (by decide)).2.1,
      ((print_codegen declState 4 (Node.Relational 3 (Node.Int 1 1) .LESS (Node.Int 2 2)) []
        (.inst 2 .i1) (declState.insert (fun n => .fcmp n .OLT (.constFP (.ofInt 1))
          (.constFP (.ofInt 2)))).2 rfl).2.2 (by decide) (by decide)).2.2.1⟩⟩

/-- The end of `Inc::codegen` and `Dec::codegen` when `ident` is bound to a stack slot and
the loaded value is `idv`: the operation with the constant 1, then the store to the slot. -/
theorem codegenIncDec_bound (op : BinOp) (ident : String) (idv : Value) (S : State)
    (id : Nat) (ty : Ty) (h : S.symbols.lookup ident = some (some (.alloca id ty))) :
    codegenIncDec op ident (some idv) S =
      some (some (.inst (S.nextId + 1) .void),
        ((S.insert (fun n => .binop n op idv (.constFP (.ofInt 1)))).2.insert
          (fun n => .store n (.inst S.nextId idv.getType) (.alloca id ty))).2) := by
  have h' : (S.insert (fun n => .binop n op idv (.constFP (.ofInt 1)))).2.symbols.lookup ident
      = some (some (.alloca id ty)) := h
  simp only [codegenIncDec, codegenInt, State.createBinOp, State.symbolsIndex, h',
    State.createStore, Option.map]
  rfl

theorem codegenArit_plus (lv rv : Option Value) (S : State) :
    codegenArit '+' lv rv S = (S.createBinOp .FAdd lv rv).map (fun w => (some w.1, w.2)) := by
  simp [codegenArit]

theorem codegenArit_minus (lv rv : Option Value) (S : State) :
    codegenArit '-' lv rv S = (S.createBinOp .FSub lv rv).map (fun w => (some w.1, w.2)) := by
  have h : ¬ ('-' = '+') := by decide
  simp [codegenArit, h]

/-- `Inc::codegen` and `Dec::codegen` do, in every state, what lowering the assignment
`x = x + 1`, respectively `x = x - 1`, does. -/
theorem incDec_eq_attr (s : State) (x : String) (a a1 b c d e : Nat) :
    codegen (Node.Inc a a1 x) s =
      codegen (Node.Attr b x (Node.Arit c (Node.Ident d x) (Node.Int e 1) '+')) s ∧
    codegen (Node.Dec a a1 x) s =
      codegen (Node.Attr b x (Node.Arit c (Node.Ident d x) (Node.Int e 1) '-')) s := by
  constructor
  · simp only [Node.Inc, Node.Attr, Node.Arit, Node.Ident, Node.Int, codegen, codegenInt,
      codegenArit_plus, codegenIncDec]
    cases h : codegenIdent x s with
    | none => rfl
    | some r =>
      obtain ⟨lv, s1⟩ := r
      simp only
      cases h2 : s1.createBinOp .FAdd lv (some (.constFP (.ofInt 1))) with
      | none => rfl
      | some q =>
        obtain ⟨w, s2⟩ := q
        rfl
  · simp only [Node.Dec, Node.Attr, Node.Arit, Node.Ident, Node.Int, codegen, codegenInt,
      codegenArit_minus, codegenIncDec]
    cases h : codegenIdent x s with
    | none => rfl
    | some r =>
      obtain ⟨lv, s1⟩ := r
      simp only
      cases h2 : s1.createBinOp .FSub lv (some (.constFP (.ofInt 1))) with
      | none => rfl
      | some q =>
        obtain ⟨w, s2⟩ := q
        rfl

/-- Lowering `Inc(x)` and `Dec(x)` when `x` is bound to a stack slot. -/
theorem codegen_incDec_bound (s : State) (x : String) (id : Nat) (ty : Ty) (a a1 : Nat)
    (hb : s.symbols.lookup x = some (some (.alloca id ty))) :
    codegen (Node.Inc a a1 x) s =
      some (some (.inst (s.nextId + 2) .void), s.afterIncDec .FAdd x id ty) ∧
    codegen (Node.Dec a a1 x) s =
      some (some (.inst (s.nextId + 2) .void), s.afterIncDec .FSub x id ty) := by
  have hb' : (s.insert (fun n => .load n ty (.alloca id ty) x)).2.symbols.lookup x
      = some (some (.alloca id ty)) := hb
  constructor
  · simp only [Node.Inc, Node.Ident, codegen, codegenIdent_bound s x id ty hb]
    rw [codegenIncDec_bound .FAdd x _ _ id ty hb']
    rfl
  · simp only [Node.Dec, Node.Ident, codegen, codegenIdent_bound s x id ty hb]
    rw [codegenIncDec_bound .FSub x _ _ id ty hb']
    rfl

/-- C18. In every state in which `x` is bound to a stack slot, lowering `Inc(x)` succeeds and
inserts the load of the slot, the floating-point add of the loaded value and the constant 1,
and the store of the sum to the slot, and lowering `Attr(x, Arit(Ident(x), Int(1), '+'))`
returns the same value and the same builder state; likewise `Dec(x)` and
`Attr(x, Arit(Ident(x), Int(1), '-'))` with the floating-point subtraction. -/
theorem inc_dec_as_assign (s : State) (x : String) (id : Nat) (ty : Ty) (a a1 b c d e : Nat)
    (hb : s.symbols.lookup x = some (some (.alloca id ty))) :
    codegen (Node.Inc a a1 x) s =
      some (some (.inst (s.nextId + 2) .void), s.afterIncDec .FAdd x id ty) ∧
    codegen (Node.Attr b x (Node.Arit c (Node.Ident d x) (Node.Int e 1) '+')) s =
      some (some (.inst (s.nextId + 2) .void), s.afterIncDec .FAdd x id ty) ∧
    codegen (Node.Dec a a1 x) s =
      some (some (.inst (s.nextId + 2) .void), s.afterIncDec .FSub x id ty) ∧
    codegen (Node.Attr b x (Node.Arit c (Node.Ident d x) (Node.Int e 1) '-')) s =
      some (some (.inst (s.nextId + 2) .void), s.afterIncDec .FSub x id ty) := by
  have h1 := codegen_incDec_bound s x id ty a a1 hb
  have h2 := incDec_eq_attr s x a a1 b c d e
  exact ⟨h1.1, h2.1 ▸ h1.1, h1.2, h2.2 ▸ h1.2⟩

/-- Witness of `inc_dec_as_assign`: `i++` and `i = i + 1` lowered right after `NUM i`. -/
theorem inc_dec_as_assign_witness :
    declState.symbols.lookup "i" = some (some (.alloca 0 .double)) ∧
    codegen (Node.Inc 5 4 "i") declState =
      some (some (.inst 4 .void), declState.afterIncDec .FAdd "i" 0 .double) ∧
    codegen (Node.Attr 9 "i" (Node.Arit 8 (Node.Ident 6 "i") (Node.Int 7 1) '+')) declState =
      some (some (.inst 4 .void), declState.afterIncDec .FAdd "i" 0 .double) ∧
    (declState.afterIncDec .FAdd "i" 0 .double).instrsAt 0 = declState.instrsAt 0 ++
      [.load 2 .double (.alloca 0 .double) "i",
       .binop 3 .FAdd (.inst 2 .double) (.constFP (.ofInt 1)),
       .store 4 (.inst 3 .double) (.alloca 0 .double)] :=
  ⟨rfl, (inc_dec_as_assign declState "i" 0 .double 5 4 9 8 6 7 rfl).1,
    (inc_dec_as_assign declState "i" 0 .double 5 4 9 8 6 7 rfl).2.1, by decide⟩

theorem postorder_subset_list : ∀ (cs : List Node) (c : Node), c ∈ cs →
    ∀ u ∈ postorder c, u ∈ postorderList cs
  | [], c, h, _, _ => by cases h
  | d :: ds, c, h, u, hu => by
    rw [postorderList]
    rcases List.mem_cons.mp h with rfl | h
    · exact List.mem_append_left _ hu
    · exact List.mem_append_right _ (postorder_subset_list ds c h u hu)

theorem postorder_child (a : Nat) (k : Kind) (cs : List Node) (c : Node) (hc : c ∈ cs)
    (u : Node) (hu : u ∈ postorder c) : u ∈ postorder (.mk a k cs) := by
  rw [postorder]
  exact List.mem_append_left _ (postorder_subset_list cs c hc u hu)

theorem inserted_symbols {s s' : State} (h : Inserted s s') : s'.symbols = s.symbols := by
  obtain ⟨mk, -, rfl⟩ := h
  rfl

/-- A lookup `symbols[name]` that yields a non-null pointer changes nothing. -/
theorem symbolsIndex_of_some {s : State} {name : String} {p : Value}
    (h : (s.symbolsIndex name).1 = some p) : (s.symbolsIndex name).2 = s := by
  unfold State.symbolsIndex at h ⊢
  cases hl : s.symbols.lookup name with
  | none =>
    rw [hl] at h
    cases h
  | some v => rfl

theorem createStore_ptr {s s' : State} {v p : Option Value} {w : Value}
    (h : s.createStore v p = some (w, s')) : ∃ q, p = some q := by
  unfold State.createStore at h
  split at h
  · exact ⟨_, rfl⟩
  · cases h

theorem sym_codegenIdent {s s' : State} {name : String} {v : Option Value}
    (h : codegenIdent name s = some (v, s')) : s'.symbols = s.symbols := by
  unfold codegenIdent at h
  dsimp only at h
  split at h
  · rename_i id st hr
    cases h
    show (s.symbolsIndex name).2.symbols = s.symbols
    rw [symbolsIndex_of_some hr]
  · cases h

theorem sym_store_index {s s' : State} {ident : String} {dv : Option Value} {w : Value}
    (h : (s.symbolsIndex ident).2.createStore dv (s.symbolsIndex ident).1 = some (w, s')) :
    s'.symbols = s.symbols := by
  obtain ⟨q, hq⟩ := createStore_ptr h
  rw [inserted_symbols (createStore_inserted h), symbolsIndex_of_some hq]

theorem sym_codegenIncDec {s s' : State} {op : BinOp} {ident : String}
    {idv v : Option Value} (h : codegenIncDec op ident idv s = some (v, s')) :
    s'.symbols = s.symbols := by
  unfold codegenIncDec at h
  dsimp only at h
  split at h
  · cases h
  · rename_i exprv s3 h1
    simp only [Option.map_eq_some'] at h
    obtain ⟨⟨w, s4⟩, h2, h3⟩ := h
    cases h3
    rw [sym_store_index h2]
    exact inserted_symbols (createBinOp_inserted h1)

theorem sym_codegenPrint {s s' : State} {exprv v : Option Value}
    (h : codegenPrint exprv s = some (v, s')) : s'.symbols = s.symbols := by
  unfold codegenPrint at h
  split at h
  · cases h
  · split at h
    · cases h; rfl
    · split at h
      · cases h; rfl
      · cases h; rfl

theorem sym_codegenArit {s s' : State} {oper : Char} {lv rv v : Option Value}
    (h : codegenArit oper lv rv s = some (v, s')) : s'.symbols = s.symbols := by
  unfold codegenArit at h
  have key : ∀ op, (s.createBinOp op lv rv).map (fun w => (some w.1, w.2)) = some (v, s') →
      s'.symbols = s.symbols := by
    intro op h
    simp only [Option.map_eq_some'] at h
    obtain ⟨⟨w, s3⟩, h1, h2⟩ := h
    cases h2
    exact inserted_symbols (createBinOp_inserted h1)
  split at h
  · exact key _ h
  · split at h
    · exact key _ h
    · split at h
      · exact key _ h
      · split at h
        · exact key _ h
        · cases h; rfl

theorem sym_codegenRelational {s s' : State} {oper : RelOper} {lv rv v : Option Value}
    (h : codegenRelational oper lv rv s = some (v, s')) : s'.symbols = s.symbols := by
  unfold codegenRelational at h
  simp only [Option.map_eq_some'] at h
  obtain ⟨⟨w, s3⟩, h1, h2⟩ := h
  cases h2
  exact inserted_symbols (createFCmp_inserted h1)

theorem sym_codegenLogical {s s' : State} {oper : LogOper} {lv rv v : Option Value}
    (h : codegenLogical oper lv rv s = some (v, s')) : s'.symbols = s.symbols := by
  unfold codegenLogical at h
  cases oper <;> simp only [Option.map_eq_some'] at h <;> obtain ⟨⟨w, s3⟩, h1, h2⟩ := h <;>
    cases h2
  · exact inserted_symbols (createBinOp_inserted h1)
  · exact inserted_symbols (createBinOp_inserted h1)
  · exact inserted_symbols (createNot_inserted h1)

/-- `Decl::codegen` binds the declared name to the stack slot it allocates and keeps the
entry of every other name. -/
theorem sym_codegenDecl {s s' : State} {ident : String} {type : IdType} {v : Option Value}
    (h : codegenDecl ident type s = some (v, s')) :
    (∃ ty, s'.symbols.lookup ident = some (some (.alloca s.nextId ty)) ∧
      (ty = match type with
        | .NUM => Ty.double
        | .STR => Ty.pointer)) ∧
    ∀ y, y ≠ ident → s'.symbols.lookup y = s.symbols.lookup y := by
  cases type
  · simp only [codegenDecl, Option.map_eq_some'] at h
    obtain ⟨⟨w, s3⟩, h1, h2⟩ := h
    cases h2
    rw [inserted_symbols (createStore_inserted h1)]
    refine ⟨⟨Ty.double, by
      simp only [State.symbolsAssign, State.createAlloca, List.lookup_cons, beq_self_eq_true]
      rfl, rfl⟩, ?_⟩
    intro y hy
    have : (y == ident) = false := by simpa using hy
    simp only [State.symbolsAssign, List.lookup_cons, this]
    rfl
  · simp only [codegenDecl, Option.map_eq_some'] at h
    obtain ⟨⟨w, s3⟩, h1, h2⟩ := h
    cases h2
    rw [inserted_symbols (createStore_inserted h1)]
    refine ⟨⟨Ty.pointer, by
      simp only [State.symbolsAssign, State.createAlloca, List.lookup_cons, beq_self_eq_true]
      rfl, rfl⟩, ?_⟩
    intro y hy
    have : (y == ident) = false := by simpa using hy
    simp only [State.symbolsAssign, List.lookup_cons, this]
    rfl

theorem sym_children : ∀ (cs : List Node) {s s' : State} (y : String),
    (∀ c ∈ cs, SymIH c) → (∀ c ∈ cs, ∀ u ∈ postorder c, u.declares ≠ some y) →
    codegenChildren cs s = some s' → s'.symbols.lookup y = s.symbols.lookup y
  | [], s, s', y, _, _, h => by
    simp only [codegenChildren] at h
    cases h
    rfl
  | c :: cs, s, s', y, ih, hd, h => by
    simp only [codegenChildren] at h
    split at h
    · cases h
    · rename_i w s1 hc
      rw [sym_children cs y (fun d hd' => ih d (by simp [hd']))
        (fun d hd' => hd d (by simp [hd'])) h]
      exact ih c (by simp) s w s1 y hc (hd c (by simp))

/-- Lowering a tree that returns keeps the symbol-table entry of every name that no `Decl`
node of the tree declares. -/
theorem sym_keep : ∀ n, SymIH n := by
  refine node_induct ?_
  intro a k cs ih s v s' y h hd
  have hdc : ∀ c ∈ cs, ∀ u ∈ postorder c, u.declares ≠ some y :=
    fun c hc u hu => hd u (postorder_child a k cs c hc u hu)
  cases k
  case Node =>
    simp only [codegen, Option.map_eq_some'] at h
    obtain ⟨s2, h1, h2⟩ := h
    cases h2
    exact sym_children cs y ih hdc h1
  case Program =>
    simp only [codegen, Option.map_eq_some'] at h
    obtain ⟨s2, h1, h2⟩ := h
    cases h2
    exact sym_children cs y ih hdc h1
  case Stmts =>
    simp only [codegen, Option.map_eq_some'] at h
    obtain ⟨s2, h1, h2⟩ := h
    cases h2
    exact sym_children cs y ih hdc h1
  case Ident name =>
    simp only [codegen] at h
    rw [sym_codegenIdent h]
  case Float value =>
    simp only [codegen, codegenFloat] at h
    cases h
    rfl
  case Int value =>
    simp only [codegen, codegenInt] at h
    cases h
    rfl
  case Str value =>
    simp only [codegen] at h
    cases h
    rfl
  case Decl ident type =>
    simp only [codegen] at h
    have hy : y ≠ ident := by
      intro heq
      exact hd (.mk a (.Decl ident type) cs) (self_mem_postorder _)
        (by simp [Node.declares, Node.kind, heq])
    exact (sym_codegenDecl h).2 y hy
  case Attr ident =>
    cases cs with
    | nil => simp [codegen] at h
    | cons c rest =>
      simp only [codegen] at h
      split at h
      · cases h
      · rename_i dv s1 hc
        simp only [Option.map_eq_some'] at h
        obtain ⟨⟨w, s3⟩, h1, h2⟩ := h
        cases h2
        rw [sym_store_index h1]
        exact ih c (by simp) s dv s1 y hc (hdc c (by simp))
  case Print =>
    cases cs with
    | nil => simp [codegen] at h
    | cons c rest =>
      simp only [codegen] at h
      split at h
      · cases h
      · rename_i exprv s1 hc
        rw [sym_codegenPrint h]
        exact ih c (by simp) s exprv s1 y hc (hdc c (by simp))
  case Arit oper =>
    rcases cs with _ | ⟨c0, _ | ⟨c1, rest⟩⟩
    · simp [codegen] at h
    · simp [codegen] at h
    · simp only [codegen] at h
      split at h
      · cases h
      · rename_i lv s1 hc0
        split at h
        · cases h
        · rename_i rv s2 hc1
          rw [sym_codegenArit h, ih c1 (by simp) s1 rv s2 y hc1 (hdc c1 (by simp))]
          exact ih c0 (by simp) s lv s1 y hc0 (hdc c0 (by simp))
  case Inc ident =>
    cases cs with
    | nil => simp [codegen] at h
    | cons c rest =>
      simp only [codegen] at h
      split at h
      · cases h
      · rename_i idv s1 hc
        rw [sym_codegenIncDec h]
        exact ih c (by simp) s idv s1 y hc (hdc c (by simp))
  case Dec ident =>
    cases cs with
    | nil => simp [codegen] at h
    | cons c rest =>
      simp only [codegen] at h
      split at h
      · cases h
      · rename_i idv s1 hc
        rw [sym_codegenIncDec h]
        exact ih c (by simp) s idv s1 y hc (hdc c (by simp))
  case While =>
    rcases cs with _ | ⟨c0, _ | ⟨c1, rest⟩⟩
    · simp [codegen] at h
    · simp [codegen] at h
    · simp only [codegen] at h
      split at h
      · cases h
      · rename_i expr s2 hc0
        split at h
        · cases h
        · rename_i w s3 hcb
          split at h
          · cases h
          · rename_i w1 s4 hc1
            obtain ⟨e, rfl, rfl⟩ := createCondBr_eq hcb
            cases h
            have e1 :=
              ih c0 (by simp) _ _ s2 y hc0 (hdc c0 (by simp))
            have e2 :=
              ih c1 (by simp) _ _ s4 y hc1 (hdc c1 (by simp))
            exact e2.trans e1
  case If =>
    rcases cs with _ | ⟨c0, _ | ⟨c1, rest⟩⟩
    · simp [codegen] at h
    · simp [codegen] at h
    · simp only [codegen] at h
      split at h
      · cases h
      · rename_i expr s2 hc0
        split at h
        · cases h
        · rename_i w s3 hcb
          split at h
          · cases h
          · rename_i w1 s4 hc1
            obtain ⟨e, rfl, rfl⟩ := createCondBr_eq hcb
            cases h
            have e1 :=
              ih c0 (by simp) _ _ s2 y hc0 (hdc c0 (by simp))
            have e2 :=
              ih c1 (by simp) _ _ s4 y hc1 (hdc c1 (by simp))
            exact e2.trans e1
  case IfElse =>
    rcases cs with _ | ⟨c0, _ | ⟨c1, _ | ⟨c2, rest⟩⟩⟩
    · simp [codegen] at h
    · simp [codegen] at h
    · simp [codegen] at h
    · simp only [codegen] at h
      split at h
      · cases h
      · rename_i expr s2 hc0
        split at h
        · cases h
        · rename_i w s3 hcb
          split at h
          · cases h
          · rename_i w1 s4 hc1
            split at h
            · cases h
            · rename_i w2 s5 hc2
              obtain ⟨e, rfl, rfl⟩ := createCondBr_eq hcb
              cases h
              have e1 :=
                ih c0 (by simp) _ _ s2 y hc0 (hdc c0 (by simp))
              have e2 :=
                ih c1 (by simp) _ _ s4 y hc1 (hdc c1 (by simp))
              have e3 :=
                ih c2 (by simp) _ _ s5 y hc2 (hdc c2 (by simp))
              exact e3.trans (e2.trans e1)
  case Relational oper =>
    rcases cs with _ | ⟨c0, _ | ⟨c1, rest⟩⟩
    · simp [codegen] at h
    · simp [codegen] at h
    · simp only [codegen] at h
      split at h
      · cases h
      · rename_i lv s1 hc0
        split at h
        · cases h
        · rename_i rv s2 hc1
          rw [sym_codegenRelational h, ih c1 (by simp) s1 rv s2 y hc1 (hdc c1 (by simp))]
          exact ih c0 (by simp) s lv s1 y hc0 (hdc c0 (by simp))
  case Logical oper =>
    rcases cs with _ | ⟨c0, _ | ⟨c1, _ | ⟨c2, rest⟩⟩⟩
    · simp [codegen] at h
    · simp only [codegen] at h
      split at h
      · cases h
      · rename_i lv s1 hc0
        rw [sym_codegenLogical h]
        exact ih c0 (by simp) s lv s1 y hc0 (hdc c0 (by simp))
    · simp only [codegen] at h
      split at h
      · cases h
      · rename_i lv s1 hc0
        split at h
        · cases h
        · rename_i rv s2 hc1
          rw [sym_codegenLogical h, ih c1 (by simp) s1 rv s2 y hc1 (hdc c1 (by simp))]
          exact ih c0 (by simp) s lv s1 y hc0 (hdc c0 (by simp))
    · simp only [codegen] at h
      split at h
      · cases h
      · rename_i lv s1 hc0
        rw [sym_codegenLogical h]
        exact ih c0 (by simp) s lv s1 y hc0 (hdc c0 (by simp))

/-- C11. Lowering `Decl(name)` binds `name` to the stack slot it allocates. While `name` is
bound to a slot, lowering `Ident(name)` loads from that slot, lowering `Attr(name, e)` stores
the value of `e` to it, lowering `Inc(name)` and `Dec(name)` load from it and store to it; and
every lowering that returns keeps the binding of `name` and of every other name as long as it
lowers no `Decl` node of that name. -/
theorem slot_reuse (s : State) (name : String) (id : Nat) (ty : Ty)
    (hb : s.symbols.lookup name = some (some (.alloca id ty))) :
    (∀ (s0 : State) (a : Nat) (kind : IdType) (cs : List Node) (v : Option Value) (s1 : State),
      codegen (.mk a (.Decl name kind) cs) s0 = some (v, s1) →
      ∃ T, s1.symbols.lookup name = some (some (.alloca s0.nextId T))) ∧
    (∀ (a : Nat) (cs : List Node),
      codegen (.mk a (.Ident name) cs) s =
        some (some (.inst s.nextId ty),
          (s.insert (fun n => .load n ty (.alloca id ty) name)).2)) ∧
    (∀ (a : Nat) (e : Node) (rest : List Node) (dv : Value) (s1 : State),
      codegen e s = some (some dv, s1) → (∀ u ∈ postorder e, u.declares ≠ some name) →
      codegen (.mk a (.Attr name) (e :: rest)) s =
        some (some (.inst s1.nextId .void),
          (s1.insert (fun n => .store n dv (.alloca id ty))).2)) ∧
    (∀ (a a1 : Nat),
      codegen (Node.Inc a a1 name) s =
        some (some (.inst (s.nextId + 2) .void), s.afterIncDec .FAdd name id ty) ∧
      codegen (Node.Dec a a1 name) s =
        some (some (.inst (s.nextId + 2) .void), s.afterIncDec .FSub name id ty)) ∧
    (∀ (t : Node) (v : Option Value) (s' : State) (y : String),
      codegen t s = some (v, s') → (∀ u ∈ postorder t, u.declares ≠ some y) →
      s'.symbols.lookup y = s.symbols.lookup y) := by
  refine ⟨?_, ?_, ?_, ?_, ?_⟩
  · intro s0 a kind cs v s1 h
    simp only [codegen] at h
    obtain ⟨⟨T, hT, -⟩, -⟩ := sym_codegenDecl h
    exact ⟨T, hT⟩
  · intro a cs
    exact codegen_ident_bound s a name cs id ty hb
  · intro a e rest dv s1 he hd
    have h1 : s1.symbols.lookup name = some (some (.alloca id ty)) := by
      rw [sym_keep e s (some dv) s1 name he hd]
      exact hb
    simp only [codegen, he, State.symbolsIndex, h1, State.createStore, Option.map]
    rfl
  · intro a a1
    exact codegen_incDec_bound s name id ty a a1 hb
  · intro t v s' y h hd
    exact sym_keep t s v s' y h hd

/-- Witness of `slot_reuse`: after `NUM i` the name `i` is bound to the slot `alloca 0`;
`i` and `i = 1` then read and write that slot, and `i = 1` keeps the binding. -/
theorem slot_reuse_witness :
    declState.symbols.lookup "i" = some (some (.alloca 0 .double)) ∧
    codegen (Node.Ident 1 "i") declState =
      some (some (.inst 2 .double),
        (declState.insert (fun n => .load n .double (.alloca 0 .double) "i")).2) ∧
    codegen (Node.Attr 2 "i" (Node.Int 1 1)) declState =
      some (some (.inst 2 .void),
        (declState.insert (fun n => .store n (.constFP (.ofInt 1)) (.alloca 0 .double))).2) ∧
    (declState.insert (fun n =>
      .store n (.constFP (.ofInt 1)) (.alloca 0 .double))).2.symbols.lookup "i" =
      declState.symbols.lookup "i" :=
  ⟨rfl, (slot_reuse declState "i" 0 .double rfl).2.1 1 [],
    (slot_reuse declState "i" 0 .double rfl).2.2.1 2 (Node.Int 1 1) [] _ declState rfl
      (by decide),
    (slot_reuse declState "i" 0 .double rfl).2.2.2.2 (Node.Attr 2 "i" (Node.Int 1 1)) _ _ "i"
      ((slot_reuse declState "i" 0 .double rfl).2.2.1 2 (Node.Int 1 1) [] _ declState rfl
        (by decide)) (by decide)⟩

theorem terminated_of_closed {l : List Instr} (h : Closed l) : Terminated l := by
  obtain ⟨pre, t, rfl, hp, ht⟩ := h
  exact ⟨pre, t, rfl, hp, isTerminator_of_isBranch ht⟩

theorem terminated_append {l1 l2 : List Instr} (h1 : Open l1) (h2 : Terminated l2) :
    Terminated (l1 ++ l2) := by
  obtain ⟨pre, t, rfl, hp, ht⟩ := h2
  exact ⟨l1 ++ pre, t, by simp, open_append h1 hp, ht⟩

/-- A terminated block has exactly one terminator, and it is its last instruction. -/
theorem terminated_one {l : List Instr} (h : Terminated l) :
    ∃ t, terminators l = [t] ∧ l.getLast? = some t := by
  obtain ⟨pre, t, rfl, hp, ht⟩ := h
  refine ⟨t, ?_, by simp⟩
  unfold terminators
  rw [List.filter_append]
  have : pre.filter Instr.isTerminator = [] := by
    rw [List.filter_eq_nil_iff]
    intro i hi
    simp [hp i hi]
  rw [this]
  simp [ht]

/-- Every lowering that returns preserves the invariant. -/
theorem cfgInv_codegen (n : Node) (s : State) (v : Option Value) (s' : State)
    (hinv : CFGInv s) (h : codegen n s = some (v, s')) : CFGInv s' := by
  obtain ⟨B, hip, hB, hopen, hother⟩ := hinv
  have G := codegen_gen n s v s' B h hip hB
  obtain ⟨B', hip', hB', hor, -⟩ := G.ip
  refine ⟨B', hip', hB', ?_, ?_⟩
  · obtain ⟨added, ha, ho, -⟩ := G.touched B' hB' (by omega) (by simp)
    rw [ha]
    rcases hor with rfl | hge
    · exact open_append hopen (ho hip')
    · rw [instrsAt_of_le s _ hge]
      exact open_append open_nil (ho hip')
  · intro j hj hjB'
    have hne : s'.insertPoint ≠ some j := by
      rw [hip']
      intro heq
      exact hjB' (Option.some.inj heq).symm
    by_cases hjB : j = B
    · subst hjB
      obtain ⟨added, ha, -, hc⟩ := G.touched j hj (Or.inl rfl) (by simp)
      rw [ha]
      exact terminated_append hopen (terminated_of_closed (hc hne))
    · rcases Nat.lt_or_ge j s.blocks.length with hlt | hge
      · rw [G.frame j hlt hjB]
        exact hother j hlt hjB
      · obtain ⟨added, ha, -, hc⟩ := G.touched j hj (Or.inr hge) (by simp)
        rw [ha, instrsAt_of_le s _ hge, List.nil_append]
        exact terminated_of_closed (hc hne)

/-- C20. The invariant "the block at the insertion point has no terminator and every other
block ends in its only terminator" holds of a function whose single block is unterminated
and holds the insertion point, such as the one `generate` starts with; every `codegen` call
that returns preserves it; and `CodeGen::generate`, when the lowering of the program
returns, returns a function every block of which ends in exactly one terminator. -/
theorem lowering_keeps_cfg :
    (∀ (s0 : State) (b : Block), s0.blocks = [b] → s0.insertPoint = some 0 → Open b.instrs →
      CFGInv s0) ∧
    (∀ pf ps : Func, CFGInv (State.setup pf ps)) ∧
    (∀ (n : Node) (s : State) (v : Option Value) (s' : State),
      CFGInv s → codegen n s = some (v, s') → CFGInv s') ∧
    (∀ (s0 : State) (p : Node) (v : Option Value) (s1 : State),
      CFGInv s0 → codegen p s0 = some (v, s1) →
      ∃ s', generateFrom s0 p = some s' ∧ s'.blocks.length = s1.blocks.length ∧
        ∀ j, j < s'.blocks.length →
          Terminated (s'.instrsAt j) ∧
          ∃ t, terminators (s'.instrsAt j) = [t] ∧ (s'.instrsAt j).getLast? = some t) := by
  have single : ∀ (s0 : State) (b : Block), s0.blocks = [b] → s0.insertPoint = some 0 →
      Open b.instrs → CFGInv s0 := by
    intro s0 b hb hip ho
    refine ⟨0, hip, by simp [hb], ?_, ?_⟩
    · simpa [State.instrsAt, hb] using ho
    · intro j hj hj0
      rw [hb] at hj
      simp only [List.length_singleton] at hj
      omega
  refine ⟨single, ?_, cfgInv_codegen, ?_⟩
  · intro pf ps
    exact single _ _ rfl rfl open_nil
  · intro s0 p v s1 hinv h
    obtain ⟨B, hip, hB, hopen, hother⟩ := cfgInv_codegen p s0 v s1 hinv h
    have hlen : (s1.createRet (.constInt 16 0)).2.blocks.length = s1.blocks.length :=
      insert_length s1 (fun id => .ret id (.constInt 16 0))
    refine ⟨(s1.createRet (.constInt 16 0)).2, by simp only [generateFrom, h], hlen, ?_⟩
    intro j hj
    have ht : Terminated ((s1.createRet (.constInt 16 0)).2.instrsAt j) := by
      show Terminated ((s1.insert (fun id => .ret id (.constInt 16 0))).2.instrsAt j)
      by_cases hjB : j = B
      · subst hjB
        rw [insert_instrsAt_self s1 _ j hip hB]
        exact ⟨_, _, rfl, hopen, rfl⟩
      · rw [insert_instrsAt_other s1 _ j (by
          rw [hip]
          intro heq
          exact hjB (Option.some.inj heq).symm)]
        exact hother j (by omega) hjB
    exact ⟨ht, terminated_one ht⟩

/-- Witness of `lowering_keeps_cfg`: `generate` on the program `NUM i; while (i < 50) { i++ }`
returns a function of 4 blocks, each ending in its only terminator; the last one is the
continuation block with the final `ret`. -/
theorem lowering_keeps_cfg_witness :
    ∃ s', generate ⟨"printfloat", .void⟩ ⟨"printstr", .void⟩ progWhile = some s' ∧
      s'.blocks.length = 4 ∧
      s'.instrsAt 3 = [.ret 10 (.constInt 16 0)] ∧
      ∀ j, j < s'.blocks.length →
        Terminated (s'.instrsAt j) ∧
        ∃ t, terminators (s'.instrsAt j) = [t] ∧ (s'.instrsAt j).getLast? = some t := by
  have hc : ∃ r, codegen progWhile (State.setup ⟨"printfloat", .void⟩ ⟨"printstr", .void⟩)
      = some r ∧ r.2.blocks.length = 4 ∧
      (r.2.createRet (.constInt 16 0)).2.instrsAt 3 = [.ret 10 (.constInt 16 0)] := by
    decide
  obtain ⟨⟨v, s1⟩, h, hl, h3⟩ := hc
  obtain ⟨s', hs', hlen, hall⟩ := lowering_keeps_cfg.2.2.2 _ progWhile v s1
    (lowering_keeps_cfg.2.1 _ _) h
  have hs : s' = (s1.createRet (.constInt 16 0)).2 := by
    simp only [generateFrom, h] at hs'
    exact (Option.some.inj hs').symm
  exact ⟨s', hs', by rw [hlen]; exact hl, by rw [hs]; exact h3, hall⟩

/-! ## Properties of `PrintTree` -/

mutual
/-- The records of a tree are, for each node in visit order, its node record followed by its
edge records. -/
theorem printRecursive_eq (dts : Double → String) : ∀ (n : Node),
    printRecursive dts n = (postorder n).flatMap (fun u => u.record dts :: u.edges)
  | .mk a k cs => by
    rw [printRecursive, postorder, List.flatMap_append, printRecursiveList_eq dts cs]
    simp [Node.record, Node.edges, Node.addr, Node.getChildren]
theorem printRecursiveList_eq (dts : Double → String) : ∀ (cs : List Node),
    printRecursiveList dts cs = (postorderList cs).flatMap (fun u => u.record dts :: u.edges)
  | [] => rfl
  | c :: cs => by
    rw [printRecursiveList, postorderList, List.flatMap_append, printRecursive_eq dts c,
      printRecursiveList_eq dts cs]
end

theorem childAddrs_append (l1 l2 : List Node) :
    childAddrs (l1 ++ l2) = childAddrs l1 ++ childAddrs l2 := by
  unfold childAddrs
  rw [List.flatMap_append]

theorem perm_rearrange (A B C : List Nat) (x : Nat) :
    (A ++ B ++ x :: C).Perm ((A ++ [x]) ++ (B ++ C)) := by
  have h1 : A ++ B ++ x :: C = A ++ (B ++ x :: C) := by simp
  have h2 : (A ++ [x]) ++ (B ++ C) = A ++ (x :: (B ++ C)) := by simp
  rw [h1, h2]
  exact List.Perm.append_left A List.perm_middle

mutual
/-- The identities of the children of all nodes of a tree, with the identity of the root,
are the identities of the nodes of the tree. -/
theorem childAddrs_perm : ∀ (n : Node),
    (childAddrs (postorder n) ++ [n.addr]).Perm ((postorder n).map Node.addr)
  | .mk a k cs => by
    rw [postorder, childAddrs_append, List.map_append]
    have h := childAddrs_perm_list cs
    have e : childAddrs [Node.mk a k cs] = cs.map Node.addr := by
      simp [childAddrs, Node.getChildren]
    rw [e]
    exact List.Perm.append_right _ h
theorem childAddrs_perm_list : ∀ (cs : List Node),
    (childAddrs (postorderList cs) ++ cs.map Node.addr).Perm
      ((postorderList cs).map Node.addr)
  | [] => by simp [postorderList, childAddrs]
  | c :: cs => by
    rw [postorderList, childAddrs_append, List.map_append, List.map_cons]
    exact (perm_rearrange _ _ _ _).trans
      (List.Perm.append (childAddrs_perm c) (childAddrs_perm_list cs))
end

end EmojiLang
